import Mathlib

/-!
# procgen: the rule buffer of an L-system and its reconciliation with the rule store

A shallow embedding of `src/LSystemBuffer.cpp` (`procgui::LSystemBuffer`).

* The buffer `buffer_` is a linked list of tuples `(validity, predecessor, successor)`.
  Iterators into it are node identities: every node carries a number `node`
  that never changes while the node lives, and `fresh` is the next unused one.
  The identities from `fresh` on belong to no node yet and play the part of
  `end()`; an identity below `fresh` that is not in the buffer is the iterator
  of an erased node, which `Expects(cit != buffer_.end())` cannot tell from a
  live one: using it is the outcome `dangling`.
* The rule store (`LSystem`) and the helpers `find_duplicate` / `find_existing`
  live in other files of the repository; they are modelled from the
  specification: the store as an association list with `add_rule`, `remove_rule`
  and a synchronous notification of the buffer's `sync`.
* Statements about what a call returns have the form "for every fuel from some
  bound on, the call returns this state"; `sync_det` shows that a run that
  returns with less fuel returns the same state.
* `sync` re-enters itself through the store's notification, so it is defined by
  recursion on a fuel argument; running out of fuel is the outcome `diverged`.
* `Shared` is the same program with two buffers constructed on one store: the
  store runs the `sync` of both after every mutation, in the order in which the
  constructors registered their callback.
-/

namespace procgui

/-- The C++ type alias `predecessor` (a `char`). -/
abbrev predecessor := Char

/-- The C++ type alias `successor` (a `std::string`). -/
abbrev successor := String

/-- The null character, the predecessor of a scratch entry. -/
def null : predecessor := Char.ofNat 0

/-- The rules of an `LSystem`, in iteration order. -/
abbrev production_rules := List (predecessor × successor)

namespace LSystem

/-- Modelled from the spec: `LSystem::get_rules().count(pred) > 0`, whether the
store holds a rule for `pred` (the store class is not among the sources). -/
def has_rule (rules : production_rules) (pred : predecessor) : Bool :=
  rules.any (fun r => r.1 == pred)

/-- Modelled from the spec: the expansion the store maps `pred` to, if any. -/
def get_rule (rules : production_rules) (pred : predecessor) : Option successor :=
  (rules.find? (fun r => r.1 == pred)).map (fun r => r.2)

/-- Modelled from the spec: `LSystem::add_rule`, "insert or overwrite, total"
(the store class is not among the sources). An existing key keeps its place in
the iteration order, a new key is iterated last. -/
def add_rule (rules : production_rules) (pred : predecessor) (succ : successor) :
    production_rules :=
  if has_rule rules pred then
    rules.map (fun r => if r.1 == pred then (pred, succ) else r)
  else
    rules ++ [(pred, succ)]

/-- Modelled from the spec: `LSystem::remove_rule`, "delete if present, no-op
otherwise" (the store class is not among the sources). -/
def remove_rule (rules : production_rules) (pred : predecessor) : production_rules :=
  rules.filter (fun r => r.1 != pred)

end LSystem

/-- One node of `buffer_`: the tuple `(validity, predecessor, successor)` together
with the identity of the list node holding it. -/
structure Entry where
  node : Nat
  valid : Bool
  pred : predecessor
  succ : successor
deriving DecidableEq, Repr

/-- The closure stored in `instruction_` by the `delayed_*` members. -/
inductive Instruction where
  | add_rule
  | erase (cit : Nat)
  | change_predecessor (cit : Nat) (pred : predecessor)
  | remove_predecessor (cit : Nat)
  | change_successor (cit : Nat) (succ : successor)
deriving DecidableEq, Repr

/-- The state of a `LSystemBuffer` together with the `LSystem` it observes:
`lsys` are the rules of `lsys_::target_`, `buffer` is `buffer_`, `instruction`
is `instruction_` and `fresh` is the next unused node identity. -/
structure LSystemBuffer where
  lsys : production_rules
  buffer : List Entry
  instruction : Option Instruction
  fresh : Nat
deriving DecidableEq, Repr

/-- How a call ends: it returns (`done`), an `Expects` fails in the given state
(`violation`), an iterator is used after its node was erased (`dangling`), or the
fuel of the model is used up (`diverged`). -/
inductive Outcome where
  | done (st : LSystemBuffer)
  | violation (st : LSystemBuffer)
  | dangling
  | diverged
deriving DecidableEq, Repr

namespace LSystemBuffer

/-- The constructor's loop body and `buffer_.push_back({valid, pred, succ})`. -/
def push_back (st : LSystemBuffer) (valid : Bool) (pred : predecessor) (succ : successor) :
    LSystemBuffer :=
  { st with buffer := st.buffer ++ [⟨st.fresh, valid, pred, succ⟩], fresh := st.fresh + 1 }

/-- The constructor `LSystemBuffer(lsys)`: one valid entry per rule, in the
order of the store, and no pending instruction. -/
def construct (rules : production_rules) : LSystemBuffer :=
  rules.foldl (fun st rule => push_back st true rule.1 rule.2)
    { lsys := rules, buffer := [], instruction := none, fresh := 0 }

/-- Dereferencing an iterator: the entry of the node `cit`, or `none` when `cit`
is not a node of the buffer (it is `end()` or the iterator of an erased node). -/
def deref (st : LSystemBuffer) (cit : Nat) : Option Entry :=
  st.buffer.find? (fun t => t.node == cit)

/-- The assignment `*it = {valid, pred, succ}` through the iterator `cit`. -/
def assign (buffer : List Entry) (cit : Nat) (valid : Bool) (pred : predecessor)
    (succ : successor) : List Entry :=
  buffer.map (fun t => if t.node == cit then ⟨cit, valid, pred, succ⟩ else t)

/-- The erasure `buffer_.erase(cit)` of one node. -/
def erase_node (buffer : List Entry) (cit : Nat) : List Entry :=
  buffer.filter (fun t => t.node != cit)

/-- Modelled from the spec: `has_duplicate` through the helper `find_duplicate`,
which is not among the sources: "true iff some other entry shares this entry's
predecessor". -/
def has_duplicate (st : LSystemBuffer) (cit : Nat) : Bool :=
  match deref st cit with
  | none => false
  | some t => st.buffer.any (fun u => u.node != cit && u.pred == t.pred)

/-- Modelled from the spec: `find_existing` through the helper of the same name,
which is not among the sources: "first entry (by order) with that predecessor". -/
def find_existing (st : LSystemBuffer) (pred : predecessor) : Option Entry :=
  st.buffer.find? (fun t => t.pred == pred)

/-- The body of the first loop of `sync` for one rule of the store. -/
def sync_rule (st : LSystemBuffer) (rule : predecessor × successor) : LSystemBuffer :=
  match st.buffer.find? (fun t => t.pred == rule.1 && t.valid) with
  | some t =>
    { st with buffer :=
        st.buffer.map (fun u => if u.node == t.node then { u with succ := rule.2 } else u) }
  | none => push_back st true rule.1 rule.2

/-- The first loop of `sync`: every rule of the store overwrites the successor of
the first valid entry with its predecessor, or is appended as a new valid entry. -/
def sync_pass1 (st : LSystemBuffer) : LSystemBuffer :=
  st.lsys.foldl sync_rule st

/-- The test of the second loop of `sync`: a valid entry with a non-null
predecessor that the store does not know. -/
def stale (rules : production_rules) (t : Entry) : Bool :=
  t.valid && t.pred != null && !LSystem.has_rule rules t.pred

/-- The second loop of `sync`: the stale entries are erased. -/
def sync_pass2 (st : LSystemBuffer) : LSystemBuffer :=
  { st with buffer := st.buffer.filter (fun t => !stale st.lsys t) }

/-- The iterator `buffer_.begin()`. -/
def begin_ (buffer : List Entry) : Option Nat :=
  buffer.head?.map (fun t => t.node)

/-- The increment `++it` of an iterator at the node `it`: the next node, or
`none` for `end()`. -/
def next (buffer : List Entry) (it : Nat) : Option Nat :=
  match buffer.dropWhile (fun t => t.node != it) with
  | _ :: u :: _ => some u.node
  | _ => none

/-- The inner loop of the third loop of `sync`: does another node carry the
predecessor of the node `it`. -/
def duplicate_of (buffer : List Entry) (it : Nat) (pred : predecessor) : Bool :=
  buffer.any (fun u => u.node != it && u.pred == pred)

/-- The assignment `std::get<validity>(*it) = true`. -/
def set_valid (buffer : List Entry) (it : Nat) : List Entry :=
  buffer.map (fun t => if t.node == it then { t with valid := true } else t)

/-- The third loop of `sync`, from the iterator `it` on. `notify` is what the
store runs after a mutation (the callback registered by the constructor); the
first argument bounds the number of iterations. -/
def sync_pass3 (notify : LSystemBuffer → Outcome) :
    Nat → LSystemBuffer → Option Nat → Outcome
  | 0, _, _ => Outcome.diverged
  | _ + 1, st, none => Outcome.done st
  | k + 1, st, some it =>
    match deref st it with
    | none => Outcome.dangling
    | some t =>
      if !t.valid && !duplicate_of st.buffer it t.pred then
        match notify { st with buffer := set_valid st.buffer it,
                               lsys := LSystem.add_rule st.lsys t.pred t.succ } with
        | Outcome.done st1 =>
          match deref st1 it with
          | none => Outcome.dangling
          | some _ => sync_pass3 notify k st1 (next st1.buffer it)
        | o => o
      else sync_pass3 notify k st (next st.buffer it)

/-- The member `sync`. The fuel bounds both the depth of the re-entrant calls
made through the store and the length of the third loop. -/
def sync : Nat → LSystemBuffer → Outcome
  | 0, _ => Outcome.diverged
  | n + 1, st =>
    sync_pass3 (sync n) n (sync_pass2 (sync_pass1 st))
      (begin_ (sync_pass2 (sync_pass1 st)).buffer)

/-- The call `lsys_::target_->add_rule(pred, succ)`: the store is changed and
then notifies the buffer. -/
def target_add_rule (notify : LSystemBuffer → Outcome) (st : LSystemBuffer)
    (pred : predecessor) (succ : successor) : Outcome :=
  notify { st with lsys := LSystem.add_rule st.lsys pred succ }

/-- The call `lsys_::target_->remove_rule(pred)`: the store is changed and then
notifies the buffer. -/
def target_remove_rule (notify : LSystemBuffer → Outcome) (st : LSystemBuffer)
    (pred : predecessor) : Outcome :=
  notify { st with lsys := LSystem.remove_rule st.lsys pred }

/-- What a mutator does with an iterator `cit` that is not a node of the buffer.
The identities from `fresh` on are `end()`: `Expects(cit != buffer_.end())` fails
before anything has changed. An identity below `fresh` is the iterator of an
erased node: it is not `end()`, so the `Expects` passes, and the following `*cit`
reads a node that is gone. -/
def not_live (st : LSystemBuffer) (cit : Nat) : Outcome :=
  if cit < st.fresh then Outcome.dangling else Outcome.violation st

/-- The member `add_rule`: a scratch entry is appended. -/
def add_rule (st : LSystemBuffer) : LSystemBuffer :=
  push_back st true null ""

/-- The member `erase`. -/
def erase (n : Nat) (st : LSystemBuffer) (cit : Nat) : Outcome :=
  match deref st cit with
  | none => not_live st cit
  | some t =>
    if t.valid && t.pred != null then
      target_remove_rule (sync n) st t.pred
    else
      Outcome.done { st with buffer := erase_node st.buffer cit }

/-- The member `remove_predecessor`. -/
def remove_predecessor (n : Nat) (st : LSystemBuffer) (cit : Nat) : Outcome :=
  match deref st cit with
  | none => not_live st cit
  | some t =>
    if t.valid then
      target_remove_rule (sync n)
        { st with buffer := assign st.buffer cit true null t.succ } t.pred
    else
      Outcome.done { st with buffer := assign st.buffer cit true null t.succ }

/-- The member `change_predecessor`. -/
def change_predecessor (n : Nat) (st : LSystemBuffer) (cit : Nat) (pred : predecessor) :
    Outcome :=
  match deref st cit with
  | none => not_live st cit
  | some t =>
    if pred == null then
      remove_predecessor n st cit
    else
      let old_has_duplicate := has_duplicate st cit
      let duplicate := (find_existing st pred).isSome
      let st1 := { st with buffer := assign st.buffer cit (!duplicate) pred t.succ }
      match (if !duplicate then target_add_rule (sync n) st1 pred t.succ
             else Outcome.done st1) with
      | Outcome.done st2 =>
        if !old_has_duplicate && t.pred != null then
          target_remove_rule (sync n) st2 t.pred
        else
          Outcome.done st2
      | o => o

/-- The member `change_successor`. -/
def change_successor (n : Nat) (st : LSystemBuffer) (cit : Nat) (succ : successor) :
    Outcome :=
  match deref st cit with
  | none => not_live st cit
  | some t =>
    if t.valid then
      target_add_rule (sync n)
        { st with buffer := assign st.buffer cit t.valid t.pred succ } t.pred succ
    else
      Outcome.done { st with buffer := assign st.buffer cit t.valid t.pred succ }


/-! ### Invariants and the closed form of `sync` -/

/-- Representation invariant: the nodes of the buffer have pairwise different
identities, all below `fresh`, and the store has at most one rule per symbol. -/
def WF (st : LSystemBuffer) : Prop :=
  (st.buffer.map (fun t => t.node)).Nodup ∧ (∀ t ∈ st.buffer, t.node < st.fresh) ∧
    (st.lsys.map (fun r => r.1)).Nodup

/-- Uniqueness: no two valid entries share a non-null predecessor. -/
def Uniq (st : LSystemBuffer) : Prop :=
  ∀ t ∈ st.buffer, ∀ u ∈ st.buffer,
    t.valid = true → u.valid = true → t.pred = u.pred → t.pred ≠ null → t = u

/-- Consistency: the (predecessor, successor) pairs of the valid entries with a
non-null predecessor are exactly the rules of the store. -/
def Consistent (st : LSystemBuffer) : Prop :=
  (∀ t ∈ st.buffer, t.valid = true → t.pred ≠ null → (t.pred, t.succ) ∈ st.lsys) ∧
    (∀ r ∈ st.lsys, ∃ t ∈ st.buffer,
      t.valid = true ∧ t.pred ≠ null ∧ t.pred = r.1 ∧ t.succ = r.2)

/-- Every invalid entry shares its predecessor with another entry. -/
def Shadowed (st : LSystemBuffer) : Prop :=
  ∀ t ∈ st.buffer, t.valid = false → duplicate_of st.buffer t.node t.pred = true

/-- The rule `r` of the store is mirrored: the first valid entry with its
predecessor exists and carries its successor. -/
def Mirrored (buffer : List Entry) (r : predecessor × successor) : Prop :=
  ∃ t, buffer.find? (fun t => t.pred == r.1 && t.valid) = some t ∧ t.succ = r.2

/-- A state on which the first two loops of `sync` have nothing to do. -/
def Stable (st : LSystemBuffer) : Prop :=
  (∀ r ∈ st.lsys, Mirrored st.buffer r) ∧ (∀ t ∈ st.buffer, stale st.lsys t = false)

/-- The entries the third loop of `sync` promotes: invalid and without a
duplicate. -/
def promotable (buffer : List Entry) (t : Entry) : Bool :=
  !t.valid && !duplicate_of buffer t.node t.pred

/-- Closed form of the third loop of `sync` on a stable state: every promotable
entry becomes valid and its rule is added to the store, in buffer order. -/
def promote_all (st : LSystemBuffer) : LSystemBuffer :=
  { st with
    buffer := st.buffer.map (fun t => if promotable st.buffer t then { t with valid := true } else t),
    lsys := st.lsys ++ (st.buffer.filter (promotable st.buffer)).map (fun t => (t.pred, t.succ)) }

/-- Closed form of `sync`: the two first loops, then all promotions. -/
def sync_result (st : LSystemBuffer) : LSystemBuffer :=
  promote_all (sync_pass2 (sync_pass1 st))

/-- Fuel that is enough for `sync` on the state `st`. -/
def sync_fuel (st : LSystemBuffer) : Nat :=
  (sync_pass2 (sync_pass1 st)).buffer.length +
    ((sync_pass2 (sync_pass1 st)).buffer.filter (fun t => !t.valid)).length + 2

/-- One promotion of the third loop of `sync`: the entry `t` becomes valid and
its rule is added to the store (the state the store then notifies). -/
def promote (st : LSystemBuffer) (t : Entry) : LSystemBuffer :=
  { st with buffer := set_valid st.buffer t.node,
            lsys := LSystem.add_rule st.lsys t.pred t.succ }

instance (st : LSystemBuffer) : Decidable (WF st) := by
  unfold WF; infer_instance

instance (st : LSystemBuffer) : Decidable (Uniq st) := by
  unfold Uniq; infer_instance

instance (st : LSystemBuffer) : Decidable (Consistent st) := by
  unfold Consistent; infer_instance

instance (st : LSystemBuffer) : Decidable (Shadowed st) := by
  unfold Shadowed; infer_instance

/-- A state after out-of-band changes of the store: the rule `F` is not mirrored
yet, the successor of `G` is out of date, `K` has lost its rule, and the latent
entry `H` has lost the entry that shadowed it. -/
def unsynced_state : LSystemBuffer :=
  { lsys := [('F', "FF"), ('G', "GG")],
    buffer := [⟨0, true, 'G', "G"⟩, ⟨1, false, 'H', "HH"⟩, ⟨2, true, 'K', "K"⟩,
      ⟨3, true, null, "s"⟩],
    instruction := none, fresh := 4 }

/-- A state that satisfies none of the invariants: the store has a rule for the
null symbol, two valid entries share `G`, and an invalid entry has a null
predecessor. -/
def odd_state : LSystemBuffer :=
  { lsys := [('F', "FF"), (null, "GG")],
    buffer := [⟨0, true, 'G', "G"⟩, ⟨1, false, 'H', "HH"⟩, ⟨2, true, 'G', "K"⟩,
      ⟨3, false, null, "s"⟩],
    instruction := none, fresh := 4 }

/-- The states reachable from `construct` by the public mutators; with `oob` also
by out-of-band `add_rule` / `remove_rule` calls on the store (each of which
notifies the buffer, that is, runs `sync`) and by `sync` itself. -/
inductive Reachable ( oob : Bool) : LSystemBuffer → Prop where
  | construct (rules : production_rules) (h : (rules.map (fun r => r.1)).Nodup) :
      Reachable oob (construct rules)
  | add_rule {st : LSystemBuffer} : Reachable oob st → Reachable oob (add_rule st)
  | erase {st st2 : LSystemBuffer} (n cit : Nat) :
      Reachable oob st → erase n st cit = Outcome.done st2 → Reachable oob st2
  | change_predecessor {st st2 : LSystemBuffer} (n cit : Nat) (pred : predecessor) :
      Reachable oob st → change_predecessor n st cit pred = Outcome.done st2 →
      Reachable oob st2
  | remove_predecessor {st st2 : LSystemBuffer} (n cit : Nat) :
      Reachable oob st → remove_predecessor n st cit = Outcome.done st2 → Reachable oob st2
  | change_successor {st st2 : LSystemBuffer} (n cit : Nat) (succ : successor) :
      Reachable oob st → change_successor n st cit succ = Outcome.done st2 →
      Reachable oob st2
  | store_add_rule {st st2 : LSystemBuffer} (n : Nat) (pred : predecessor)
      (succ : successor) : oob = true →
      Reachable oob st → target_add_rule (sync n) st pred succ = Outcome.done st2 →
      Reachable oob st2
  | store_remove_rule {st st2 : LSystemBuffer} (n : Nat) (pred : predecessor) :
      oob = true →
      Reachable oob st → target_remove_rule (sync n) st pred = Outcome.done st2 →
      Reachable oob st2
  | sync {st st2 : LSystemBuffer} (n : Nat) : oob = true →
      Reachable oob st → sync n st = Outcome.done st2 → Reachable oob st2

/-- The state of scenario B: the store `{F: "FF"}`, its valid entry, and a latent
entry that duplicates `F`. -/
def shadowed_state : LSystemBuffer :=
  { lsys := [('F', "FF")],
    buffer := [⟨0, true, 'F', "FF"⟩, ⟨1, false, 'F', ""⟩],
    instruction := none, fresh := 2 }

/-- The state of scenario B after the store lost `F` out of band: the latent
entry has been promoted. -/
def promoted_state : LSystemBuffer :=
  { lsys := [('F', "")],
    buffer := [⟨1, true, 'F', ""⟩],
    instruction := none, fresh := 2 }

/-- An empty store with two scratch entries. -/
def two_scratch_state : LSystemBuffer :=
  { lsys := [],
    buffer := [⟨0, true, null, ""⟩, ⟨1, true, null, ""⟩],
    instruction := none, fresh := 2 }

/-- A state with an invalid entry whose predecessor is null, shadowed by a
scratch entry only. -/
def latent_null_state : LSystemBuffer :=
  { lsys := [],
    buffer := [⟨0, true, null, "s"⟩, ⟨1, false, null, "t"⟩],
    instruction := none, fresh := 2 }

/-- The state of scenario A before the promotion: the empty store and one scratch
entry with the successor `"FF"`. -/
def scratch_state : LSystemBuffer :=
  { lsys := [],
    buffer := [⟨0, true, null, "FF"⟩],
    instruction := none, fresh := 1 }

/-- A consistent state with the rules `F` and `G` and a scratch entry. -/
def two_rules_state : LSystemBuffer :=
  { lsys := [('F', "FF"), ('G', "GG")],
    buffer := [⟨0, true, 'F', "FF"⟩, ⟨1, true, 'G', "GG"⟩, ⟨2, true, null, "x"⟩],
    instruction := none, fresh := 3 }

/-- A consistent state in which the valid entry of `G` is shadowed by one latent
entry that precedes it in the buffer. -/
def latent_first_state : LSystemBuffer :=
  { lsys := [('F', "FF"), ('G', "GG")],
    buffer := [⟨0, false, 'G', "x"⟩, ⟨1, true, 'G', "GG"⟩, ⟨2, true, 'F', "FF"⟩,
      ⟨3, true, null, ""⟩],
    instruction := none, fresh := 4 }

/-- The assignment `instruction_ = [=](){ ... }` shared by the five `delayed_*`
members: the closure is stored, nothing is run. -/
def delayed (i : Instruction) (st : LSystemBuffer) : LSystemBuffer :=
  { st with instruction := some i }

/-- The member `delayed_add_rule`. -/
def delayed_add_rule (st : LSystemBuffer) : LSystemBuffer :=
  delayed Instruction.add_rule st

/-- The member `delayed_erase`. -/
def delayed_erase (st : LSystemBuffer) (cit : Nat) : LSystemBuffer :=
  delayed (Instruction.erase cit) st

/-- The member `delayed_change_predecessor`. -/
def delayed_change_predecessor (st : LSystemBuffer) (cit : Nat) (pred : predecessor) :
    LSystemBuffer :=
  delayed (Instruction.change_predecessor cit pred) st

/-- The member `delayed_remove_predecessor`. -/
def delayed_remove_predecessor (st : LSystemBuffer) (cit : Nat) : LSystemBuffer :=
  delayed (Instruction.remove_predecessor cit) st

/-- The member `delayed_change_successor`. -/
def delayed_change_successor (st : LSystemBuffer) (cit : Nat) (succ : successor) :
    LSystemBuffer :=
  delayed (Instruction.change_successor cit succ) st

/-- The call `instruction_()`: the body of the stored closure. -/
def call (i : Instruction) (n : Nat) (st : LSystemBuffer) : Outcome :=
  match i with
  | Instruction.add_rule => Outcome.done (add_rule st)
  | Instruction.erase cit => erase n st cit
  | Instruction.change_predecessor cit pred => change_predecessor n st cit pred
  | Instruction.remove_predecessor cit => remove_predecessor n st cit
  | Instruction.change_successor cit succ => change_successor n st cit succ

/-- The member `apply`: a pending instruction is called and then the slot is
cleared. -/
def apply (n : Nat) (st : LSystemBuffer) : Outcome :=
  match st.instruction with
  | none => Outcome.done st
  | some i =>
    match call i n st with
    | Outcome.done st1 => Outcome.done { st1 with instruction := none }
    | o => o

/-- The outcome `o` with the slot `instruction_` holding `i` instead. -/
def with_instruction (i : Option Instruction) (o : Outcome) : Outcome :=
  match o with
  | Outcome.done st => Outcome.done { st with instruction := i }
  | Outcome.violation st => Outcome.violation { st with instruction := i }
  | Outcome.dangling => Outcome.dangling
  | Outcome.diverged => Outcome.diverged

/-- What `apply()` makes of the outcome `o` of the instruction `i` it called: on
return the slot is cleared, a precondition violation happens with the instruction
still pending. -/
def applied (i : Instruction) (o : Outcome) : Outcome :=
  match o with
  | Outcome.done st => Outcome.done { st with instruction := none }
  | Outcome.violation st => Outcome.violation { st with instruction := some i }
  | Outcome.dangling => Outcome.dangling
  | Outcome.diverged => Outcome.diverged

/-- The instruction `i` can be called in the state `st`: the iterator its
closure captured, if it takes one, is a node of the buffer. -/
def live (st : LSystemBuffer) : Instruction → Bool
  | Instruction.add_rule => true
  | Instruction.erase cit => (deref st cit).isSome
  | Instruction.change_predecessor cit _ => (deref st cit).isSome
  | Instruction.remove_predecessor cit => (deref st cit).isSome
  | Instruction.change_successor cit _ => (deref st cit).isSome

/-- A reachable state with one latent entry and nothing that shadows it. -/
def lone_latent_state : LSystemBuffer :=
  { lsys := [],
    buffer := [⟨2, false, 'F', ""⟩],
    instruction := none, fresh := 3 }

/-! ### Two buffers observing one store -/

/-- The members one `LSystemBuffer` object owns: `buffer_`, `instruction_` and
the next unused node identity of its list. -/
structure Subscriber where
  buffer : List Entry
  instruction : Option Instruction
  fresh : Nat
deriving DecidableEq, Repr

/-- Two `LSystemBuffer` objects constructed on the same `std::shared_ptr<LSystem>`:
the rules of the store they share and the two objects, `first` being the one
whose constructor registered its callback `[this](){sync();}` first. -/
structure Shared where
  lsys : production_rules
  first : Subscriber
  second : Subscriber
deriving DecidableEq, Repr

/-- How a call on one of two buffers sharing a store ends, as `Outcome`. -/
inductive SharedOutcome where
  | done (sh : Shared)
  | violation (sh : Shared)
  | dangling
  | diverged
deriving DecidableEq, Repr

/-- What one of the two objects sees: the shared store and its own members.
`who = false` is the first subscriber, `who = true` the second. -/
def Shared.view (who : Bool) (sh : Shared) : LSystemBuffer :=
  if who then ⟨sh.lsys, sh.second.buffer, sh.second.instruction, sh.second.fresh⟩
  else ⟨sh.lsys, sh.first.buffer, sh.first.instruction, sh.first.fresh⟩

/-- The effect on the shared state of one object moving to the state `st`. -/
def Shared.update (who : Bool) (sh : Shared) (st : LSystemBuffer) : Shared :=
  if who then ⟨st.lsys, sh.first, ⟨st.buffer, st.instruction, st.fresh⟩⟩
  else ⟨st.lsys, ⟨st.buffer, st.instruction, st.fresh⟩, sh.second⟩

/-- The third loop of `sync` run by the object `who`, as `sync_pass3`; `notify`
is what the shared store runs after `add_rule`. -/
def Shared.sync_pass3 (who : Bool) (notify : Shared → SharedOutcome) :
    Nat → Shared → Option Nat → SharedOutcome
  | 0, _, _ => SharedOutcome.diverged
  | _ + 1, sh, none => SharedOutcome.done sh
  | k + 1, sh, some it =>
    match deref (Shared.view who sh) it with
    | none => SharedOutcome.dangling
    | some t =>
      if !t.valid && !duplicate_of (Shared.view who sh).buffer it t.pred then
        match notify (Shared.update who sh
            { Shared.view who sh with
              buffer := set_valid (Shared.view who sh).buffer it,
              lsys := LSystem.add_rule (Shared.view who sh).lsys t.pred t.succ }) with
        | SharedOutcome.done sh1 =>
          match deref (Shared.view who sh1) it with
          | none => SharedOutcome.dangling
          | some _ => Shared.sync_pass3 who notify k sh1 (next (Shared.view who sh1).buffer it)
        | o => o
      else Shared.sync_pass3 who notify k sh (next (Shared.view who sh).buffer it)

/-- The member `sync` run by the object `who`: the first two loops work on its
own buffer, the third one may call the shared store. -/
def Shared.sync_with (who : Bool) (notify : Shared → SharedOutcome) (k : Nat) (sh : Shared) :
    SharedOutcome :=
  Shared.sync_pass3 who notify k
    (Shared.update who sh (sync_pass2 (sync_pass1 (Shared.view who sh))))
    (begin_ (sync_pass2 (sync_pass1 (Shared.view who sh))).buffer)

/-- Modelled from the spec: the notification of the store, "the store notifies
all subscribed buffers synchronously after each mutation" (the observer class
is not among the sources). The callbacks run in the order of registration; the
fuel bounds the depth of the re-entrant calls and the length of the third loops. -/
def Shared.notify : Nat → Shared → SharedOutcome
  | 0, _ => SharedOutcome.diverged
  | n + 1, sh =>
    match Shared.sync_with false (Shared.notify n) n sh with
    | SharedOutcome.done sh1 => Shared.sync_with true (Shared.notify n) n sh1
    | o => o

/-- The member `change_successor` called on the object `who`. -/
def Shared.change_successor (who : Bool) (n : Nat) (sh : Shared) (cit : Nat)
    (succ : successor) : SharedOutcome :=
  match deref (Shared.view who sh) cit with
  | none =>
    if cit < (Shared.view who sh).fresh then SharedOutcome.dangling
    else SharedOutcome.violation sh
  | some t =>
    if t.valid then
      Shared.notify n (Shared.update who sh
        { Shared.view who sh with
          buffer := assign (Shared.view who sh).buffer cit t.valid t.pred succ,
          lsys := LSystem.add_rule (Shared.view who sh).lsys t.pred succ })
    else
      SharedOutcome.done (Shared.update who sh
        { Shared.view who sh with
          buffer := assign (Shared.view who sh).buffer cit t.valid t.pred succ })

/-- Two buffers on the store `F -> FF, G -> GG`: the first lists the rules in
the order of the store, the second one in the other order, with a latent
duplicate of `F` and a scratch entry. -/
def siblings_state : Shared :=
  { lsys := [('F', "FF"), ('G', "GG")],
    first := ⟨[⟨0, true, 'F', "FF"⟩, ⟨1, true, 'G', "GG"⟩], none, 2⟩,
    second := ⟨[⟨0, true, 'G', "GG"⟩, ⟨1, true, 'F', "FF"⟩, ⟨2, false, 'F', "F+F"⟩,
      ⟨3, true, null, ""⟩], none, 4⟩ }

/-- Every invalid entry carries a real symbol: its predecessor is not null. -/
def LatentReal (st : LSystemBuffer) : Prop :=
  ∀ t ∈ st.buffer, t.valid = false → t.pred ≠ null

instance (st : LSystemBuffer) : Decidable (LatentReal st) := by
  unfold LatentReal; infer_instance

/-- The number of invalid entries of a buffer: the measure that bounds the
re-entrant calls of `sync`. -/
def invalid_count (buffer : List Entry) : Nat :=
  (buffer.filter (fun t => !t.valid)).length

end LSystemBuffer

end procgui

namespace procgui

namespace LSystemBuffer

/-! ### Nodes and iterators -/

/-- A mutator called with an iterator that is not a node of the buffer does not
return. -/
@[simp]
theorem not_live_ne_done (st st2 : LSystemBuffer) (cit : Nat) :
    (not_live st cit = Outcome.done st2) ↔ False := by
  unfold not_live
  constructor
  · intro h
    split at h <;> exact Outcome.noConfusion h
  · exact False.elim

theorem node_inj {b : List Entry} (h : (b.map (fun t => t.node)).Nodup) {t u : Entry}
    (ht : t ∈ b) (hu : u ∈ b) (e : t.node = u.node) : t = u :=
  List.inj_on_of_nodup_map h ht hu e

theorem find_node_split (pre suf : List Entry) (t : Entry)
    (h : ((pre ++ t :: suf).map (fun t => t.node)).Nodup) :
    (pre ++ t :: suf).find? (fun u => u.node == t.node) = some t := by
  induction pre with
  | nil => simp
  | cons a pre ih =>
    rw [List.cons_append, List.map_cons, List.nodup_cons] at h
    have hne : a.node ≠ t.node := fun e =>
      h.1 (by rw [e]; exact List.mem_map_of_mem _ (by simp))
    simp [List.find?_cons, hne, ih h.2]

theorem next_split (pre suf : List Entry) (t : Entry)
    (h : ((pre ++ t :: suf).map (fun t => t.node)).Nodup) :
    next (pre ++ t :: suf) t.node = begin_ suf := by
  induction pre with
  | nil => cases suf <;> simp [next, begin_, List.dropWhile]
  | cons a pre ih =>
    rw [List.cons_append, List.map_cons, List.nodup_cons] at h
    have hne : a.node ≠ t.node := fun e =>
      h.1 (by rw [e]; exact List.mem_map_of_mem _ (by simp))
    have hb : (a.node != t.node) = true := by simpa using hne
    rw [← ih h.2]
    simp only [next, List.cons_append, List.dropWhile_cons, hb, if_true]

theorem deref_of_mem {st : LSystemBuffer} (h : (st.buffer.map (fun t => t.node)).Nodup)
    {t : Entry} (ht : t ∈ st.buffer) : deref st t.node = some t := by
  obtain ⟨pre, suf, e⟩ := List.append_of_mem ht
  unfold deref
  rw [e] at h ⊢
  exact find_node_split pre suf t h

theorem deref_some {st : LSystemBuffer} {cit : Nat} {t : Entry} (h : deref st cit = some t) :
    t ∈ st.buffer ∧ t.node = cit := by
  unfold deref at h
  refine ⟨List.mem_of_find?_eq_some h, ?_⟩
  have := List.find?_some h
  simpa using this

/-! ### The first loop of `sync` -/

/-- The nodes of the buffer are pairwise different and below `fresh`. -/
theorem push_back_nodes {st : LSystemBuffer} (v : Bool) (p : predecessor) (s : successor)
    (h : (st.buffer.map (fun t => t.node)).Nodup ∧ ∀ t ∈ st.buffer, t.node < st.fresh) :
    ((push_back st v p s).buffer.map (fun t => t.node)).Nodup ∧
      ∀ t ∈ (push_back st v p s).buffer, t.node < (push_back st v p s).fresh := by
  obtain ⟨h1, h2⟩ := h
  constructor
  · simp only [push_back, List.map_append, List.map_cons, List.map_nil]
    rw [List.nodup_append]
    refine ⟨h1, by simp, ?_⟩
    intro a ha hb
    simp only [List.mem_singleton] at hb
    obtain ⟨t, ht, rfl⟩ := List.mem_map.1 ha
    have := h2 t ht
    omega
  · intro t ht
    simp only [push_back, List.mem_append, List.mem_singleton] at ht ⊢
    rcases ht with ht | rfl
    · have := h2 t ht
      omega
    · simp

theorem map_succ_nodes (b : List Entry) (f : Entry → Entry) (hf : ∀ t, (f t).node = t.node) :
    (b.map f).map (fun t => t.node) = b.map (fun t => t.node) := by
  rw [List.map_map]
  exact List.map_congr_left (fun t _ => hf t)

theorem sync_rule_lsys (st : LSystemBuffer) (r : predecessor × successor) :
    (sync_rule st r).lsys = st.lsys ∧ (sync_rule st r).instruction = st.instruction := by
  unfold sync_rule
  split <;> simp [push_back]

theorem sync_rule_nodes {st : LSystemBuffer} (r : predecessor × successor)
    (h : (st.buffer.map (fun t => t.node)).Nodup ∧ ∀ t ∈ st.buffer, t.node < st.fresh) :
    ((sync_rule st r).buffer.map (fun t => t.node)).Nodup ∧
      ∀ t ∈ (sync_rule st r).buffer, t.node < (sync_rule st r).fresh := by
  unfold sync_rule
  split
  · rename_i t _
    constructor
    · simp only []
      rw [map_succ_nodes]
      · exact h.1
      · intro u; split <;> rfl
    · intro u hu
      simp only [List.mem_map] at hu
      obtain ⟨w, hw, rfl⟩ := hu
      have := h.2 w hw
      split <;> simpa using this
  · exact push_back_nodes _ _ _ h

theorem sync_rule_mirrored_self (st : LSystemBuffer) (r : predecessor × successor) :
    Mirrored (sync_rule st r).buffer r := by
  unfold sync_rule Mirrored
  split
  · rename_i t ht
    refine ⟨{ t with succ := r.2 }, ?_, rfl⟩
    rw [List.find?_map]
    have hq : ((fun t : Entry => t.pred == r.1 && t.valid) ∘
        fun u : Entry => if u.node == t.node then { u with succ := r.2 } else u) =
        fun t : Entry => t.pred == r.1 && t.valid := by
      funext u
      simp only [Function.comp]
      split <;> rfl
    rw [hq, ht]
    simp
  · rename_i ht
    refine ⟨⟨st.fresh, true, r.1, r.2⟩, ?_, rfl⟩
    simp only [push_back, List.find?_append, ht, Option.none_or]
    simp

theorem sync_rule_mirrored_other {st : LSystemBuffer} (r r2 : predecessor × successor)
    (hn : (st.buffer.map (fun t => t.node)).Nodup) (hne : r2.1 ≠ r.1)
    (hm : Mirrored st.buffer r2) : Mirrored (sync_rule st r).buffer r2 := by
  obtain ⟨u, hu, hs⟩ := hm
  unfold sync_rule Mirrored
  split
  · rename_i t ht
    refine ⟨u, ?_, hs⟩
    rw [List.find?_map]
    have hq : ((fun t : Entry => t.pred == r2.1 && t.valid) ∘
        fun u : Entry => if u.node == t.node then { u with succ := r.2 } else u) =
        fun t : Entry => t.pred == r2.1 && t.valid := by
      funext u
      simp only [Function.comp]
      split <;> rfl
    rw [hq, hu]
    have hut : u.node ≠ t.node := by
      intro e
      have := node_inj hn (List.mem_of_find?_eq_some hu) (List.mem_of_find?_eq_some ht) e
      subst this
      have h1 := List.find?_some hu
      have h2 := List.find?_some ht
      simp only [Bool.and_eq_true, beq_iff_eq] at h1 h2
      exact hne (h1.1.symm.trans h2.1)
    simp [hut]
  · refine ⟨u, ?_, hs⟩
    simp [push_back, List.find?_append, hu]

theorem sync_rule_id {st : LSystemBuffer} (r : predecessor × successor)
    (hn : (st.buffer.map (fun t => t.node)).Nodup) (hm : Mirrored st.buffer r) :
    sync_rule st r = st := by
  obtain ⟨t, ht, hs⟩ := hm
  unfold sync_rule
  rw [ht]
  simp only []
  have h2 : ∀ u ∈ st.buffer,
      (if u.node == t.node then { u with succ := r.2 } else u) = id u := by
    intro u hu
    by_cases e : u.node = t.node
    · have := node_inj hn hu (List.mem_of_find?_eq_some ht) e
      subst this
      simp [← hs]
    · simp [e]
  rw [List.map_congr_left h2, List.map_id]

theorem foldl_sync_rule_lsys (rules : production_rules) (st : LSystemBuffer) :
    (rules.foldl sync_rule st).lsys = st.lsys ∧
      (rules.foldl sync_rule st).instruction = st.instruction := by
  induction rules generalizing st with
  | nil => simp
  | cons r rules ih =>
    rw [List.foldl_cons]
    exact ⟨(ih _).1.trans (sync_rule_lsys st r).1, (ih _).2.trans (sync_rule_lsys st r).2⟩

theorem foldl_sync_rule_nodes (rules : production_rules) {st : LSystemBuffer}
    (h : (st.buffer.map (fun t => t.node)).Nodup ∧ ∀ t ∈ st.buffer, t.node < st.fresh) :
    ((rules.foldl sync_rule st).buffer.map (fun t => t.node)).Nodup ∧
      ∀ t ∈ (rules.foldl sync_rule st).buffer, t.node < (rules.foldl sync_rule st).fresh := by
  induction rules generalizing st with
  | nil => simpa using h
  | cons r rules ih =>
    rw [List.foldl_cons]
    exact ih (sync_rule_nodes r h)

theorem foldl_sync_rule_id (rules : production_rules) {st : LSystemBuffer}
    (hn : (st.buffer.map (fun t => t.node)).Nodup)
    (hm : ∀ r ∈ rules, Mirrored st.buffer r) : rules.foldl sync_rule st = st := by
  induction rules with
  | nil => rfl
  | cons r rules ih =>
    rw [List.foldl_cons, sync_rule_id r hn (hm r (List.mem_cons_self _ _))]
    exact ih (fun r2 h2 => hm r2 (List.mem_cons_of_mem _ h2))

theorem foldl_sync_rule_mirrored_keep (rules : production_rules) {st : LSystemBuffer}
    (r2 : predecessor × successor)
    (h : (st.buffer.map (fun t => t.node)).Nodup ∧ ∀ t ∈ st.buffer, t.node < st.fresh)
    (hm : Mirrored st.buffer r2) (hne : ∀ r ∈ rules, r2.1 ≠ r.1) :
    Mirrored (rules.foldl sync_rule st).buffer r2 := by
  induction rules generalizing st with
  | nil => simpa using hm
  | cons r rules ih =>
    rw [List.foldl_cons]
    exact ih (sync_rule_nodes r h)
      (sync_rule_mirrored_other r r2 h.1 (hne r (List.mem_cons_self _ _)) hm)
      (fun r3 h3 => hne r3 (List.mem_cons_of_mem _ h3))

theorem foldl_sync_rule_mirrored (rules : production_rules) {st : LSystemBuffer}
    (h : (st.buffer.map (fun t => t.node)).Nodup ∧ ∀ t ∈ st.buffer, t.node < st.fresh)
    (hk : (rules.map (fun r => r.1)).Nodup) :
    ∀ r ∈ rules, Mirrored (rules.foldl sync_rule st).buffer r := by
  induction rules generalizing st with
  | nil => simp
  | cons r rules ih =>
    rw [List.map_cons, List.nodup_cons] at hk
    intro r2 h2
    rw [List.foldl_cons]
    rcases List.mem_cons.1 h2 with rfl | h2
    · apply foldl_sync_rule_mirrored_keep rules r2 (sync_rule_nodes r2 h)
        (sync_rule_mirrored_self st r2)
      intro r3 h3 e
      exact hk.1 (by rw [e]; exact List.mem_map_of_mem _ h3)
    · exact ih (sync_rule_nodes r h) hk.2 r2 h2

theorem sync_pass1_lsys (st : LSystemBuffer) :
    (sync_pass1 st).lsys = st.lsys ∧ (sync_pass1 st).instruction = st.instruction :=
  foldl_sync_rule_lsys st.lsys st

theorem sync_pass1_WF {st : LSystemBuffer} (h : WF st) : WF (sync_pass1 st) := by
  obtain ⟨h1, h2, h3⟩ := h
  have := foldl_sync_rule_nodes st.lsys ⟨h1, h2⟩
  exact ⟨this.1, this.2, by rw [(sync_pass1_lsys st).1]; exact h3⟩

theorem sync_pass1_mirrored {st : LSystemBuffer} (h : WF st) :
    ∀ r ∈ st.lsys, Mirrored (sync_pass1 st).buffer r :=
  foldl_sync_rule_mirrored st.lsys ⟨h.1, h.2.1⟩ h.2.2

theorem sync_pass1_id {st : LSystemBuffer} (h : WF st) (hs : Stable st) :
    sync_pass1 st = st :=
  foldl_sync_rule_id st.lsys h.1 hs.1

/-! ### The second loop of `sync` -/

theorem sync_pass2_WF {st : LSystemBuffer} (h : WF st) : WF (sync_pass2 st) := by
  obtain ⟨h1, h2, h3⟩ := h
  refine ⟨?_, ?_, h3⟩
  · exact h1.sublist ((List.filter_sublist _).map _)
  · intro t ht
    exact h2 t (List.mem_of_mem_filter ht)

theorem has_rule_of_mem {rules : production_rules} {r : predecessor × successor}
    (h : r ∈ rules) : LSystem.has_rule rules r.1 = true := by
  simp only [LSystem.has_rule, List.any_eq_true]
  exact ⟨r, h, by simp⟩

theorem sync_pass2_mirrored {st : LSystemBuffer} {r : predecessor × successor}
    (hr : r ∈ st.lsys) (hm : Mirrored st.buffer r) : Mirrored (sync_pass2 st).buffer r := by
  obtain ⟨t, ht, hs⟩ := hm
  refine ⟨t, ?_, hs⟩
  simp only [sync_pass2, List.find?_filter]
  rw [← ht]
  congr 1
  funext u
  by_cases hu : (u.pred == r.1 && u.valid) = true
  · simp only [Bool.and_eq_true, beq_iff_eq] at hu
    simp [stale, hu.1, hu.2, has_rule_of_mem hr]
  · simp only [Bool.not_eq_true] at hu
    simp [hu]

theorem sync_pass2_not_stale (st : LSystemBuffer) :
    ∀ t ∈ (sync_pass2 st).buffer, stale (sync_pass2 st).lsys t = false := by
  intro t ht
  simp only [sync_pass2, List.mem_filter] at ht ⊢
  simpa using ht.2

theorem sync_pass2_id {st : LSystemBuffer} (hs : Stable st) : sync_pass2 st = st := by
  have : st.buffer.filter (fun t => !stale st.lsys t) = st.buffer := by
    rw [List.filter_eq_self]
    intro t ht
    simp [hs.2 t ht]
  simp only [sync_pass2, this]

theorem sync_pass12_stable {st : LSystemBuffer} (h : WF st) :
    Stable (sync_pass2 (sync_pass1 st)) := by
  refine ⟨?_, sync_pass2_not_stale _⟩
  intro r hr
  have hr1 : r ∈ (sync_pass1 st).lsys := hr
  apply sync_pass2_mirrored hr1
  rw [(sync_pass1_lsys st).1] at hr1
  exact sync_pass1_mirrored h r hr1

theorem sync_pass12_WF {st : LSystemBuffer} (h : WF st) :
    WF (sync_pass2 (sync_pass1 st)) :=
  sync_pass2_WF (sync_pass1_WF h)

theorem sync_pass12_id {st : LSystemBuffer} (h : WF st) (hs : Stable st) :
    sync_pass2 (sync_pass1 st) = st := by
  rw [sync_pass1_id h hs, sync_pass2_id hs]

/-! ### The third loop of `sync` -/

theorem duplicate_of_map (b : List Entry) (f : Entry → Entry)
    (hf : ∀ u, (f u).node = u.node ∧ (f u).pred = u.pred) (i : Nat) (p : predecessor) :
    duplicate_of (b.map f) i p = duplicate_of b i p := by
  simp only [duplicate_of, List.any_map]
  congr 1
  funext u
  simp [Function.comp, hf u]

theorem set_valid_fields (i : Nat) (u : Entry) :
    (if u.node == i then { u with valid := true } else u).node = u.node ∧
      (if u.node == i then { u with valid := true } else u).pred = u.pred := by
  split <;> exact ⟨rfl, rfl⟩

theorem promote_fields (b : List Entry) (u : Entry) :
    (if promotable b u then { u with valid := true } else u).node = u.node ∧
      (if promotable b u then { u with valid := true } else u).pred = u.pred := by
  split <;> exact ⟨rfl, rfl⟩

theorem promotable_map (b : List Entry) (f : Entry → Entry)
    (hf : ∀ u, (f u).node = u.node ∧ (f u).pred = u.pred) (u : Entry) :
    promotable (b.map f) u = promotable b u := by
  unfold promotable
  rw [duplicate_of_map b f hf]

theorem promotable_set_valid (b : List Entry) (i : Nat) (u : Entry) :
    promotable (set_valid b i) u = promotable b u :=
  promotable_map b _ (set_valid_fields i) u

theorem promote_all_eq_self {st : LSystemBuffer}
    (h : ∀ t ∈ st.buffer, promotable st.buffer t = false) : promote_all st = st := by
  have h1 : st.buffer.map
      (fun t => if promotable st.buffer t then { t with valid := true } else t) = st.buffer := by
    have : ∀ t ∈ st.buffer,
        (if promotable st.buffer t then { t with valid := true } else t) = id t := by
      intro t ht
      simp [h t ht]
    rw [List.map_congr_left this, List.map_id]
  have h2 : st.buffer.filter (promotable st.buffer) = [] := by
    rw [List.filter_eq_nil_iff]
    intro t ht
    simp [h t ht]
  simp only [promote_all, h1, h2, List.map_nil, List.append_nil]

theorem promote_all_none (st : LSystemBuffer) :
    ∀ u ∈ (promote_all st).buffer, promotable (promote_all st).buffer u = false := by
  intro u hu
  unfold promote_all at hu ⊢
  simp only [List.mem_map] at hu
  obtain ⟨w, _, rfl⟩ := hu
  rw [promotable_map st.buffer _ (promote_fields st.buffer)]
  by_cases hp : promotable st.buffer w = true
  · rw [if_pos hp]
    simp [promotable]
  · rw [if_neg hp]
    simpa using hp

/-- In a stable state the store has no rule for the predecessor of a promotable
entry. -/
theorem no_rule_of_promotable {st : LSystemBuffer} (hw : WF st) (hs : Stable st) {t : Entry}
    (ht : t ∈ st.buffer) (hp : promotable st.buffer t = true) :
    LSystem.has_rule st.lsys t.pred = false := by
  by_contra hc
  simp only [Bool.not_eq_false, LSystem.has_rule, List.any_eq_true, beq_iff_eq] at hc
  obtain ⟨r, hr, hk⟩ := hc
  obtain ⟨u, hu, _⟩ := hs.1 r hr
  have hq := List.find?_some hu
  have hum := List.mem_of_find?_eq_some hu
  simp only [Bool.and_eq_true, beq_iff_eq] at hq
  simp only [promotable, Bool.and_eq_true, Bool.not_eq_true', duplicate_of,
    List.any_eq_false] at hp
  have hne : u.node ≠ t.node := by
    intro e
    have := node_inj hw.1 hum ht e
    subst this
    rw [hq.2] at hp
    exact absurd hp.1 (by simp)
  exact hp.2 u hum (by simp [hne, hq.1, hk])

theorem add_rule_fresh {rules : production_rules} {p : predecessor} (s : successor)
    (h : LSystem.has_rule rules p = false) : LSystem.add_rule rules p s = rules ++ [(p, s)] := by
  simp [LSystem.add_rule, h]

theorem stale_mono {rules rules2 : production_rules} {t : Entry}
    (h : LSystem.has_rule rules t.pred = true → LSystem.has_rule rules2 t.pred = true)
    (hs : stale rules t = false) : stale rules2 t = false := by
  simp only [stale, Bool.and_eq_false_iff, Bool.not_eq_false'] at hs ⊢
  rcases hs with hs | hs
  · exact Or.inl hs
  · exact Or.inr (h hs)

theorem has_rule_append (rules rules2 : production_rules) (p : predecessor) :
    LSystem.has_rule (rules ++ rules2) p =
      (LSystem.has_rule rules p || LSystem.has_rule rules2 p) := by
  simp [LSystem.has_rule, List.any_append]

theorem find_congr {α : Type} (l : List α) (p q : α → Bool) (h : ∀ a ∈ l, p a = q a) :
    l.find? p = l.find? q := by
  induction l with
  | nil => rfl
  | cons a l ih =>
    simp only [List.find?_cons, h a (List.mem_cons_self _ _)]
    rw [ih (fun b hb => h b (List.mem_cons_of_mem _ hb))]

theorem promotable_iff (b : List Entry) (t : Entry) :
    promotable b t = true ↔
      t.valid = false ∧ ∀ u ∈ b, u.pred = t.pred → u.node = t.node := by
  simp only [promotable, duplicate_of, Bool.and_eq_true, Bool.not_eq_true', List.any_eq_false,
    bne_iff_ne, beq_iff_eq, not_and]
  constructor
  · rintro ⟨h1, h2⟩
    exact ⟨h1, fun u hu e => by_contra (fun hne => h2 u hu hne e)⟩
  · rintro ⟨h1, h2⟩
    exact ⟨h1, fun u hu hne e => hne (h2 u hu e)⟩

theorem node_ne_of_split {pre suf : List Entry} {t : Entry}
    (h : ((pre ++ t :: suf).map (fun t => t.node)).Nodup) :
    (∀ a ∈ pre, a.node ≠ t.node) ∧ (∀ a ∈ suf, a.node ≠ t.node) := by
  simp only [List.map_append, List.map_cons] at h
  rw [List.nodup_append] at h
  obtain ⟨_, h2, h3⟩ := h
  rw [List.nodup_cons] at h2
  constructor
  · intro a ha e
    exact h3 (List.mem_map_of_mem _ ha) (by rw [e]; exact List.mem_cons_self _ _)
  · intro a ha e
    exact h2.1 (by rw [← e]; exact List.mem_map_of_mem _ ha)

theorem set_valid_nodes (b : List Entry) (i : Nat) :
    (set_valid b i).map (fun t => t.node) = b.map (fun t => t.node) :=
  map_succ_nodes b _ (fun u => (set_valid_fields i u).1)

theorem promote_WF {st : LSystemBuffer} (hw : WF st) (hs : Stable st) {t : Entry}
    (ht : t ∈ st.buffer) (hp : promotable st.buffer t = true) : WF (promote st t) := by
  have hno := no_rule_of_promotable hw hs ht hp
  refine ⟨?_, ?_, ?_⟩
  · simp only [promote, set_valid_nodes]
    exact hw.1
  · intro u hu
    simp only [promote, set_valid, List.mem_map] at hu ⊢
    obtain ⟨w, hw2, rfl⟩ := hu
    rw [(set_valid_fields t.node w).1]
    exact hw.2.1 w hw2
  · simp only [promote, add_rule_fresh t.succ hno, List.map_append, List.map_cons, List.map_nil]
    rw [List.nodup_append]
    refine ⟨hw.2.2, by simp, ?_⟩
    intro a ha hb
    simp only [List.mem_singleton] at hb
    subst hb
    obtain ⟨r, hr, hk⟩ := List.mem_map.1 ha
    have := has_rule_of_mem hr
    rw [hk, hno] at this
    exact absurd this (by simp)

theorem promote_Stable {st : LSystemBuffer} (hw : WF st) (hs : Stable st) {t : Entry}
    (ht : t ∈ st.buffer) (hp : promotable st.buffer t = true) : Stable (promote st t) := by
  have hno := no_rule_of_promotable hw hs ht hp
  have hp2 := (promotable_iff _ _).1 hp
  constructor
  · intro r hr
    simp only [promote, add_rule_fresh t.succ hno, List.mem_append, List.mem_singleton] at hr
    simp only [promote, set_valid, Mirrored, List.find?_map]
    rcases hr with hr | rfl
    · obtain ⟨u, hu, hus⟩ := hs.1 r hr
      have hne : t.pred ≠ r.1 := by
        intro e
        have := has_rule_of_mem hr
        rw [← e, hno] at this
        exact absurd this (by simp)
      have hc : st.buffer.find? ((fun t : Entry => t.pred == r.1 && t.valid) ∘
          fun u : Entry => if u.node == t.node then { u with valid := true } else u) =
          st.buffer.find? (fun t : Entry => t.pred == r.1 && t.valid) := by
        apply find_congr
        intro a ha
        simp only [Function.comp]
        by_cases e : a.node = t.node
        · have := node_inj hw.1 ha ht e
          subst this
          simp [hne]
        · simp [e]
      rw [hc, hu]
      refine ⟨_, rfl, ?_⟩
      rw [← hus]
      dsimp only
      split <;> rfl
    · obtain ⟨pre, suf, hsplit⟩ := List.append_of_mem ht
      have hnd := hw.1
      rw [hsplit] at hnd
      have hne := (node_ne_of_split hnd).1
      refine ⟨{ t with valid := true }, ?_, rfl⟩
      have : st.buffer.find? ((fun u : Entry => u.pred == t.pred && u.valid) ∘
          fun u : Entry => if u.node == t.node then { u with valid := true } else u) =
          some t := by
        rw [List.find?_eq_some]
        refine ⟨by simp, pre, suf, hsplit, ?_⟩
        intro a ha
        have hane := hne a ha
        have hpa : a.pred ≠ t.pred := fun e =>
          hane (hp2.2 a (by rw [hsplit]; exact List.mem_append_left _ ha) e)
        simp [hane, hpa]
      rw [this]
      simp
  · intro u hu
    simp only [promote, set_valid, List.mem_map] at hu
    obtain ⟨w, hw2, rfl⟩ := hu
    simp only [promote, add_rule_fresh t.succ hno]
    by_cases e : w.node = t.node
    · have := node_inj hw.1 hw2 ht e
      subst this
      simp [stale, has_rule_append, LSystem.has_rule]
    · simp only [beq_iff_eq, e, if_false]
      apply stale_mono _ (hs.2 w hw2)
      intro h
      simp [has_rule_append, h]

theorem promote_length (st : LSystemBuffer) (t : Entry) :
    (promote st t).buffer.length = st.buffer.length := by
  simp [promote, set_valid]

theorem set_valid_of_ne {l : List Entry} {i : Nat} (hl : ∀ a ∈ l, a.node ≠ i) :
    set_valid l i = l := by
  have : ∀ a ∈ l, (if a.node == i then { a with valid := true } else a) = id a := by
    intro a ha
    simp [hl a ha]
  simp only [set_valid]
  rw [List.map_congr_left this, List.map_id]

theorem set_valid_split {pre suf : List Entry} {t : Entry}
    (h : ((pre ++ t :: suf).map (fun t => t.node)).Nodup) :
    set_valid (pre ++ t :: suf) t.node = pre ++ { t with valid := true } :: suf := by
  have hne := node_ne_of_split h
  have e : set_valid (pre ++ t :: suf) t.node = set_valid pre t.node ++
      (if t.node == t.node then { t with valid := true } else t) :: set_valid suf t.node := by
    simp [set_valid]
  rw [e, set_valid_of_ne hne.1, set_valid_of_ne hne.2]
  simp

theorem promote_invalid {st : LSystemBuffer} (hw : WF st) {t : Entry}
    (ht : t ∈ st.buffer) (hv : t.valid = false) :
    ((promote st t).buffer.filter (fun u => !u.valid)).length + 1 =
      (st.buffer.filter (fun u => !u.valid)).length := by
  obtain ⟨pre, suf, hsplit⟩ := List.append_of_mem ht
  have hnd := hw.1
  rw [hsplit] at hnd
  simp only [promote, hsplit, set_valid_split hnd, List.filter_append, List.length_append]
  simp [List.filter_cons, hv]
  omega

theorem promote_all_promote {st : LSystemBuffer} (hw : WF st) (hs : Stable st)
    {pre suf : List Entry} {t : Entry} (hsplit : st.buffer = pre ++ t :: suf)
    (hpre : ∀ u ∈ pre, promotable st.buffer u = false)
    (hp : promotable st.buffer t = true) : promote_all (promote st t) = promote_all st := by
  have ht : t ∈ st.buffer := by rw [hsplit]; simp
  have hno := no_rule_of_promotable hw hs ht hp
  have hnd := hw.1
  rw [hsplit] at hnd
  have hP : promotable (set_valid st.buffer t.node) = promotable st.buffer := by
    funext u
    exact promotable_set_valid _ _ _
  have hsv : set_valid st.buffer t.node = pre ++ { t with valid := true } :: suf := by
    rw [hsplit]
    exact set_valid_split hnd
  have hpt : promotable st.buffer { t with valid := true } = false := by
    simp [promotable]
  have hfp : pre.filter (promotable st.buffer) = [] := by
    rw [List.filter_eq_nil_iff]
    intro a ha
    simp [hpre a ha]
  have hb : (set_valid st.buffer t.node).map
      (fun u => if promotable st.buffer u then { u with valid := true } else u) =
      st.buffer.map (fun u => if promotable st.buffer u then { u with valid := true } else u) := by
    rw [hsv]
    conv => rhs; arg 2; rw [hsplit]
    simp [hpt, hp]
  have hl : (set_valid st.buffer t.node).filter (promotable st.buffer) =
      suf.filter (promotable st.buffer) := by
    rw [hsv]
    simp [List.filter_append, List.filter_cons, hpt, hfp]
  have hr : st.buffer.filter (promotable st.buffer) = t :: suf.filter (promotable st.buffer) := by
    conv => lhs; arg 2; rw [hsplit]
    simp [List.filter_append, List.filter_cons, hp, hfp]
  simp only [promote_all, promote, hP, hb, hl, hr, add_rule_fresh t.succ hno]
  simp

theorem sync_pass3_skip (notify : LSystemBuffer → Outcome) :
    ∀ (suf pre : List Entry) (st : LSystemBuffer) (k : Nat),
      (st.buffer.map (fun t => t.node)).Nodup → st.buffer = pre ++ suf →
      (∀ u ∈ suf, promotable st.buffer u = false) → suf.length < k →
      sync_pass3 notify k st (begin_ suf) = Outcome.done st := by
  intro suf
  induction suf with
  | nil =>
    intro pre st k _ _ _ hk
    obtain ⟨k, rfl⟩ : ∃ j, k = j + 1 := ⟨k - 1, by simp at hk; omega⟩
    simp [begin_, sync_pass3]
  | cons t suf ih =>
    intro pre st k hn hsplit hnp hk
    obtain ⟨k, rfl⟩ : ∃ j, k = j + 1 := ⟨k - 1, by simp at hk; omega⟩
    have hd : deref st t.node = some t := by
      unfold deref
      rw [hsplit]
      exact find_node_split pre suf t (hsplit ▸ hn)
    have hnx : next st.buffer t.node = begin_ suf := by
      rw [hsplit]
      exact next_split pre suf t (hsplit ▸ hn)
    have hp : (!t.valid && !duplicate_of st.buffer t.node t.pred) = false :=
      hnp t (List.mem_cons_self _ _)
    have hb : begin_ (t :: suf) = some t.node := rfl
    rw [hb, sync_pass3, hd]
    simp only [hp, Bool.false_eq_true, if_false, hnx]
    apply ih (pre ++ [t]) st k hn (by simp [hsplit])
      (fun u hu => hnp u (List.mem_cons_of_mem _ hu))
    simp at hk
    omega

theorem sync_pass3_run (notify : LSystemBuffer → Outcome) (st : LSystemBuffer)
    (hw : WF st) (hs : Stable st)
    (hnotify : ∀ st2 : LSystemBuffer, WF st2 → Stable st2 →
      st2.buffer.length = st.buffer.length →
      (st2.buffer.filter (fun u => !u.valid)).length <
        (st.buffer.filter (fun u => !u.valid)).length →
      notify st2 = Outcome.done (promote_all st2)) :
    ∀ (suf pre : List Entry) (k : Nat), st.buffer = pre ++ suf →
      (∀ u ∈ pre, promotable st.buffer u = false) → suf.length < k →
      sync_pass3 notify k st (begin_ suf) = Outcome.done (promote_all st) := by
  intro suf
  induction suf with
  | nil =>
    intro pre k hsplit hpre hk
    obtain ⟨k, rfl⟩ : ∃ j, k = j + 1 := ⟨k - 1, by simp at hk; omega⟩
    have : promote_all st = st := by
      apply promote_all_eq_self
      intro u hu
      apply hpre
      simpa [hsplit] using hu
    simp [begin_, sync_pass3, this]
  | cons t suf ih =>
    intro pre k hsplit hpre hk
    obtain ⟨k, rfl⟩ : ∃ j, k = j + 1 := ⟨k - 1, by simp at hk; omega⟩
    have hn := hw.1
    have ht : t ∈ st.buffer := by rw [hsplit]; simp
    have hd : deref st t.node = some t := by
      unfold deref
      rw [hsplit]
      exact find_node_split pre suf t (hsplit ▸ hn)
    have hb : begin_ (t :: suf) = some t.node := rfl
    rw [hb, sync_pass3, hd]
    by_cases hp : promotable st.buffer t = true
    · have hp2 : (!t.valid && !duplicate_of st.buffer t.node t.pred) = true := hp
      have hv := ((promotable_iff _ _).1 hp).1
      have hcall : notify (promote st t) = Outcome.done (promote_all st) := by
        rw [hnotify (promote st t) (promote_WF hw hs ht hp) (promote_Stable hw hs ht hp)
          (promote_length st t) (by have := promote_invalid hw ht hv; omega)]
        rw [promote_all_promote hw hs hsplit hpre hp]
      have hcall2 : notify (LSystemBuffer.mk (LSystem.add_rule st.lsys t.pred t.succ)
          (set_valid st.buffer t.node) st.instruction st.fresh) =
          Outcome.done (promote_all st) := hcall
      simp only [hp2, if_true, hcall2]
      -- the state after the nested call
      have hn2 : ((promote_all st).buffer.map (fun t => t.node)).Nodup := by
        simp only [promote_all]
        rw [map_succ_nodes _ _ (fun u => (promote_fields st.buffer u).1)]
        exact hn
      have hbuf2 : (promote_all st).buffer =
          pre.map (fun u => if promotable st.buffer u then { u with valid := true } else u) ++
            { t with valid := true } ::
          suf.map (fun u => if promotable st.buffer u then { u with valid := true } else u) := by
        show st.buffer.map
          (fun u => if promotable st.buffer u then { u with valid := true } else u) = _
        conv => lhs; arg 2; rw [hsplit]
        simp [hp]
      have hbuf : (promote_all st).buffer =
          (pre.map (fun u => if promotable st.buffer u then { u with valid := true } else u) ++
            [{ t with valid := true }]) ++
          suf.map (fun u => if promotable st.buffer u then { u with valid := true } else u) := by
        rw [hbuf2]; simp
      have hd2 : deref (promote_all st) t.node = some { t with valid := true } := by
        unfold deref
        rw [hbuf2]
        exact find_node_split _ _ { t with valid := true } (hbuf2 ▸ hn2)
      have hnx2 : next (promote_all st).buffer t.node = begin_
          (suf.map (fun u => if promotable st.buffer u then { u with valid := true } else u)) := by
        rw [hbuf2]
        exact next_split _ _ { t with valid := true } (hbuf2 ▸ hn2)
      simp only [hd2, hnx2]
      apply sync_pass3_skip notify _ _ (promote_all st) k hn2 hbuf
      · intro u hu
        apply promote_all_none
        rw [hbuf]
        exact List.mem_append_right _ hu
      · simp at hk ⊢
        omega
    · simp only [Bool.not_eq_true] at hp
      have hp2 : (!t.valid && !duplicate_of st.buffer t.node t.pred) = false := hp
      have hnx : next st.buffer t.node = begin_ suf := by
        rw [hsplit]
        exact next_split pre suf t (hsplit ▸ hn)
      simp only [hp2, Bool.false_eq_true, if_false, hnx]
      apply ih (pre ++ [t]) k (by simp [hsplit])
      · intro u hu
        rcases List.mem_append.1 hu with h | h
        · exact hpre u h
        · simp only [List.mem_singleton] at h
          subst h
          exact hp
      · simp at hk
        omega

/-- With enough fuel `sync` returns, and returns its closed form. -/
theorem sync_eq : ∀ (n : Nat) (st : LSystemBuffer), WF st → sync_fuel st ≤ n →
    sync n st = Outcome.done (sync_result st) := by
  intro n
  induction n with
  | zero =>
    intro st _ h
    simp [sync_fuel] at h
  | succ n ih =>
    intro st hw hf
    rw [sync]
    have hw2 := sync_pass12_WF hw
    have hs2 := sync_pass12_stable hw
    apply sync_pass3_run (sync n) _ hw2 hs2 _ _ [] n (by simp) (by simp)
    · simp only [sync_fuel] at hf
      omega
    · intro st2 hw3 hs3 hlen hinv
      have e := sync_pass12_id hw3 hs3
      have : sync_result st2 = promote_all st2 := by simp only [sync_result, e]
      rw [← this]
      apply ih st2 hw3
      simp only [sync_fuel, e] at hf ⊢
      omega

/-! ### More fuel gives the same result -/

theorem sync_pass3_mono (f g : LSystemBuffer → Outcome)
    (hfg : ∀ x y, f x = Outcome.done y → g x = Outcome.done y) :
    ∀ (k : Nat) (st : LSystemBuffer) (it : Option Nat) (st2 : LSystemBuffer),
      sync_pass3 f k st it = Outcome.done st2 →
      ∀ k2, k ≤ k2 → sync_pass3 g k2 st it = Outcome.done st2 := by
  intro k
  induction k with
  | zero =>
    intro st it st2 h
    simp [sync_pass3] at h
  | succ k ih =>
    intro st it st2 h k2 hk
    obtain ⟨k2, rfl⟩ : ∃ j, k2 = j + 1 := ⟨k2 - 1, by omega⟩
    cases it with
    | none =>
      simp only [sync_pass3] at h ⊢
      exact h
    | some it =>
      rw [sync_pass3] at h ⊢
      cases hd : deref st it with
      | none => simp [hd] at h
      | some t =>
        simp only [hd] at h ⊢
        by_cases hc : (!t.valid && !duplicate_of st.buffer it t.pred) = true
        · simp only [hc, if_true] at h ⊢
          cases hf : f { st with buffer := set_valid st.buffer it,
                                 lsys := LSystem.add_rule st.lsys t.pred t.succ } with
          | done st1 =>
            rw [hf] at h
            rw [hfg _ _ hf]
            simp only at h ⊢
            cases hd1 : deref st1 it with
            | none => simp [hd1] at h
            | some t1 =>
              simp only [hd1] at h ⊢
              exact ih _ _ _ h k2 (by omega)
          | violation s => rw [hf] at h; simp at h
          | dangling => rw [hf] at h; simp at h
          | diverged => rw [hf] at h; simp at h
        · simp only [hc, if_false] at h ⊢
          exact ih _ _ _ h k2 (by omega)

theorem sync_mono_succ : ∀ (n : Nat) (st st2 : LSystemBuffer),
    sync n st = Outcome.done st2 → sync (n + 1) st = Outcome.done st2 := by
  intro n
  induction n with
  | zero =>
    intro st st2 h
    simp [sync] at h
  | succ n ih =>
    intro st st2 h
    rw [sync] at h ⊢
    exact sync_pass3_mono (sync n) (sync (n + 1)) ih _ _ _ _ h (n + 1) (by omega)

theorem sync_mono {n m : Nat} {st st2 : LSystemBuffer} (h : sync n st = Outcome.done st2)
    (hnm : n ≤ m) : sync m st = Outcome.done st2 := by
  induction hnm with
  | refl => exact h
  | step _ ih => exact sync_mono_succ _ _ _ ih

/-- Whatever the fuel, a run of `sync` that returns, returns the closed form. -/
theorem sync_det {n : Nat} {st st2 : LSystemBuffer} (hw : WF st)
    (h : sync n st = Outcome.done st2) : st2 = sync_result st := by
  have h1 := sync_mono h (Nat.le_max_left n (sync_fuel st))
  have h2 := sync_eq (max n (sync_fuel st)) st hw (Nat.le_max_right _ _)
  rw [h1] at h2
  exact (Outcome.done.inj h2)

/-! ### Properties of the closed form -/

theorem promote_all_WF {st : LSystemBuffer} (hw : WF st) (hs : Stable st) :
    WF (promote_all st) := by
  refine ⟨?_, ?_, ?_⟩
  · simp only [promote_all]
    rw [map_succ_nodes _ _ (fun u => (promote_fields st.buffer u).1)]
    exact hw.1
  · intro u hu
    simp only [promote_all, List.mem_map] at hu ⊢
    obtain ⟨w, hw2, rfl⟩ := hu
    rw [(promote_fields st.buffer w).1]
    exact hw.2.1 w hw2
  · simp only [promote_all, List.map_append, List.map_map]
    rw [List.nodup_append]
    refine ⟨hw.2.2, ?_, ?_⟩
    · have hnd : (st.buffer.filter (promotable st.buffer)).Nodup :=
        (List.Nodup.of_map _ hw.1).sublist (List.filter_sublist _)
      apply List.Nodup.map_on _ hnd
      intro x hx y hy e
      simp only [List.mem_filter] at hx hy
      simp only [Function.comp] at e
      have := ((promotable_iff _ _).1 hy.2).2 x hx.1 e
      exact node_inj hw.1 hx.1 hy.1 this
    · intro a ha hb
      obtain ⟨r, hr, hk⟩ := List.mem_map.1 ha
      obtain ⟨t, ht, hk2⟩ := List.mem_map.1 hb
      simp only [List.mem_filter] at ht
      simp only [Function.comp] at hk2
      have h1 := no_rule_of_promotable hw hs ht.1 ht.2
      have h2 := has_rule_of_mem hr
      rw [hk, ← hk2, h1] at h2
      exact absurd h2 (by simp)

theorem promote_all_Stable {st : LSystemBuffer} (hw : WF st) (hs : Stable st) :
    Stable (promote_all st) := by
  constructor
  · intro r hr
    simp only [promote_all, List.mem_append, List.mem_map, List.mem_filter] at hr
    simp only [promote_all, Mirrored, List.find?_map]
    rcases hr with hr | ⟨t, ⟨ht, hp⟩, rfl⟩
    · obtain ⟨u, hu, hus⟩ := hs.1 r hr
      have hc : st.buffer.find? ((fun t : Entry => t.pred == r.1 && t.valid) ∘
          fun u : Entry => if promotable st.buffer u then { u with valid := true } else u) =
          st.buffer.find? (fun t : Entry => t.pred == r.1 && t.valid) := by
        apply find_congr
        intro a ha
        simp only [Function.comp]
        by_cases hpa : promotable st.buffer a = true
        · have h1 := no_rule_of_promotable hw hs ha hpa
          have hne : a.pred ≠ r.1 := by
            intro e
            have := has_rule_of_mem hr
            rw [← e, h1] at this
            exact absurd this (by simp)
          simp [hpa, hne]
        · simp [hpa]
      rw [hc, hu]
      refine ⟨_, rfl, ?_⟩
      rw [← hus]
      dsimp only
      split <;> rfl
    · obtain ⟨pre, suf, hsplit⟩ := List.append_of_mem ht
      have hnd := hw.1
      rw [hsplit] at hnd
      have hne := (node_ne_of_split hnd).1
      have hp2 := (promotable_iff _ _).1 hp
      refine ⟨{ t with valid := true }, ?_, rfl⟩
      have : st.buffer.find? ((fun u : Entry => u.pred == t.pred && u.valid) ∘
          fun u : Entry => if promotable st.buffer u then { u with valid := true } else u) =
          some t := by
        rw [List.find?_eq_some]
        refine ⟨by simp [hp], pre, suf, hsplit, ?_⟩
        intro a ha
        have hane := hne a ha
        have hpa : a.pred ≠ t.pred := fun e =>
          hane (hp2.2 a (by rw [hsplit]; exact List.mem_append_left _ ha) e)
        simp only [Function.comp]
        split <;> simp [hpa]
      rw [this]
      simp [hp]
  · intro u hu
    simp only [promote_all, List.mem_map] at hu
    obtain ⟨w, hw2, rfl⟩ := hu
    simp only [promote_all]
    by_cases hp : promotable st.buffer w = true
    · have : LSystem.has_rule (st.lsys ++ (st.buffer.filter (promotable st.buffer)).map
          (fun t => (t.pred, t.succ))) w.pred = true := by
        rw [has_rule_append]
        have : (w.pred, w.succ) ∈ (st.buffer.filter (promotable st.buffer)).map
            (fun t => (t.pred, t.succ)) :=
          List.mem_map_of_mem _ (List.mem_filter.2 ⟨hw2, hp⟩)
        have := has_rule_of_mem this
        simp only at this
        simp [this]
      simp [hp, stale, this]
    · simp only [hp, if_false]
      apply stale_mono _ (hs.2 w hw2)
      intro h
      simp [has_rule_append, h]

theorem sync_result_WF {st : LSystemBuffer} (hw : WF st) : WF (sync_result st) :=
  promote_all_WF (sync_pass12_WF hw) (sync_pass12_stable hw)

theorem sync_result_Stable {st : LSystemBuffer} (hw : WF st) : Stable (sync_result st) :=
  promote_all_Stable (sync_pass12_WF hw) (sync_pass12_stable hw)

/-- A stable state without promotable entries is a fixed point of `sync`. -/
theorem sync_result_fix {st : LSystemBuffer} (hw : WF st) (hs : Stable st)
    (hp : ∀ t ∈ st.buffer, promotable st.buffer t = false) : sync_result st = st := by
  simp only [sync_result, sync_pass12_id hw hs, promote_all_eq_self hp]

theorem sync_result_idem {st : LSystemBuffer} (hw : WF st) :
    sync_result (sync_result st) = sync_result st :=
  sync_result_fix (sync_result_WF hw) (sync_result_Stable hw) (promote_all_none _)

/-! ### Uniqueness is kept by every step of `sync` -/

theorem sync_rule_Uniq {st : LSystemBuffer} (r : predecessor × successor) (hu : Uniq st) :
    Uniq (sync_rule st r) := by
  unfold sync_rule
  split
  · rename_i w _
    intro t ht u hu2 h1 h2 h3 h4
    simp only [List.mem_map] at ht hu2
    obtain ⟨t0, ht0, rfl⟩ := ht
    obtain ⟨u0, hu0, rfl⟩ := hu2
    have e : t0 = u0 := by
      apply hu t0 ht0 u0 hu0
      · revert h1; split <;> exact id
      · revert h2; split <;> exact id
      · revert h3; split <;> split <;> exact id
      · revert h4; split <;> exact id
    rw [e]
  · rename_i hnone
    rw [List.find?_eq_none] at hnone
    intro t ht u hu2 h1 h2 h3 h4
    simp only [push_back, List.mem_append, List.mem_singleton] at ht hu2
    rcases ht with ht | rfl
    · rcases hu2 with hu2 | rfl
      · exact hu t ht u hu2 h1 h2 h3 h4
      · exact absurd (by simp [h1]; exact h3) (hnone t ht)
    · rcases hu2 with hu2 | rfl
      · exact absurd (by simp [h2]; exact h3.symm) (hnone u hu2)
      · rfl

theorem sync_pass1_Uniq {st : LSystemBuffer} (hu : Uniq st) : Uniq (sync_pass1 st) := by
  unfold sync_pass1
  generalize st.lsys = rules
  induction rules generalizing st with
  | nil => exact hu
  | cons r rules ih =>
    rw [List.foldl_cons]
    exact ih (sync_rule_Uniq r hu)

theorem sync_pass2_Uniq {st : LSystemBuffer} (hu : Uniq st) : Uniq (sync_pass2 st) := by
  intro t ht u hu2
  exact hu t (List.mem_of_mem_filter ht) u (List.mem_of_mem_filter hu2)

theorem promote_all_Uniq {st : LSystemBuffer} (hw : WF st) (hu : Uniq st) :
    Uniq (promote_all st) := by
  intro t ht u hu2 h1 h2 h3 h4
  simp only [promote_all, List.mem_map] at ht hu2
  obtain ⟨t0, ht0, rfl⟩ := ht
  obtain ⟨u0, hu0, rfl⟩ := hu2
  rw [(promote_fields st.buffer t0).2, (promote_fields st.buffer u0).2] at h3
  rw [(promote_fields st.buffer t0).2] at h4
  have e : t0 = u0 := by
    by_cases hpt : promotable st.buffer t0 = true
    · exact (node_inj hw.1 hu0 ht0 (((promotable_iff _ _).1 hpt).2 u0 hu0 h3.symm)).symm
    · by_cases hpu : promotable st.buffer u0 = true
      · exact node_inj hw.1 ht0 hu0 (((promotable_iff _ _).1 hpu).2 t0 ht0 h3)
      · simp only [hpt, hpu, if_false] at h1 h2
        exact hu t0 ht0 u0 hu0 h1 h2 h3 h4
  rw [e]

theorem sync_result_Uniq {st : LSystemBuffer} (hw : WF st) (hu : Uniq st) :
    Uniq (sync_result st) :=
  promote_all_Uniq (sync_pass12_WF hw) (sync_pass2_Uniq (sync_pass1_Uniq hu))

/-! ### Consistency after `sync` -/

theorem consistent_of_stable {st : LSystemBuffer} (hs : Stable st) (hu : Uniq st)
    (hk : ∀ r ∈ st.lsys, r.1 ≠ null) : Consistent st := by
  constructor
  · intro t ht hv hp
    have h1 := hs.2 t ht
    simp only [stale, hv, Bool.true_and, Bool.and_eq_false_iff, Bool.not_eq_false',
      bne_eq_false_iff_eq] at h1
    rcases h1 with h1 | h1
    · exact absurd h1 hp
    · simp only [LSystem.has_rule, List.any_eq_true, beq_iff_eq] at h1
      obtain ⟨r, hr, hk2⟩ := h1
      obtain ⟨u, hu2, hus⟩ := hs.1 r hr
      have hq := List.find?_some hu2
      simp only [Bool.and_eq_true, beq_iff_eq] at hq
      have e : t = u :=
        hu t ht u (List.mem_of_find?_eq_some hu2) hv hq.2 (by rw [hq.1, hk2]) hp
      have : (t.pred, t.succ) = r := by
        rw [e, hq.1, hus]
      rw [this]
      exact hr
  · intro r hr
    obtain ⟨u, hu2, hus⟩ := hs.1 r hr
    have hq := List.find?_some hu2
    simp only [Bool.and_eq_true, beq_iff_eq] at hq
    exact ⟨u, List.mem_of_find?_eq_some hu2, hq.2, by rw [hq.1]; exact hk r hr, hq.1, hus⟩

theorem mirrored_of_mem {st : LSystemBuffer} (hu : Uniq st) {r : predecessor × successor}
    {t : Entry} (ht : t ∈ st.buffer) (hv : t.valid = true) (hp : t.pred = r.1)
    (hs : t.succ = r.2) (hn : r.1 ≠ null) : Mirrored st.buffer r := by
  have hsome : (st.buffer.find? (fun t => t.pred == r.1 && t.valid)).isSome = true := by
    rw [List.find?_isSome]
    exact ⟨t, ht, by simp [hv, hp]⟩
  obtain ⟨u, hu2⟩ := Option.isSome_iff_exists.1 hsome
  have hq := List.find?_some hu2
  simp only [Bool.and_eq_true, beq_iff_eq] at hq
  have e : u = t :=
    hu u (List.mem_of_find?_eq_some hu2) t ht hq.2 hv (by rw [hq.1, hp]) (by rw [hq.1]; exact hn)
  exact ⟨u, hu2, by rw [e]; exact hs⟩

theorem stable_of_consistent {st : LSystemBuffer} (hu : Uniq st) (hc : Consistent st) :
    Stable st := by
  constructor
  · intro r hr
    obtain ⟨t, ht, hv, hn, hp, hs⟩ := hc.2 r hr
    exact mirrored_of_mem hu ht hv hp hs (by rw [← hp]; exact hn)
  · intro t ht
    by_cases hv : t.valid = true
    · by_cases hp : t.pred = null
      · simp [stale, hp]
      · have := has_rule_of_mem (hc.1 t ht hv hp)
        simp only at this
        simp [stale, this]
    · simp [stale, hv]

theorem sync_rule_invalid {st : LSystemBuffer} (r : predecessor × successor)
    (h : ∀ t ∈ st.buffer, t.valid = false → t.pred ≠ null) :
    ∀ t ∈ (sync_rule st r).buffer, t.valid = false → t.pred ≠ null := by
  unfold sync_rule
  split
  · intro t ht hv
    simp only [List.mem_map] at ht
    obtain ⟨t0, ht0, rfl⟩ := ht
    have := h t0 ht0 (by revert hv; split <;> exact id)
    revert this
    split <;> exact id
  · intro t ht hv
    simp only [push_back, List.mem_append, List.mem_singleton] at ht
    rcases ht with ht | rfl
    · exact h t ht hv
    · simp at hv

theorem sync_pass1_invalid {st : LSystemBuffer}
    (h : ∀ t ∈ st.buffer, t.valid = false → t.pred ≠ null) :
    ∀ t ∈ (sync_pass1 st).buffer, t.valid = false → t.pred ≠ null := by
  unfold sync_pass1
  generalize st.lsys = rules
  induction rules generalizing st with
  | nil => exact h
  | cons r rules ih =>
    rw [List.foldl_cons]
    exact ih (sync_rule_invalid r h)

theorem sync_result_keys {st : LSystemBuffer}
    (hk : ∀ r ∈ st.lsys, r.1 ≠ null)
    (hi : ∀ t ∈ st.buffer, t.valid = false → t.pred ≠ null) :
    ∀ r ∈ (sync_result st).lsys, r.1 ≠ null := by
  intro r hr
  simp only [sync_result, promote_all, List.mem_append, List.mem_map, List.mem_filter] at hr
  rcases hr with hr | ⟨t, ⟨ht, hp⟩, rfl⟩
  · have : (sync_pass2 (sync_pass1 st)).lsys = st.lsys := (sync_pass1_lsys st).1
    rw [this] at hr
    exact hk r hr
  · have ht2 : t ∈ (sync_pass1 st).buffer := List.mem_of_mem_filter ht
    exact sync_pass1_invalid hi t ht2 ((promotable_iff _ _).1 hp).1

theorem sync_result_Consistent {st : LSystemBuffer} (hw : WF st) (hu : Uniq st)
    (hk : ∀ r ∈ st.lsys, r.1 ≠ null)
    (hi : ∀ t ∈ st.buffer, t.valid = false → t.pred ≠ null) :
    Consistent (sync_result st) :=
  consistent_of_stable (sync_result_Stable hw) (sync_result_Uniq hw hu)
    (sync_result_keys hk hi)

/-- C3: for every store whose keys are all non-null and every buffer that
satisfies uniqueness and whose invalid entries all have non-null predecessors,
`sync()` completes, and whenever it completes the buffer satisfies uniqueness and
the (predecessor, successor) pairs of its valid non-scratch entries are exactly
the rules of the store. -/
theorem sync_realigns (st : LSystemBuffer) (hw : WF st) (hk : ∀ r ∈ st.lsys, r.1 ≠ null)
    (hu : Uniq st) (hi : ∀ t ∈ st.buffer, t.valid = false → t.pred ≠ null) :
    (∃ n st1, sync n st = Outcome.done st1) ∧
      ∀ n st1, sync n st = Outcome.done st1 → Uniq st1 ∧ Consistent st1 := by
  refine ⟨⟨sync_fuel st, sync_result st, sync_eq _ st hw (Nat.le_refl _)⟩, ?_⟩
  intro n st1 h
  rw [sync_det hw h]
  exact ⟨sync_result_Uniq hw hu, sync_result_Consistent hw hu hk hi⟩

theorem sync_realigns_witness :
    WF unsynced_state ∧ Uniq unsynced_state ∧
      ((∃ n st1, sync n unsynced_state = Outcome.done st1) ∧
        ∀ n st1, sync n unsynced_state = Outcome.done st1 → Uniq st1 ∧ Consistent st1) :=
  ⟨by decide, by decide,
    sync_realigns unsynced_state (by decide) (by decide) (by decide) (by decide)⟩

/-- C4: `sync()` is idempotent. For every buffer and store the first `sync()`
completes, and a second `sync()` run right after it completes as well and leaves
the buffer and the store exactly as the first call left them. -/
theorem sync_idempotent (st : LSystemBuffer) (hw : WF st) :
    (∃ n st1, sync n st = Outcome.done st1) ∧
      ∀ n st1, sync n st = Outcome.done st1 →
        (∀ m, sync_fuel st1 ≤ m → sync m st1 = Outcome.done st1) ∧
          ∀ m st2, sync m st1 = Outcome.done st2 → st2 = st1 := by
  refine ⟨⟨sync_fuel st, sync_result st, sync_eq _ st hw (Nat.le_refl _)⟩, ?_⟩
  intro n st1 h
  have e := sync_det hw h
  subst e
  have hw1 := sync_result_WF hw
  constructor
  · intro m hm
    have := sync_eq m _ hw1 hm
    rw [sync_result_idem hw] at this
    exact this
  · intro m st2 h2
    rw [sync_det hw1 h2, sync_result_idem hw]

theorem sync_idempotent_witness :
    WF odd_state ∧
      ((∃ n st1, sync n odd_state = Outcome.done st1) ∧
        ∀ n st1, sync n odd_state = Outcome.done st1 →
          (∀ m, sync_fuel st1 ≤ m → sync m st1 = Outcome.done st1) ∧
            ∀ m st2, sync m st1 = Outcome.done st2 → st2 = st1) :=
  ⟨by decide, sync_idempotent odd_state (by decide)⟩

/-! ### The mutators keep the representation invariant and uniqueness -/

theorem add_rule_keys {rules : production_rules} (h : (rules.map (fun r => r.1)).Nodup)
    (p : predecessor) (s : successor) :
    ((LSystem.add_rule rules p s).map (fun r => r.1)).Nodup := by
  unfold LSystem.add_rule
  split
  · rw [List.map_map]
    have : ∀ r ∈ rules, ((fun r : predecessor × successor => r.1) ∘
        fun r => if r.1 == p then (p, s) else r) r = r.1 := by
      intro r _
      simp only [Function.comp]
      split
      · rename_i e
        have e2 : r.1 = p := by simpa using e
        exact e2.symm
      · rfl
    rw [List.map_congr_left this]
    exact h
  · rename_i hno
    simp only [Bool.not_eq_true] at hno
    simp only [List.map_append, List.map_cons, List.map_nil]
    rw [List.nodup_append]
    refine ⟨h, by simp, ?_⟩
    intro a ha hb
    simp only [List.mem_singleton] at hb
    subst hb
    obtain ⟨r, hr, hk⟩ := List.mem_map.1 ha
    have := has_rule_of_mem hr
    rw [hk, hno] at this
    exact absurd this (by simp)

theorem remove_rule_keys {rules : production_rules} (h : (rules.map (fun r => r.1)).Nodup)
    (p : predecessor) : ((LSystem.remove_rule rules p).map (fun r => r.1)).Nodup :=
  h.sublist ((List.filter_sublist _).map _)

theorem assign_nodes (b : List Entry) (cit : Nat) (v : Bool) (p : predecessor)
    (s : successor) : (assign b cit v p s).map (fun t => t.node) = b.map (fun t => t.node) := by
  apply map_succ_nodes
  intro t
  split
  · rename_i e
    have e2 : t.node = cit := by simpa using e
    exact e2.symm
  · rfl

theorem mem_assign {b : List Entry} {cit : Nat} {v : Bool} {p : predecessor} {s : successor}
    {u : Entry} (h : u ∈ assign b cit v p s) :
    (u ∈ b ∧ u.node ≠ cit) ∨ u = ⟨cit, v, p, s⟩ := by
  simp only [assign, List.mem_map] at h
  obtain ⟨w, hw, rfl⟩ := h
  by_cases e : w.node = cit
  · right; simp [e]
  · left; simp [e, hw]

theorem WF_lsys {st : LSystemBuffer} (hw : WF st) {l : production_rules}
    (hl : (l.map (fun r => r.1)).Nodup) : WF { st with lsys := l } :=
  ⟨hw.1, hw.2.1, hl⟩

theorem WF_assign {st : LSystemBuffer} (hw : WF st) (cit : Nat) (v : Bool) (p : predecessor)
    (s : successor) : WF { st with buffer := assign st.buffer cit v p s } := by
  refine ⟨?_, ?_, hw.2.2⟩
  · simp only [assign_nodes]
    exact hw.1
  · intro u hu
    have : u.node ∈ (assign st.buffer cit v p s).map (fun t => t.node) :=
      List.mem_map_of_mem _ hu
    rw [assign_nodes] at this
    obtain ⟨w, hw2, e⟩ := List.mem_map.1 this
    rw [← e]
    exact hw.2.1 w hw2

theorem WF_erase_node {st : LSystemBuffer} (hw : WF st) (cit : Nat) :
    WF { st with buffer := erase_node st.buffer cit } :=
  ⟨hw.1.sublist ((List.filter_sublist _).map _),
    fun t ht => hw.2.1 t (List.mem_of_mem_filter ht), hw.2.2⟩

theorem WF_push_back {st : LSystemBuffer} (hw : WF st) (v : Bool) (p : predecessor)
    (s : successor) : WF (push_back st v p s) := by
  have := push_back_nodes v p s ⟨hw.1, hw.2.1⟩
  exact ⟨this.1, this.2, hw.2.2⟩

theorem sync_inv {n : Nat} {st st2 : LSystemBuffer} (hw : WF st) (hu : Uniq st)
    (h : sync n st = Outcome.done st2) : WF st2 ∧ Uniq st2 := by
  rw [sync_det hw h]
  exact ⟨sync_result_WF hw, sync_result_Uniq hw hu⟩

theorem Uniq_assign_null {st : LSystemBuffer} (hu : Uniq st) (cit : Nat) (v : Bool)
    (s : successor) : Uniq { st with buffer := assign st.buffer cit v null s } := by
  intro t ht u hu2 h1 h2 h3 h4
  rcases mem_assign ht with ⟨ht, _⟩ | rfl
  · rcases mem_assign hu2 with ⟨hu2, _⟩ | rfl
    · exact hu t ht u hu2 h1 h2 h3 h4
    · exact absurd h3 h4
  · exact absurd rfl h4

theorem Uniq_assign_new {st : LSystemBuffer} (hu : Uniq st) (cit : Nat) (p : predecessor)
    (s : successor) :
    Uniq { st with buffer := assign st.buffer cit (!(find_existing st p).isSome) p s } := by
  intro t ht u hu2 h1 h2 h3 h4
  have key : ∀ w ∈ st.buffer, w.pred = p → (!(find_existing st p).isSome) = true → False := by
    intro w hw hp hd
    have h0 : (find_existing st p).isSome = true := by
      simp only [find_existing, List.find?_isSome]
      exact ⟨w, hw, by simp [hp]⟩
    rw [h0] at hd
    exact absurd hd (by simp)
  rcases mem_assign ht with ⟨ht, _⟩ | rfl
  · rcases mem_assign hu2 with ⟨hu2, _⟩ | rfl
    · exact hu t ht u hu2 h1 h2 h3 h4
    · exact (key t ht h3 h2).elim
  · rcases mem_assign hu2 with ⟨hu2, _⟩ | rfl
    · exact (key u hu2 h3.symm h1).elim
    · rfl

theorem Uniq_assign_succ {st : LSystemBuffer} (hu : Uniq st) {cit : Nat}
    {e : Entry} (he : deref st cit = some e) (s : successor) :
    Uniq { st with buffer := assign st.buffer cit e.valid e.pred s } := by
  obtain ⟨hem, hen⟩ := deref_some he
  intro t ht u hu2 h1 h2 h3 h4
  rcases mem_assign ht with ⟨ht, htn⟩ | rfl
  · rcases mem_assign hu2 with ⟨hu2, _⟩ | rfl
    · exact hu t ht u hu2 h1 h2 h3 h4
    · have := hu t ht e hem h1 h2 h3 h4
      exact absurd (this ▸ hen) htn
  · rcases mem_assign hu2 with ⟨hu2, hun⟩ | rfl
    · have := hu e hem u hu2 h1 h2 h3 h4
      exact absurd (this ▸ hen) hun
    · rfl

theorem Uniq_push_back_null {st : LSystemBuffer} (hu : Uniq st) (s : successor) :
    Uniq (push_back st true null s) := by
  intro t ht u hu2 h1 h2 h3 h4
  simp only [push_back, List.mem_append, List.mem_singleton] at ht hu2
  rcases ht with ht | rfl
  · rcases hu2 with hu2 | rfl
    · exact hu t ht u hu2 h1 h2 h3 h4
    · exact absurd h3 h4
  · exact absurd rfl h4

theorem Uniq_erase_node {st : LSystemBuffer} (hu : Uniq st) (cit : Nat) :
    Uniq { st with buffer := erase_node st.buffer cit } := by
  intro t ht u hu2
  exact hu t (List.mem_of_mem_filter ht) u (List.mem_of_mem_filter hu2)

theorem construct_inv : ∀ (rules : production_rules) (st : LSystemBuffer),
    WF st → Uniq st → (rules.map (fun r => r.1)).Nodup →
    (∀ t ∈ st.buffer, ∀ r ∈ rules, t.pred ≠ r.1) →
    ((rules.foldl (fun st rule => push_back st true rule.1 rule.2) st).buffer.map
        (fun t => t.node)).Nodup ∧
      (∀ t ∈ (rules.foldl (fun st rule => push_back st true rule.1 rule.2) st).buffer,
        t.node < (rules.foldl (fun st rule => push_back st true rule.1 rule.2) st).fresh) ∧
      (rules.foldl (fun st rule => push_back st true rule.1 rule.2) st).lsys = st.lsys ∧
      Uniq (rules.foldl (fun st rule => push_back st true rule.1 rule.2) st) := by
  intro rules
  induction rules with
  | nil =>
    intro st hw hu _ _
    exact ⟨hw.1, hw.2.1, rfl, hu⟩
  | cons r rules ih =>
    intro st hw hu hk hd
    rw [List.map_cons, List.nodup_cons] at hk
    rw [List.foldl_cons]
    have hu2 : Uniq (push_back st true r.1 r.2) := by
      intro t ht u hu2 h1 h2 h3 h4
      simp only [push_back, List.mem_append, List.mem_singleton] at ht hu2
      rcases ht with ht | rfl
      · rcases hu2 with hu2 | rfl
        · exact hu t ht u hu2 h1 h2 h3 h4
        · exact absurd h3 (hd t ht r (List.mem_cons_self _ _))
      · rcases hu2 with hu2 | rfl
        · exact absurd h3.symm (hd u hu2 r (List.mem_cons_self _ _))
        · rfl
    have := ih (push_back st true r.1 r.2) (WF_push_back hw _ _ _) hu2 hk.2 (by
      intro t ht r2 hr2
      simp only [push_back, List.mem_append, List.mem_singleton] at ht
      rcases ht with ht | rfl
      · exact hd t ht r2 (List.mem_cons_of_mem _ hr2)
      · intro e
        exact hk.1 (by simp only at e; rw [e]; exact List.mem_map_of_mem _ hr2))
    exact this

theorem construct_WF_Uniq {rules : production_rules} (h : (rules.map (fun r => r.1)).Nodup) :
    WF (construct rules) ∧ Uniq (construct rules) := by
  have := construct_inv rules { lsys := rules, buffer := [], instruction := none, fresh := 0 }
    ⟨by simp, by simp, h⟩ (by intro t ht; simp at ht) h (by intro t ht; simp at ht)
  refine ⟨⟨this.1, this.2.1, ?_⟩, this.2.2.2⟩
  unfold construct
  rw [this.2.2.1]
  exact h

theorem target_remove_rule_inv {n : Nat} {st st2 : LSystemBuffer} {p : predecessor}
    (hw : WF st) (hu : Uniq st)
    (h : target_remove_rule (sync n) st p = Outcome.done st2) : WF st2 ∧ Uniq st2 :=
  sync_inv (WF_lsys hw (remove_rule_keys hw.2.2 p)) hu h

theorem target_add_rule_inv {n : Nat} {st st2 : LSystemBuffer} {p : predecessor}
    {s : successor} (hw : WF st) (hu : Uniq st)
    (h : target_add_rule (sync n) st p s = Outcome.done st2) : WF st2 ∧ Uniq st2 :=
  sync_inv (WF_lsys hw (add_rule_keys hw.2.2 p s)) hu h

theorem erase_inv {n cit : Nat} {st st2 : LSystemBuffer} (hw : WF st) (hu : Uniq st)
    (h : erase n st cit = Outcome.done st2) : WF st2 ∧ Uniq st2 := by
  unfold erase at h
  cases hd : deref st cit with
  | none => simp [hd] at h
  | some t =>
    simp only [hd] at h
    split at h
    · exact target_remove_rule_inv hw hu h
    · have := Outcome.done.inj h
      subst this
      exact ⟨WF_erase_node hw cit, Uniq_erase_node hu cit⟩

theorem remove_predecessor_inv {n cit : Nat} {st st2 : LSystemBuffer} (hw : WF st)
    (hu : Uniq st) (h : remove_predecessor n st cit = Outcome.done st2) :
    WF st2 ∧ Uniq st2 := by
  unfold remove_predecessor at h
  cases hd : deref st cit with
  | none => simp [hd] at h
  | some t =>
    simp only [hd] at h
    split at h
    · exact target_remove_rule_inv (WF_assign hw _ _ _ _) (Uniq_assign_null hu _ _ _) h
    · have := Outcome.done.inj h
      subst this
      exact ⟨WF_assign hw _ _ _ _, Uniq_assign_null hu _ _ _⟩

theorem change_successor_inv {n cit : Nat} {s : successor} {st st2 : LSystemBuffer}
    (hw : WF st) (hu : Uniq st) (h : change_successor n st cit s = Outcome.done st2) :
    WF st2 ∧ Uniq st2 := by
  unfold change_successor at h
  cases hd : deref st cit with
  | none => simp [hd] at h
  | some t =>
    simp only [hd] at h
    split at h
    · exact target_add_rule_inv (WF_assign hw _ _ _ _) (Uniq_assign_succ hu hd s) h
    · have := Outcome.done.inj h
      subst this
      exact ⟨WF_assign hw _ _ _ _, Uniq_assign_succ hu hd s⟩

theorem change_predecessor_inv {n cit : Nat} {p : predecessor} {st st2 : LSystemBuffer}
    (hw : WF st) (hu : Uniq st) (h : change_predecessor n st cit p = Outcome.done st2) :
    WF st2 ∧ Uniq st2 := by
  unfold change_predecessor at h
  cases hd : deref st cit with
  | none => simp [hd] at h
  | some t =>
    simp only [hd] at h
    split at h
    · exact remove_predecessor_inv hw hu h
    · have hw1 := WF_assign hw cit (!(find_existing st p).isSome) p t.succ
      have hu1 := Uniq_assign_new hu cit p t.succ
      have mid : ∀ st3, (if (!(find_existing st p).isSome) = true then
            target_add_rule (sync n)
              { st with buffer := assign st.buffer cit (!(find_existing st p).isSome) p t.succ }
              p t.succ
          else Outcome.done
              { st with buffer := assign st.buffer cit (!(find_existing st p).isSome) p t.succ })
          = Outcome.done st3 → WF st3 ∧ Uniq st3 := by
        intro st3 h3
        split at h3
        · exact target_add_rule_inv hw1 hu1 h3
        · have := Outcome.done.inj h3
          subst this
          exact ⟨hw1, hu1⟩
      split at h
      · rename_i st3 h3
        have := mid st3 h3
        split at h
        · exact target_remove_rule_inv this.1 this.2 h
        · have e := Outcome.done.inj h
          subst e
          exact this
      · rename_i hne
        exact (hne st2 h).elim

theorem reachable_inv {oob : Bool} {st : LSystemBuffer} (h : Reachable oob st) :
    WF st ∧ Uniq st := by
  induction h with
  | construct rules h => exact construct_WF_Uniq h
  | add_rule _ ih => exact ⟨WF_push_back ih.1 _ _ _, Uniq_push_back_null ih.2 _⟩
  | erase _ _ _ h ih => exact erase_inv ih.1 ih.2 h
  | change_predecessor _ _ _ _ h ih => exact change_predecessor_inv ih.1 ih.2 h
  | remove_predecessor _ _ _ h ih => exact remove_predecessor_inv ih.1 ih.2 h
  | change_successor _ _ _ _ h ih => exact change_successor_inv ih.1 ih.2 h
  | store_add_rule _ _ _ _ _ h ih => exact target_add_rule_inv ih.1 ih.2 h
  | store_remove_rule _ _ _ _ h ih => exact target_remove_rule_inv ih.1 ih.2 h
  | sync _ _ _ h ih => exact sync_inv ih.1 ih.2 h

/-! ### The mutators return -/

theorem target_remove_rule_eq {st : LSystemBuffer} (hw : WF st) (p : predecessor) (n : Nat)
    (hn : sync_fuel { st with lsys := LSystem.remove_rule st.lsys p } ≤ n) :
    target_remove_rule (sync n) st p =
      Outcome.done (sync_result { st with lsys := LSystem.remove_rule st.lsys p }) :=
  sync_eq n _ (WF_lsys hw (remove_rule_keys hw.2.2 p)) hn

theorem target_add_rule_eq {st : LSystemBuffer} (hw : WF st) (p : predecessor) (s : successor)
    (n : Nat) (hn : sync_fuel { st with lsys := LSystem.add_rule st.lsys p s } ≤ n) :
    target_add_rule (sync n) st p s =
      Outcome.done (sync_result { st with lsys := LSystem.add_rule st.lsys p s }) :=
  sync_eq n _ (WF_lsys hw (add_rule_keys hw.2.2 p s)) hn

theorem erase_returns {st : LSystemBuffer} (hw : WF st) {cit : Nat}
    (hl : (deref st cit).isSome = true) :
    ∃ n0, ∀ n, n0 ≤ n → ∃ st1, erase n st cit = Outcome.done st1 := by
  obtain ⟨t, hd⟩ := Option.isSome_iff_exists.1 hl
  refine ⟨sync_fuel { st with lsys := LSystem.remove_rule st.lsys t.pred }, ?_⟩
  intro n hn
  unfold erase
  simp only [hd]
  split
  · exact ⟨_, target_remove_rule_eq hw t.pred n hn⟩
  · exact ⟨_, rfl⟩

theorem remove_predecessor_returns {st : LSystemBuffer} (hw : WF st) {cit : Nat}
    (hl : (deref st cit).isSome = true) :
    ∃ n0, ∀ n, n0 ≤ n → ∃ st1, remove_predecessor n st cit = Outcome.done st1 := by
  obtain ⟨t, hd⟩ := Option.isSome_iff_exists.1 hl
  refine ⟨sync_fuel (LSystemBuffer.mk (LSystem.remove_rule st.lsys t.pred)
    (assign st.buffer cit true null t.succ) st.instruction st.fresh), ?_⟩
  intro n hn
  unfold remove_predecessor
  simp only [hd]
  split
  · exact ⟨_, target_remove_rule_eq (WF_assign hw cit true null t.succ) t.pred n hn⟩
  · exact ⟨_, rfl⟩

theorem change_successor_returns {st : LSystemBuffer} (hw : WF st) {cit : Nat}
    (hl : (deref st cit).isSome = true) (s : successor) :
    ∃ n0, ∀ n, n0 ≤ n → ∃ st1, change_successor n st cit s = Outcome.done st1 := by
  obtain ⟨t, hd⟩ := Option.isSome_iff_exists.1 hl
  refine ⟨sync_fuel (LSystemBuffer.mk (LSystem.add_rule st.lsys t.pred s)
    (assign st.buffer cit t.valid t.pred s) st.instruction st.fresh), ?_⟩
  intro n hn
  unfold change_successor
  simp only [hd]
  split
  · exact ⟨_, target_add_rule_eq (WF_assign hw cit t.valid t.pred s) t.pred s n hn⟩
  · exact ⟨_, rfl⟩

theorem change_predecessor_returns {st : LSystemBuffer} (hw : WF st) {cit : Nat}
    (hl : (deref st cit).isSome = true) (p : predecessor) :
    ∃ n0, ∀ n, n0 ≤ n → ∃ st1, change_predecessor n st cit p = Outcome.done st1 := by
  obtain ⟨t, hd⟩ := Option.isSome_iff_exists.1 hl
  by_cases hp : (p == null) = true
  · obtain ⟨n0, h0⟩ := remove_predecessor_returns hw hl
    refine ⟨n0, fun n hn => ?_⟩
    unfold change_predecessor
    simp only [hd]
    rw [if_pos hp]
    exact h0 n hn
  · have hw1 := WF_assign hw cit (!(find_existing st p).isSome) p t.succ
    -- the state after the optional `add_rule`
    have hmid : ∃ n1 st2, WF st2 ∧ ∀ n, n1 ≤ n →
        (if (!(find_existing st p).isSome) = true then
            target_add_rule (sync n)
              { st with buffer := assign st.buffer cit (!(find_existing st p).isSome) p t.succ }
              p t.succ
          else Outcome.done
              { st with buffer := assign st.buffer cit (!(find_existing st p).isSome) p t.succ })
          = Outcome.done st2 := by
      by_cases hdup : (!(find_existing st p).isSome) = true
      · refine ⟨sync_fuel (LSystemBuffer.mk (LSystem.add_rule st.lsys p t.succ)
          (assign st.buffer cit (!(find_existing st p).isSome) p t.succ) st.instruction
          st.fresh), _, sync_result_WF (WF_lsys hw1 (add_rule_keys hw1.2.2 p t.succ)), ?_⟩
        intro n hn
        rw [if_pos hdup]
        exact target_add_rule_eq hw1 p t.succ n hn
      · refine ⟨0, _, hw1, ?_⟩
        intro n _
        rw [if_neg hdup]
    obtain ⟨n1, st2, hw2, h2⟩ := hmid
    refine ⟨max n1 (sync_fuel { st2 with lsys := LSystem.remove_rule st2.lsys t.pred }), ?_⟩
    intro n hn
    unfold change_predecessor
    simp only [hd]
    rw [if_neg hp, h2 n (le_trans (Nat.le_max_left _ _) hn)]
    simp only
    split
    · exact ⟨_, target_remove_rule_eq hw2 t.pred n (le_trans (Nat.le_max_right _ _) hn)⟩
    · exact ⟨_, rfl⟩

theorem deref_end {st : LSystemBuffer} (hw : WF st) {cit : Nat} (he : st.fresh ≤ cit) :
    deref st cit = none := by
  unfold deref
  rw [List.find?_eq_none]
  intro t ht
  have := hw.2.1 t ht
  simp only [beq_iff_eq]
  omega

theorem mutators_at_end (st : LSystemBuffer) (cit : Nat) (hd : deref st cit = none)
    (he : st.fresh ≤ cit) (n : Nat) (p : predecessor) (s : successor) :
    erase n st cit = Outcome.violation st ∧
      change_predecessor n st cit p = Outcome.violation st ∧
      remove_predecessor n st cit = Outcome.violation st ∧
      change_successor n st cit s = Outcome.violation st := by
  have h : not_live st cit = Outcome.violation st := by
    unfold not_live
    rw [if_neg (by omega)]
  simp [erase, change_predecessor, remove_predecessor, change_successor, hd, h]

theorem mutators_at_erased (st : LSystemBuffer) (cit : Nat) (hd : deref st cit = none)
    (he : cit < st.fresh) (n : Nat) (p : predecessor) (s : successor) :
    erase n st cit = Outcome.dangling ∧
      change_predecessor n st cit p = Outcome.dangling ∧
      remove_predecessor n st cit = Outcome.dangling ∧
      change_successor n st cit s = Outcome.dangling := by
  have h : not_live st cit = Outcome.dangling := by
    unfold not_live
    rw [if_pos he]
  simp [erase, change_predecessor, remove_predecessor, change_successor, hd, h]

/-- C6 (amended): the `Expects` of `erase`, `change_predecessor`,
`remove_predecessor` and `change_successor` is atomic at `end()`. If the iterator
is `end()` (an identity from `fresh` on, which is never a node of the buffer),
each of them stops with a precondition violation in the very state it was called
in (buffer, store and pending instruction untouched); if the iterator is a live
entry, each of them returns. -/
theorem precondition_violation_atomic (st : LSystemBuffer) (cit : Nat) (hw : WF st) :
    (st.fresh ≤ cit → deref st cit = none ∧
      ∀ (n : Nat) (p : predecessor) (s : successor),
        erase n st cit = Outcome.violation st ∧
        change_predecessor n st cit p = Outcome.violation st ∧
        remove_predecessor n st cit = Outcome.violation st ∧
        change_successor n st cit s = Outcome.violation st) ∧
    ((deref st cit).isSome = true → ∀ (p : predecessor) (s : successor),
      ∃ n0, ∀ n, n0 ≤ n →
        (∃ st1, erase n st cit = Outcome.done st1) ∧
        (∃ st1, change_predecessor n st cit p = Outcome.done st1) ∧
        (∃ st1, remove_predecessor n st cit = Outcome.done st1) ∧
        (∃ st1, change_successor n st cit s = Outcome.done st1)) := by
  constructor
  · intro he
    exact ⟨deref_end hw he, fun n p s => mutators_at_end st cit (deref_end hw he) he n p s⟩
  · intro hl p s
    obtain ⟨n1, h1⟩ := erase_returns hw hl
    obtain ⟨n2, h2⟩ := change_predecessor_returns hw hl p
    obtain ⟨n3, h3⟩ := remove_predecessor_returns hw hl
    obtain ⟨n4, h4⟩ := change_successor_returns hw hl s
    refine ⟨max (max n1 n2) (max n3 n4), fun n hn => ⟨h1 n ?_, h2 n ?_, h3 n ?_, h4 n ?_⟩⟩
    · exact le_trans (le_trans (Nat.le_max_left _ _) (Nat.le_max_left _ _)) hn
    · exact le_trans (le_trans (Nat.le_max_right _ _) (Nat.le_max_left _ _)) hn
    · exact le_trans (le_trans (Nat.le_max_left _ _) (Nat.le_max_right _ _)) hn
    · exact le_trans (le_trans (Nat.le_max_right _ _) (Nat.le_max_right _ _)) hn

theorem precondition_violation_atomic_witness :
    WF shadowed_state ∧ shadowed_state.fresh ≤ 7 ∧
    (deref shadowed_state 0).isSome = true ∧
    (deref shadowed_state 7 = none ∧
      ∀ (n : Nat) (p : predecessor) (s : successor),
        erase n shadowed_state 7 = Outcome.violation shadowed_state ∧
        change_predecessor n shadowed_state 7 p = Outcome.violation shadowed_state ∧
        remove_predecessor n shadowed_state 7 = Outcome.violation shadowed_state ∧
        change_successor n shadowed_state 7 s = Outcome.violation shadowed_state) ∧
    (∃ n0, ∀ n, n0 ≤ n →
      (∃ st1, erase n shadowed_state 0 = Outcome.done st1) ∧
      (∃ st1, change_predecessor n shadowed_state 0 'G' = Outcome.done st1) ∧
      (∃ st1, remove_predecessor n shadowed_state 0 = Outcome.done st1) ∧
      (∃ st1, change_successor n shadowed_state 0 "x" = Outcome.done st1)) :=
  ⟨by decide, by decide, by decide,
    (precondition_violation_atomic shadowed_state 7 (by decide)).1 (by decide),
    (precondition_violation_atomic shadowed_state 0 (by decide)).2 (by decide) 'G' "x"⟩

/-! ### The invariants over the reachable states -/

/-- C2: in every state reachable from `construct(store)` (store with unique keys)
by the public mutators and by out-of-band `add_rule` / `remove_rule` calls on the
store followed by `sync()`, no two valid entries share a non-null predecessor. -/
theorem uniqueness_invariant (st : LSystemBuffer) (h : Reachable true st) :
    ∀ t ∈ st.buffer, ∀ u ∈ st.buffer,
      t.valid = true → u.valid = true → t.pred = u.pred → t.pred ≠ null → t = u :=
  (reachable_inv h).2

theorem uniqueness_invariant_witness :
    Reachable true promoted_state ∧
      ∀ t ∈ promoted_state.buffer, ∀ u ∈ promoted_state.buffer,
        t.valid = true → u.valid = true → t.pred = u.pred → t.pred ≠ null → t = u :=
  have h1 : Reachable true (construct [('F', "FF")]) := Reachable.construct _ (by decide)
  have h2 : Reachable true shadowed_state :=
    Reachable.change_predecessor 5 1 'F' (Reachable.add_rule h1) (by decide)
  have h3 : Reachable true promoted_state :=
    Reachable.store_remove_rule 5 'F' rfl h2 (by decide)
  ⟨h3, uniqueness_invariant promoted_state h3⟩

/-- C1, evaluated on the code: `change_successor` on the scratch entry of a fresh
buffer over the empty store hands the null symbol to the store. The state is
reachable by public mutators only, and its store holds the rule `(null, "x")`
that no valid entry with a non-null predecessor mirrors: consistency fails. -/
theorem consistency_broken_by_scratch_edit :
    ∃ st, Reachable false st ∧ st.lsys = [(null, "x")] ∧
      st.buffer = [⟨0, true, null, "x"⟩] ∧ ¬ Consistent st :=
  ⟨⟨[(null, "x")], [⟨0, true, null, "x"⟩], none, 1⟩,
    Reachable.change_successor 5 0 "x"
      (Reachable.add_rule (Reachable.construct [] (by decide))) (by decide),
    rfl, rfl, by decide⟩

/-- C5, evaluated on the code: editing the second of two scratch entries adds the
rule `(null, "x")` to the empty store, and the re-entrant `sync` then overwrites
the successor of the first scratch entry as well. -/
theorem scratch_edit_reaches_store :
    change_successor 5 two_scratch_state 1 "x" =
      Outcome.done { lsys := [(null, "x")],
                     buffer := [⟨0, true, null, "x"⟩, ⟨1, true, null, "x"⟩],
                     instruction := none, fresh := 2 } := by
  decide

/-- C9: a duplicate predecessor is tracked, not rejected. For every state, every
scratch entry `e` at `cit` and every non-null `p` that already is the predecessor
of some entry, `change_predecessor(cit, p)` returns with `e` equal to
`(invalid, p, successor unchanged)`, every other entry, the store and the pending
instruction unchanged. -/
theorem change_predecessor_duplicate (n : Nat) (st : LSystemBuffer) (cit : Nat) (e : Entry)
    (p : predecessor) (hd : deref st cit = some e) (_hv : e.valid = true)
    (hn : e.pred = null) (hp : p ≠ null) (hex : ∃ u ∈ st.buffer, u.pred = p) :
    change_predecessor n st cit p =
      Outcome.done { st with
        buffer := st.buffer.map (fun t => if t.node = cit then ⟨cit, false, p, e.succ⟩ else t) } := by
  obtain ⟨u, hu, hup⟩ := hex
  have hdup : (find_existing st p).isSome = true := by
    simp only [find_existing, List.find?_isSome]
    exact ⟨u, hu, by simp [hup]⟩
  have hp2 : ¬ (p == null) = true := by simpa using hp
  unfold change_predecessor
  simp only [hd]
  rw [if_neg hp2]
  simp [hdup, hn, assign]

theorem change_predecessor_duplicate_witness :
    deref (add_rule (construct [('F', "FF")])) 1 = some ⟨1, true, null, ""⟩ ∧
      change_predecessor 5 (add_rule (construct [('F', "FF")])) 1 'F' =
        Outcome.done shadowed_state :=
  ⟨by decide,
    change_predecessor_duplicate 5 (add_rule (construct [('F', "FF")])) 1 ⟨1, true, null, ""⟩ 'F'
      (by decide) rfl rfl (by decide) ⟨⟨0, true, 'F', "FF"⟩, by decide, rfl⟩⟩

/-! ### Tools for the scenarios -/

theorem mem_assign_of_ne {b : List Entry} {cit : Nat} (v : Bool) (p : predecessor)
    (s : successor) {u : Entry} (hu : u ∈ b) (hne : u.node ≠ cit) :
    u ∈ assign b cit v p s := by
  simp only [assign, List.mem_map]
  exact ⟨u, hu, by simp [hne]⟩

theorem mem_assign_self {st : LSystemBuffer} {cit : Nat} {e : Entry}
    (hd : deref st cit = some e) (v : Bool) (p : predecessor) (s : successor) :
    (⟨cit, v, p, s⟩ : Entry) ∈ assign st.buffer cit v p s := by
  obtain ⟨he, hn⟩ := deref_some hd
  simp only [assign, List.mem_map]
  exact ⟨e, he, by simp [hn]⟩

theorem node_eq_of_deref {st : LSystemBuffer} (hw : WF st) {cit : Nat} {e u : Entry}
    (hd : deref st cit = some e) (hu : u ∈ st.buffer) (hn : u.node = cit) : u = e := by
  obtain ⟨he, hen⟩ := deref_some hd
  exact node_inj hw.1 hu he (hn.trans hen.symm)

theorem Uniq_assign_fresh {st : LSystemBuffer} (hu : Uniq st) (cit : Nat) (v : Bool)
    {p : predecessor} (s : successor) (hf : ∀ u ∈ st.buffer, u.pred ≠ p)
    (l : production_rules) :
    Uniq { st with buffer := assign st.buffer cit v p s, lsys := l } := by
  intro t ht u hu2 h1 h2 h3 h4
  rcases mem_assign ht with ⟨ht, _⟩ | rfl
  · rcases mem_assign hu2 with ⟨hu2, _⟩ | rfl
    · exact hu t ht u hu2 h1 h2 h3 h4
    · exact absurd h3 (hf t ht)
  · rcases mem_assign hu2 with ⟨hu2, _⟩ | rfl
    · exact absurd h3.symm (hf u hu2)
    · rfl

theorem duplicate_of_iff (b : List Entry) (i : Nat) (p : predecessor) :
    duplicate_of b i p = true ↔ ∃ u ∈ b, u.node ≠ i ∧ u.pred = p := by
  simp [duplicate_of]

theorem not_promotable_of_shadowed {st : LSystemBuffer} (hs : Shadowed st) :
    ∀ t ∈ st.buffer, promotable st.buffer t = false := by
  intro t ht
  by_cases hv : t.valid = true
  · simp [promotable, hv]
  · simp only [Bool.not_eq_true] at hv
    simp [promotable, hs t ht hv]

/-- A consistent state is a fixed point of `sync`. -/
theorem sync_fix {st : LSystemBuffer} (hw : WF st) (hu : Uniq st) (hc : Consistent st)
    (hs : Shadowed st) : sync_result st = st :=
  sync_result_fix hw (stable_of_consistent hu hc) (not_promotable_of_shadowed hs)

theorem Shadowed_assign {st : LSystemBuffer} (hw : WF st) (hs : Shadowed st) {cit : Nat}
    {e : Entry} (hd : deref st cit = some e)
    (hne : ∀ t ∈ st.buffer, t.valid = false → t.pred ≠ e.pred)
    (p : predecessor) (s : successor) (l : production_rules) :
    Shadowed { st with buffer := assign st.buffer cit true p s, lsys := l } := by
  intro t ht hv
  rcases mem_assign ht with ⟨ht, _⟩ | rfl
  · obtain ⟨u, hu, hun, hup⟩ := (duplicate_of_iff _ _ _).1 (hs t ht hv)
    rw [duplicate_of_iff]
    refine ⟨u, mem_assign_of_ne _ _ _ hu ?_, hun, hup⟩
    intro hc
    have := node_eq_of_deref hw hd hu hc
    subst this
    exact hne t ht hv hup.symm
  · simp at hv

theorem mirrored_append {b : List Entry} {r : predecessor × successor} (x : Entry)
    (h : Mirrored b r) : Mirrored (b ++ [x]) r := by
  obtain ⟨t, ht, hs⟩ := h
  exact ⟨t, by simp [List.find?_append, ht], hs⟩

/-- The first loop of `sync` when exactly one rule of the store has no valid
entry: that rule is appended and nothing else changes. -/
theorem sync_pass1_one_missing {st : LSystemBuffer} (hw : WF st)
    {l1 l2 : production_rules} {q : predecessor} {s : successor}
    (hl : st.lsys = l1 ++ (q, s) :: l2)
    (hm : ∀ r ∈ l1 ++ l2, Mirrored st.buffer r)
    (hq : ∀ u ∈ st.buffer, ¬ (u.pred = q ∧ u.valid = true)) :
    sync_pass1 st = push_back st true q s := by
  unfold sync_pass1
  rw [hl, List.foldl_append, List.foldl_cons]
  rw [foldl_sync_rule_id l1 hw.1 (fun r hr => hm r (List.mem_append_left _ hr))]
  have h1 : sync_rule st (q, s) = push_back st true q s := by
    unfold sync_rule
    have : st.buffer.find? (fun t => t.pred == (q, s).1 && t.valid) = none := by
      rw [List.find?_eq_none]
      intro u hu
      have := hq u hu
      simpa using this
    rw [this]
  rw [h1]
  apply foldl_sync_rule_id l2 (WF_push_back hw true q s).1
  intro r hr
  exact mirrored_append _ (hm r (List.mem_append_right _ hr))

theorem no_rule_of_fresh {st : LSystemBuffer} (hc : Consistent st) {p : predecessor}
    (hf : ∀ u ∈ st.buffer, u.pred ≠ p) : LSystem.has_rule st.lsys p = false := by
  by_contra h
  simp only [Bool.not_eq_false, LSystem.has_rule, List.any_eq_true, beq_iff_eq] at h
  obtain ⟨r, hr, hk⟩ := h
  obtain ⟨t, ht, _, _, hp, _⟩ := hc.2 r hr
  exact hf t ht (hp.trans hk)

theorem find_existing_fresh {st : LSystemBuffer} {p : predecessor}
    (hf : ∀ u ∈ st.buffer, u.pred ≠ p) : (find_existing st p).isSome = false := by
  have : find_existing st p = none := by
    unfold find_existing
    rw [List.find?_eq_none]
    intro u hu
    simpa using hf u hu
  rw [this]
  rfl

/-! ### Scenario A: promoting a scratch entry -/

theorem assign_eq_map (b : List Entry) (cit : Nat) (v : Bool) (p : predecessor)
    (s : successor) :
    assign b cit v p s = b.map (fun t => if t.node = cit then ⟨cit, v, p, s⟩ else t) := by
  simp [assign]

theorem Consistent_after_promote {st : LSystemBuffer} (hw : WF st) (hc : Consistent st)
    {cit : Nat} {e : Entry} (hd : deref st cit = some e) (hn : e.pred = null)
    {p : predecessor} (hp : p ≠ null) :
    Consistent { st with buffer := assign st.buffer cit true p e.succ,
                         lsys := st.lsys ++ [(p, e.succ)] } := by
  constructor
  · intro t ht hv hp
    simp only [List.mem_append, List.mem_singleton]
    rcases mem_assign ht with ⟨ht, _⟩ | rfl
    · exact Or.inl (hc.1 t ht hv hp)
    · exact Or.inr rfl
  · intro r hr
    simp only [List.mem_append, List.mem_singleton] at hr
    rcases hr with hr | rfl
    · obtain ⟨t, ht, hv, hp, hk, hs⟩ := hc.2 r hr
      refine ⟨t, mem_assign_of_ne _ _ _ ht ?_, hv, hp, hk, hs⟩
      intro hcit
      have := node_eq_of_deref hw hd ht hcit
      subst this
      exact hp hn
    · exact ⟨⟨cit, true, p, e.succ⟩, mem_assign_self hd _ _ _, rfl, hp, rfl, rfl⟩

/-- Promoting a scratch entry in a consistent state in which every invalid entry
has a non-null predecessor: `change_predecessor(cit, p)` returns with the entry
renamed and the rule `p -> successor` added to the store. -/
theorem change_predecessor_scratch_real (st : LSystemBuffer) (cit : Nat) (e : Entry)
    (p : predecessor) (hw : WF st) (hu : Uniq st) (hc : Consistent st) (hs : Shadowed st)
    (hi : ∀ t ∈ st.buffer, t.valid = false → t.pred ≠ null)
    (hd : deref st cit = some e) (_hv : e.valid = true) (hn : e.pred = null)
    (hp : p ≠ null) (hf : ∀ u ∈ st.buffer, u.pred ≠ p) :
    (∃ n0, ∀ n, n0 ≤ n → change_predecessor n st cit p =
      Outcome.done { st with
        buffer := st.buffer.map (fun t => if t.node = cit then ⟨cit, true, p, e.succ⟩ else t),
        lsys := st.lsys ++ [(p, e.succ)] }) ∧
    (st.lsys = [] → ∃ n0, ∀ n, n0 ≤ n → ∃ st1,
      change_predecessor n st cit p = Outcome.done st1 ∧ st1.lsys = [(p, e.succ)]) := by
  have hw1 : WF { st with buffer := assign st.buffer cit true p e.succ,
                          lsys := st.lsys ++ [(p, e.succ)] } := by
    have := WF_lsys (WF_assign hw cit true p e.succ)
      (add_rule_keys hw.2.2 p e.succ)
    rw [add_rule_fresh e.succ (no_rule_of_fresh hc hf)] at this
    exact this
  have hu1 := Uniq_assign_fresh hu cit true e.succ hf (st.lsys ++ [(p, e.succ)])
  have hc1 := Consistent_after_promote hw hc hd hn hp
  have hs1 := Shadowed_assign hw hs hd (fun t ht hv => by rw [hn]; exact hi t ht hv)
    p e.succ (st.lsys ++ [(p, e.succ)])
  have hfix := sync_fix hw1 hu1 hc1 hs1
  have hp2 : ¬ (p == null) = true := by simpa using hp
  have main : ∀ n, sync_fuel { st with buffer := assign st.buffer cit true p e.succ,
                                       lsys := st.lsys ++ [(p, e.succ)] } ≤ n →
      change_predecessor n st cit p =
      Outcome.done { st with
        buffer := st.buffer.map (fun t => if t.node = cit then ⟨cit, true, p, e.succ⟩ else t),
        lsys := st.lsys ++ [(p, e.succ)] } := by
    intro n hn0
    have hsync := sync_eq n _ hw1 hn0
    rw [hfix] at hsync
    unfold change_predecessor
    simp only [hd]
    rw [if_neg hp2]
    simp only [find_existing_fresh hf, Bool.not_false, if_true, target_add_rule,
      add_rule_fresh e.succ (no_rule_of_fresh hc hf), hsync, hn]
    simp [null, assign_eq_map]
  refine ⟨⟨_, main⟩, ?_⟩
  intro hl
  refine ⟨_, fun n hn0 => ⟨_, main n hn0, ?_⟩⟩
  simp [hl]

theorem target_mono {n m : Nat} (hnm : n ≤ m) :
    (∀ st p s st2, target_add_rule (sync n) st p s = Outcome.done st2 →
      target_add_rule (sync m) st p s = Outcome.done st2) ∧
    (∀ st p st2, target_remove_rule (sync n) st p = Outcome.done st2 →
      target_remove_rule (sync m) st p = Outcome.done st2) :=
  ⟨fun _ _ _ _ h => sync_mono h hnm, fun _ _ _ h => sync_mono h hnm⟩

theorem remove_predecessor_mono {n m cit : Nat} {st st2 : LSystemBuffer}
    (h : remove_predecessor n st cit = Outcome.done st2) (hnm : n ≤ m) :
    remove_predecessor m st cit = Outcome.done st2 := by
  unfold remove_predecessor at h ⊢
  cases hd : deref st cit with
  | none => simp [hd] at h
  | some t =>
    simp only [hd] at h ⊢
    split
    · rename_i hv
      rw [if_pos hv] at h
      exact (target_mono hnm).2 _ _ _ h
    · rename_i hv
      rw [if_neg hv] at h
      exact h

theorem change_predecessor_mono {n m cit : Nat} {p : predecessor} {st st2 : LSystemBuffer}
    (h : change_predecessor n st cit p = Outcome.done st2) (hnm : n ≤ m) :
    change_predecessor m st cit p = Outcome.done st2 := by
  unfold change_predecessor at h ⊢
  cases hd : deref st cit with
  | none => simp [hd] at h
  | some t =>
    simp only [hd] at h ⊢
    by_cases hp : (p == null) = true
    · rw [if_pos hp] at h ⊢
      exact remove_predecessor_mono h hnm
    · rw [if_neg hp] at h ⊢
      by_cases hdup : (!(find_existing st p).isSome) = true
      · rw [if_pos hdup] at h ⊢
        cases h1 : target_add_rule (sync n)
            { st with buffer := assign st.buffer cit (!(find_existing st p).isSome) p t.succ }
            p t.succ with
        | done st3 =>
          rw [h1] at h
          rw [(target_mono hnm).1 _ _ _ _ h1]
          simp only at h ⊢
          split
          · rename_i hc
            rw [if_pos hc] at h
            exact (target_mono hnm).2 _ _ _ h
          · rename_i hc
            rw [if_neg hc] at h
            exact h
        | violation s => rw [h1] at h; simp at h
        | dangling => rw [h1] at h; simp at h
        | diverged => rw [h1] at h; simp at h
      · rw [if_neg hdup] at h ⊢
        simp only at h ⊢
        split
        · rename_i hc
          rw [if_pos hc] at h
          exact (target_mono hnm).2 _ _ _ h
        · rename_i hc
          rw [if_neg hc] at h
          exact h

/-! ### Renaming the sole authoritative entry of a symbol -/

theorem rule_eq_of_key {l : production_rules} (hk : (l.map (fun r => r.1)).Nodup)
    {r r2 : predecessor × successor} (hr : r ∈ l) (hr2 : r2 ∈ l) (e : r.1 = r2.1) : r = r2 :=
  List.inj_on_of_nodup_map hk hr hr2 e

/-- The entries other than the renamed one keep mirroring their rules. -/
theorem mirrored_after_rename {st : LSystemBuffer} (hw : WF st) (hu : Uniq st)
    (hc : Consistent st) {cit : Nat} {e : Entry} (hd : deref st cit = some e)
    {p : predecessor} (hp : p ≠ null) (hf : ∀ u ∈ st.buffer, u.pred ≠ p) (s : successor) :
    (∀ r ∈ st.lsys, r.1 ≠ e.pred → Mirrored (assign st.buffer cit true p s) r) ∧
      Mirrored (assign st.buffer cit true p s) (p, s) := by
  have hu1 := Uniq_assign_fresh hu cit true s hf st.lsys
  constructor
  · intro r hr hne
    obtain ⟨t, ht, hv, hnn, hk, hs⟩ := hc.2 r hr
    have htn : t.node ≠ cit := by
      intro hcit
      have := node_eq_of_deref hw hd ht hcit
      subst this
      exact hne hk.symm
    exact mirrored_of_mem hu1 (mem_assign_of_ne _ _ _ ht htn) hv hk hs (by rw [← hk]; exact hnn)
  · exact mirrored_of_mem hu1 (mem_assign_self hd true p s) rfl rfl rfl hp

theorem sync_pass2_of_not_stale {st : LSystemBuffer}
    (h : ∀ t ∈ st.buffer, stale st.lsys t = false) : sync_pass2 st = st := by
  have : st.buffer.filter (fun t => !stale st.lsys t) = st.buffer := by
    rw [List.filter_eq_self]
    intro t ht
    simp [h t ht]
  simp only [sync_pass2, this]

theorem erase_node_split {pre suf : List Entry} {e : Entry}
    (h : ((pre ++ e :: suf).map (fun t => t.node)).Nodup) :
    (pre ++ e :: suf).filter (fun t => t.node != e.node) = pre ++ suf := by
  have hne := node_ne_of_split h
  have h1 : pre.filter (fun t => t.node != e.node) = pre := by
    rw [List.filter_eq_self]
    intro a ha
    simpa using hne.1 a ha
  have h2 : suf.filter (fun t => t.node != e.node) = suf := by
    rw [List.filter_eq_self]
    intro a ha
    simpa using hne.2 a ha
  simp [List.filter_append, List.filter_cons, h1, h2]

/-- C15: erasing a non-authoritative entry is local. For every state and every
live entry `e` at `cit` that is invalid or scratch, `erase(cit)` returns at once:
the store, the pending instruction and every other entry are untouched, and the
buffer is the old one without the node of `e` (the entries before and after it,
in their order). -/
theorem erase_non_authoritative (n : Nat) (st : LSystemBuffer) (cit : Nat) (e : Entry)
    (hd : deref st cit = some e) (hna : e.valid = false ∨ e.pred = null) :
    erase n st cit =
      Outcome.done { st with buffer := st.buffer.filter (fun t => t.node != cit) } ∧
    ∀ pre suf, st.buffer = pre ++ e :: suf → (st.buffer.map (fun t => t.node)).Nodup →
      st.buffer.filter (fun t => t.node != cit) = pre ++ suf := by
  constructor
  · unfold erase
    simp only [hd]
    have hc : (e.valid && e.pred != null) = false := by
      rcases hna with h | h
      · simp [h]
      · simp [h]
    simp [hc, erase_node]
  · intro pre suf hsplit hn
    rw [hsplit] at hn ⊢
    rw [← (deref_some hd).2]
    exact erase_node_split hn

theorem erase_non_authoritative_witness :
    deref latent_first_state 0 = some ⟨0, false, 'G', "x"⟩ ∧
    (erase 0 latent_first_state 0 =
      Outcome.done { latent_first_state with
        buffer := latent_first_state.buffer.filter (fun t => t.node != 0) } ∧
    ∀ pre suf, latent_first_state.buffer = pre ++ ⟨0, false, 'G', "x"⟩ :: suf →
      (latent_first_state.buffer.map (fun t => t.node)).Nodup →
      latent_first_state.buffer.filter (fun t => t.node != 0) = pre ++ suf) :=
  ⟨by decide,
    erase_non_authoritative 0 latent_first_state 0 ⟨0, false, 'G', "x"⟩ (by decide)
      (Or.inl rfl)⟩

/-! ### The constructor -/

theorem construct_fold : ∀ (rules : production_rules) (st : LSystemBuffer),
    (rules.foldl (fun st rule => push_back st true rule.1 rule.2) st).buffer.map
        (fun t => (t.valid, t.pred, t.succ)) =
      st.buffer.map (fun t => (t.valid, t.pred, t.succ)) ++
        rules.map (fun r => (true, r.1, r.2)) ∧
    (rules.foldl (fun st rule => push_back st true rule.1 rule.2) st).instruction =
      st.instruction ∧
    (rules.foldl (fun st rule => push_back st true rule.1 rule.2) st).lsys = st.lsys := by
  intro rules
  induction rules with
  | nil => intro st; simp
  | cons r rules ih =>
    intro st
    rw [List.foldl_cons]
    obtain ⟨h1, h2, h3⟩ := ih (push_back st true r.1 r.2)
    refine ⟨?_, h2, h3⟩
    rw [h1]
    simp [push_back]

/-- C16: `construct(store)` seeds the buffer from the store. For every store the
fresh buffer holds exactly one entry `(valid, p, s)` per rule `(p, s)`, in the
iteration order of the store, the store itself is untouched and no instruction is
pending; when the store has no null key, no entry is a scratch entry and
uniqueness and consistency hold. -/
theorem construct_seeds (rules : production_rules) :
    (construct rules).buffer.map (fun t => (t.valid, t.pred, t.succ)) =
      rules.map (fun r => (true, r.1, r.2)) ∧
    (construct rules).buffer.length = rules.length ∧
    (construct rules).instruction = none ∧
    (construct rules).lsys = rules ∧
    ((rules.map (fun r => r.1)).Nodup → (∀ r ∈ rules, r.1 ≠ null) →
      (∀ t ∈ (construct rules).buffer, t.valid = true ∧ t.pred ≠ null) ∧
      WF (construct rules) ∧ Uniq (construct rules) ∧ Consistent (construct rules)) := by
  obtain ⟨h1, h2, h3⟩ := construct_fold rules
    { lsys := rules, buffer := [], instruction := none, fresh := 0 }
  simp only [List.map_nil, List.nil_append] at h1
  have hmem : ∀ t ∈ (construct rules).buffer,
      ∃ r ∈ rules, t.valid = true ∧ t.pred = r.1 ∧ t.succ = r.2 := by
    intro t ht
    have : (t.valid, t.pred, t.succ) ∈
        (construct rules).buffer.map (fun t => (t.valid, t.pred, t.succ)) :=
      List.mem_map_of_mem _ ht
    unfold construct at this
    rw [h1] at this
    obtain ⟨r, hr, e⟩ := List.mem_map.1 this
    simp only [Prod.mk.injEq] at e
    exact ⟨r, hr, e.1.symm, e.2.1.symm, e.2.2.symm⟩
  refine ⟨h1, ?_, h2, h3, ?_⟩
  · have := congrArg List.length h1
    simpa [construct] using this
  · intro hk hnn
    have hwu := construct_WF_Uniq hk
    refine ⟨?_, hwu.1, hwu.2, ?_, ?_⟩
    · intro t ht
      obtain ⟨r, hr, hv, hp, _⟩ := hmem t ht
      exact ⟨hv, by rw [hp]; exact hnn r hr⟩
    · intro t ht _ _
      obtain ⟨r, hr, _, hp, hs⟩ := hmem t ht
      have : (t.pred, t.succ) = r := by rw [hp, hs]
      rw [this]
      unfold construct
      rw [h3]
      exact hr
    · intro r hr
      have hr2 : r ∈ rules := by
        unfold construct at hr
        rw [h3] at hr
        exact hr
      have : (true, r.1, r.2) ∈
          (construct rules).buffer.map (fun t => (t.valid, t.pred, t.succ)) := by
        unfold construct
        rw [h1]
        exact List.mem_map_of_mem _ hr2
      obtain ⟨t, ht, e⟩ := List.mem_map.1 this
      simp only [Prod.mk.injEq] at e
      exact ⟨t, ht, e.1, by rw [e.2.1]; exact hnn r hr2, e.2.1, e.2.2⟩

theorem construct_seeds_witness :
    (construct [('F', "FF"), ('G', "GG")]).buffer =
      [⟨0, true, 'F', "FF"⟩, ⟨1, true, 'G', "GG"⟩] ∧
    ([('F', "FF"), ('G', "GG")].map (fun r => r.1)).Nodup ∧
    (∀ r ∈ [('F', "FF"), ('G', "GG")], r.1 ≠ null) ∧
    ((∀ t ∈ (construct [('F', "FF"), ('G', "GG")]).buffer, t.valid = true ∧ t.pred ≠ null) ∧
      WF (construct [('F', "FF"), ('G', "GG")]) ∧ Uniq (construct [('F', "FF"), ('G', "GG")]) ∧
      Consistent (construct [('F', "FF"), ('G', "GG")])) :=
  ⟨by decide, by decide, by decide,
    (construct_seeds [('F', "FF"), ('G', "GG")]).2.2.2.2 (by decide) (by decide)⟩

/-! ### Scenario D: removing the predecessor of a sole authoritative entry -/

theorem Shadowed_assign_same {st : LSystemBuffer} (hw : WF st) (hs : Shadowed st) {cit : Nat}
    {e : Entry} (hd : deref st cit = some e) (s : successor) (l : production_rules) :
    Shadowed { st with buffer := assign st.buffer cit e.valid e.pred s, lsys := l } := by
  obtain ⟨he, hen⟩ := deref_some hd
  have key : ∀ t ∈ st.buffer, t.valid = false →
      duplicate_of (assign st.buffer cit e.valid e.pred s) t.node t.pred = true := by
    intro t ht hv
    obtain ⟨u, hu, hun, hup⟩ := (duplicate_of_iff _ _ _).1 (hs t ht hv)
    rw [duplicate_of_iff]
    by_cases hc : u.node = cit
    · have := node_eq_of_deref hw hd hu hc
      subst this
      exact ⟨⟨cit, u.valid, u.pred, s⟩, mem_assign_self hd _ _ _, by rw [← hc]; exact hun, hup⟩
    · exact ⟨u, mem_assign_of_ne _ _ _ hu hc, hun, hup⟩
  intro t ht hv
  rcases mem_assign ht with ⟨ht2, _⟩ | rfl
  · exact key t ht2 hv
  · have := key e he hv
    rw [hen] at this
    exact this

theorem add_rule_present {rules : production_rules} {p : predecessor} (s : successor)
    (h : LSystem.has_rule rules p = true) :
    LSystem.add_rule rules p s = rules.map (fun r => if r.1 = p then (p, s) else r) := by
  simp [LSystem.add_rule, h]

/-- C12: `change_successor` on an authoritative entry writes through. In every
consistent state, for every valid entry `e` at `cit` with a non-null predecessor
`p` and every expansion `t`, `change_successor(cit, t)` returns with `e` equal to
`(valid, p, t)`, every other entry unchanged, the length and the order of the
buffer unchanged, and the store equal to the old store with `p` mapped to `t`. -/
theorem change_successor_authoritative (st : LSystemBuffer) (cit : Nat) (e : Entry)
    (t : successor) (hw : WF st) (hu : Uniq st) (hc : Consistent st) (hs : Shadowed st)
    (hd : deref st cit = some e) (hv : e.valid = true) (hq : e.pred ≠ null) :
    ∃ n0, ∀ n, n0 ≤ n → ∃ st1, change_successor n st cit t = Outcome.done st1 ∧
      st1 = { st with
        buffer := st.buffer.map (fun u => if u.node = cit then ⟨cit, true, e.pred, t⟩ else u),
        lsys := st.lsys.map (fun r => if r.1 = e.pred then (e.pred, t) else r) } ∧
      st1.buffer.length = st.buffer.length ∧
      (∀ r, r ∈ st1.lsys ↔ r = (e.pred, t) ∨ (r ∈ st.lsys ∧ r.1 ≠ e.pred)) := by
  obtain ⟨he, hen⟩ := deref_some hd
  have hin : (e.pred, e.succ) ∈ st.lsys := hc.1 e he hv hq
  have hhas : LSystem.has_rule st.lsys e.pred = true := has_rule_of_mem hin
  have hw1 : WF (LSystemBuffer.mk (LSystem.add_rule st.lsys e.pred t)
      (assign st.buffer cit e.valid e.pred t) st.instruction st.fresh) :=
    WF_lsys (WF_assign hw cit e.valid e.pred t) (add_rule_keys hw.2.2 e.pred t)
  have hu1 : Uniq (LSystemBuffer.mk (LSystem.add_rule st.lsys e.pred t)
      (assign st.buffer cit e.valid e.pred t) st.instruction st.fresh) :=
    Uniq_assign_succ hu hd t
  have hs1 : Shadowed (LSystemBuffer.mk (LSystem.add_rule st.lsys e.pred t)
      (assign st.buffer cit e.valid e.pred t) st.instruction st.fresh) :=
    Shadowed_assign_same hw hs hd t _
  have hmem : ∀ r, r ∈ LSystem.add_rule st.lsys e.pred t ↔
      r = (e.pred, t) ∨ (r ∈ st.lsys ∧ r.1 ≠ e.pred) := by
    intro r
    rw [add_rule_present t hhas]
    simp only [List.mem_map]
    constructor
    · rintro ⟨r0, hr0, rfl⟩
      by_cases hk : r0.1 = e.pred
      · left; simp [hk]
      · right; simp [hk, hr0]
    · rintro (rfl | ⟨hr, hk⟩)
      · exact ⟨(e.pred, e.succ), hin, by simp⟩
      · exact ⟨r, hr, by simp [hk]⟩
  have hc1 : Consistent (LSystemBuffer.mk (LSystem.add_rule st.lsys e.pred t)
      (assign st.buffer cit e.valid e.pred t) st.instruction st.fresh) := by
    constructor
    · intro u hu2 hvu hpu
      rw [hmem]
      rcases mem_assign hu2 with ⟨hu3, hn⟩ | rfl
      · right
        refine ⟨hc.1 u hu3 hvu hpu, ?_⟩
        intro hk
        have := hu u hu3 e he hvu hv hk hpu
        subst this
        exact hn hen
      · left; rfl
    · intro r hr
      rcases (hmem r).1 hr with rfl | ⟨hr1, hk⟩
      · exact ⟨⟨cit, e.valid, e.pred, t⟩, mem_assign_self hd _ _ _, hv, hq, rfl, rfl⟩
      · obtain ⟨u, hu2, hvu, hpu, hku, hsu⟩ := hc.2 r hr1
        refine ⟨u, mem_assign_of_ne _ _ _ hu2 ?_, hvu, hpu, hku, hsu⟩
        intro hcit
        have := node_eq_of_deref hw hd hu2 hcit
        subst this
        exact hk hku.symm
  have hfix := sync_fix hw1 hu1 hc1 hs1
  refine ⟨sync_fuel (LSystemBuffer.mk (LSystem.add_rule st.lsys e.pred t)
      (assign st.buffer cit e.valid e.pred t) st.instruction st.fresh), ?_⟩
  intro n hn
  have h1 := sync_eq n _ hw1 hn
  rw [hfix] at h1
  refine ⟨LSystemBuffer.mk (LSystem.add_rule st.lsys e.pred t)
      (assign st.buffer cit e.valid e.pred t) st.instruction st.fresh, ?_, ?_, ?_, hmem⟩
  · unfold change_successor
    simp only [hd, hv, if_true, target_add_rule]
    rw [hv] at h1
    exact h1
  · rw [add_rule_present t hhas, assign_eq_map, hv]
  · simp [assign]

theorem change_successor_authoritative_witness :
    deref two_rules_state 1 = some ⟨1, true, 'G', "GG"⟩ ∧
    ∃ n0, ∀ n, n0 ≤ n → ∃ st1, change_successor n two_rules_state 1 "GFG" = Outcome.done st1 ∧
      st1 = { two_rules_state with
        buffer := two_rules_state.buffer.map
          (fun u => if u.node = 1 then ⟨1, true, 'G', "GFG"⟩ else u),
        lsys := two_rules_state.lsys.map (fun r => if r.1 = 'G' then ('G', "GFG") else r) } ∧
      st1.buffer.length = two_rules_state.buffer.length ∧
      (∀ r, r ∈ st1.lsys ↔ r = ('G', "GFG") ∨ (r ∈ two_rules_state.lsys ∧ r.1 ≠ 'G')) :=
  ⟨by decide,
    change_successor_authoritative two_rules_state 1 ⟨1, true, 'G', "GG"⟩ "GFG" (by decide)
      (by decide) (by decide) (by decide) (by decide) rfl (by decide)⟩

/-! ### Renaming a symbol to itself -/

theorem get_rule_eq_some_iff {l : production_rules} (hk : (l.map (fun r => r.1)).Nodup)
    {k : predecessor} {s : successor} : LSystem.get_rule l k = some s ↔ (k, s) ∈ l := by
  unfold LSystem.get_rule
  constructor
  · intro h
    cases hf : l.find? (fun r => r.1 == k) with
    | none => rw [hf] at h; simp at h
    | some r =>
      rw [hf] at h
      simp only [Option.map_some', Option.some.injEq] at h
      have h1 := List.find?_some hf
      have h2 := List.mem_of_find?_eq_some hf
      simp only [beq_iff_eq] at h1
      have : r = (k, s) := by
        rw [← h1, ← h]
      rw [← this]
      exact h2
  · intro h
    have hsome : (l.find? (fun r => r.1 == k)).isSome = true := by
      rw [List.find?_isSome]
      exact ⟨(k, s), h, by simp⟩
    obtain ⟨r, hr⟩ := Option.isSome_iff_exists.1 hsome
    have h1 := List.find?_some hr
    have h2 := List.mem_of_find?_eq_some hr
    simp only [beq_iff_eq] at h1
    have := rule_eq_of_key hk h2 h h1
    rw [hr, this]
    rfl

theorem sync_rule_instruction (i : Option Instruction) (st : LSystemBuffer)
    (r : predecessor × successor) :
    sync_rule { st with instruction := i } r = { sync_rule st r with instruction := i } := by
  unfold sync_rule
  simp only []
  split <;> rfl

theorem foldl_sync_rule_instruction (i : Option Instruction) (rules : production_rules)
    (st : LSystemBuffer) :
    rules.foldl sync_rule { st with instruction := i } =
      { rules.foldl sync_rule st with instruction := i } := by
  induction rules generalizing st with
  | nil => rfl
  | cons r rules ih =>
    rw [List.foldl_cons, List.foldl_cons, sync_rule_instruction, ih]

theorem sync_pass12_instruction (i : Option Instruction) (st : LSystemBuffer) :
    sync_pass2 (sync_pass1 { st with instruction := i }) =
      { sync_pass2 (sync_pass1 st) with instruction := i } := by
  unfold sync_pass1
  simp only []
  rw [foldl_sync_rule_instruction]
  rfl

theorem sync_pass3_instruction (i : Option Instruction) (f : LSystemBuffer → Outcome)
    (hf : ∀ x, f { x with instruction := i } = with_instruction i (f x)) :
    ∀ (k : Nat) (st : LSystemBuffer) (it : Option Nat),
      sync_pass3 f k { st with instruction := i } it =
        with_instruction i (sync_pass3 f k st it) := by
  intro k
  induction k with
  | zero => intro st it; rfl
  | succ k ih =>
    intro st it
    cases it with
    | none => simp only [sync_pass3, with_instruction]
    | some it =>
      rw [sync_pass3, sync_pass3]
      have hd : deref { st with instruction := i } it = deref st it := rfl
      rw [hd]
      cases hdd : deref st it with
      | none => rfl
      | some t =>
        simp only []
        by_cases hc : (!t.valid && !duplicate_of st.buffer it t.pred) = true
        · simp only [hc, if_true]
          have := hf { st with buffer := set_valid st.buffer it,
                               lsys := LSystem.add_rule st.lsys t.pred t.succ }
          simp only [] at this
          rw [this]
          cases hfx : f { st with buffer := set_valid st.buffer it,
                                  lsys := LSystem.add_rule st.lsys t.pred t.succ } with
          | done st1 =>
            simp only [with_instruction]
            have hd1 : deref { st1 with instruction := i } it = deref st1 it := rfl
            rw [hd1]
            cases hd2 : deref st1 it with
            | none => rfl
            | some t1 =>
              simp only []
              exact ih st1 (next st1.buffer it)
          | violation s => rfl
          | dangling => rfl
          | diverged => rfl
        · simp only [hc, if_false]
          exact ih st (next st.buffer it)

theorem sync_instruction (i : Option Instruction) : ∀ (n : Nat) (st : LSystemBuffer),
    sync n { st with instruction := i } = with_instruction i (sync n st) := by
  intro n
  induction n with
  | zero => intro st; rfl
  | succ n ih =>
    intro st
    rw [sync, sync, sync_pass12_instruction]
    exact sync_pass3_instruction i (sync n) ih n _ _

theorem target_remove_rule_frame (i j : Option Instruction) (n : Nat) (l : production_rules)
    (b : List Entry) (f : Nat) (p : predecessor) :
    target_remove_rule (sync n) (LSystemBuffer.mk l b i f) p =
      with_instruction i (target_remove_rule (sync n) (LSystemBuffer.mk l b j f) p) :=
  sync_instruction i n (LSystemBuffer.mk (LSystem.remove_rule l p) b j f)

theorem target_add_rule_frame (i j : Option Instruction) (n : Nat) (l : production_rules)
    (b : List Entry) (f : Nat) (p : predecessor) (s : successor) :
    target_add_rule (sync n) (LSystemBuffer.mk l b i f) p s =
      with_instruction i (target_add_rule (sync n) (LSystemBuffer.mk l b j f) p s) :=
  sync_instruction i n (LSystemBuffer.mk (LSystem.add_rule l p s) b j f)

theorem not_live_instruction (i : Option Instruction) (st : LSystemBuffer) (cit : Nat) :
    not_live { st with instruction := i } cit = with_instruction i (not_live st cit) := by
  unfold not_live
  split <;> rfl

theorem erase_instruction (i : Option Instruction) (n : Nat) (st : LSystemBuffer) (cit : Nat) :
    erase n { st with instruction := i } cit = with_instruction i (erase n st cit) := by
  unfold erase
  have hd : deref { st with instruction := i } cit = deref st cit := rfl
  rw [hd]
  cases deref st cit with
  | none => exact not_live_instruction i st cit
  | some t =>
    simp only []
    split
    · exact target_remove_rule_frame i st.instruction n st.lsys st.buffer st.fresh t.pred
    · rfl

theorem remove_predecessor_instruction (i : Option Instruction) (n : Nat)
    (st : LSystemBuffer) (cit : Nat) :
    remove_predecessor n { st with instruction := i } cit =
      with_instruction i (remove_predecessor n st cit) := by
  unfold remove_predecessor
  have hd : deref { st with instruction := i } cit = deref st cit := rfl
  rw [hd]
  cases deref st cit with
  | none => exact not_live_instruction i st cit
  | some t =>
    simp only []
    split
    · exact target_remove_rule_frame i st.instruction n st.lsys _ st.fresh t.pred
    · rfl

theorem change_successor_instruction (i : Option Instruction) (n : Nat)
    (st : LSystemBuffer) (cit : Nat) (s : successor) :
    change_successor n { st with instruction := i } cit s =
      with_instruction i (change_successor n st cit s) := by
  unfold change_successor
  have hd : deref { st with instruction := i } cit = deref st cit := rfl
  rw [hd]
  cases deref st cit with
  | none => exact not_live_instruction i st cit
  | some t =>
    simp only []
    split
    · exact target_add_rule_frame i st.instruction n st.lsys _ st.fresh t.pred s
    · rfl

theorem change_predecessor_instruction (i : Option Instruction) (n : Nat)
    (st : LSystemBuffer) (cit : Nat) (p : predecessor) :
    change_predecessor n { st with instruction := i } cit p =
      with_instruction i (change_predecessor n st cit p) := by
  unfold change_predecessor
  have hd : deref { st with instruction := i } cit = deref st cit := rfl
  have hdup : has_duplicate { st with instruction := i } cit = has_duplicate st cit := rfl
  have hex : find_existing { st with instruction := i } p = find_existing st p := rfl
  rw [hd]
  cases hdd : deref st cit with
  | none => exact not_live_instruction i st cit
  | some t =>
    simp only [hdup, hex]
    by_cases hp : (p == null) = true
    · rw [if_pos hp, if_pos hp]
      exact remove_predecessor_instruction i n st cit
    · rw [if_neg hp, if_neg hp]
      by_cases hd2 : (!(find_existing st p).isSome) = true
      · rw [if_pos hd2, if_pos hd2]
        have h1 : target_add_rule (sync n)
            { lsys := st.lsys, buffer := assign st.buffer cit (!(find_existing st p).isSome) p t.succ,
              instruction := i, fresh := st.fresh } p t.succ =
            with_instruction i (target_add_rule (sync n)
              { st with buffer := assign st.buffer cit (!(find_existing st p).isSome) p t.succ }
              p t.succ) :=
          target_add_rule_frame i st.instruction n st.lsys _ st.fresh p t.succ
        rw [h1]
        cases target_add_rule (sync n)
            { st with buffer := assign st.buffer cit (!(find_existing st p).isSome) p t.succ }
            p t.succ with
        | done st2 =>
          simp only [with_instruction]
          split
          · exact target_remove_rule_frame i st2.instruction n st2.lsys st2.buffer st2.fresh
              t.pred
          · rfl
        | violation s => rfl
        | dangling => rfl
        | diverged => rfl
      · rw [if_neg hd2, if_neg hd2]
        simp only []
        split
        · exact target_remove_rule_frame i st.instruction n st.lsys _ st.fresh t.pred
        · rfl

theorem call_instruction (j : Option Instruction) (i : Instruction) (n : Nat)
    (st : LSystemBuffer) :
    call i n { st with instruction := j } = with_instruction j (call i n st) := by
  cases i with
  | add_rule => rfl
  | erase cit => exact erase_instruction j n st cit
  | change_predecessor cit p => exact change_predecessor_instruction j n st cit p
  | remove_predecessor cit => exact remove_predecessor_instruction j n st cit
  | change_successor cit s => exact change_successor_instruction j n st cit s

theorem apply_delayed (i : Instruction) (n : Nat) (st : LSystemBuffer) :
    apply n (delayed i st) = applied i (call i n st) := by
  unfold apply delayed
  simp only []
  rw [call_instruction]
  cases call i n st <;> rfl

/-! ### The deferred mutators -/

/-- C17: deferred mutators are equivalent to direct ones. For each of `add_rule`,
`erase`, `change_predecessor`, `remove_predecessor` and `change_successor` and
all arguments, the `delayed_` member changes neither the buffer nor the store,
and the `apply()` that follows ends as the direct call on the same state ends
(`applied`): when the direct call returns the state `st1`, `apply()` returns
`st1` with the slot empty; when the direct call violates its precondition, so
does `apply()`. -/
theorem delayed_equivalent (n : Nat) (st : LSystemBuffer) (cit : Nat) (p : predecessor)
    (s : successor) :
    ((delayed_add_rule st).buffer = st.buffer ∧ (delayed_add_rule st).lsys = st.lsys ∧
      apply n (delayed_add_rule st) = Outcome.done { add_rule st with instruction := none }) ∧
    ((delayed_erase st cit).buffer = st.buffer ∧ (delayed_erase st cit).lsys = st.lsys ∧
      apply n (delayed_erase st cit) = applied (Instruction.erase cit) (erase n st cit)) ∧
    ((delayed_change_predecessor st cit p).buffer = st.buffer ∧
      (delayed_change_predecessor st cit p).lsys = st.lsys ∧
      apply n (delayed_change_predecessor st cit p) =
        applied (Instruction.change_predecessor cit p) (change_predecessor n st cit p)) ∧
    ((delayed_remove_predecessor st cit).buffer = st.buffer ∧
      (delayed_remove_predecessor st cit).lsys = st.lsys ∧
      apply n (delayed_remove_predecessor st cit) =
        applied (Instruction.remove_predecessor cit) (remove_predecessor n st cit)) ∧
    ((delayed_change_successor st cit s).buffer = st.buffer ∧
      (delayed_change_successor st cit s).lsys = st.lsys ∧
      apply n (delayed_change_successor st cit s) =
        applied (Instruction.change_successor cit s) (change_successor n st cit s)) :=
  ⟨⟨rfl, rfl, apply_delayed Instruction.add_rule n st⟩,
    ⟨rfl, rfl, apply_delayed (Instruction.erase cit) n st⟩,
    ⟨rfl, rfl, apply_delayed (Instruction.change_predecessor cit p) n st⟩,
    ⟨rfl, rfl, apply_delayed (Instruction.remove_predecessor cit) n st⟩,
    ⟨rfl, rfl, apply_delayed (Instruction.change_successor cit s) n st⟩⟩

theorem call_returns {st : LSystemBuffer} (hw : WF st) (i : Instruction)
    (hl : live st i = true) : ∃ n0, ∀ n, n0 ≤ n → ∃ st1, call i n st = Outcome.done st1 := by
  cases i with
  | add_rule => exact ⟨0, fun n _ => ⟨_, rfl⟩⟩
  | erase cit => exact erase_returns hw hl
  | change_predecessor cit p => exact change_predecessor_returns hw hl p
  | remove_predecessor cit => exact remove_predecessor_returns hw hl
  | change_successor cit s => exact change_successor_returns hw hl s

theorem call_not_live (st : LSystemBuffer) (i : Instruction) (hl : live st i = false)
    (n : Nat) (st1 : LSystemBuffer) : call i n st ≠ Outcome.done st1 := by
  cases i with
  | add_rule => simp [live] at hl
  | erase cit =>
    have hd : deref st cit = none := by simpa [live] using hl
    simp [call, erase, hd]
  | change_predecessor cit p =>
    have hd : deref st cit = none := by simpa [live] using hl
    simp [call, change_predecessor, hd]
  | remove_predecessor cit =>
    have hd : deref st cit = none := by simpa [live] using hl
    simp [call, remove_predecessor, hd]
  | change_successor cit s =>
    have hd : deref st cit = none := by simpa [live] using hl
    simp [call, change_successor, hd]

theorem apply_pending {st : LSystemBuffer} {i : Instruction} (hi : st.instruction = some i)
    (n : Nat) : apply n st = applied i (call i n st) := by
  have e : delayed i st = st := by
    cases st
    simp only [delayed]
    simp only at hi
    rw [hi]
  calc apply n st = apply n (delayed i st) := by rw [e]
    _ = applied i (call i n st) := apply_delayed i n st

theorem apply_empty (st : LSystemBuffer) (h : st.instruction = none) (n : Nat) :
    apply n st = Outcome.done st := by
  unfold apply
  rw [h]

/-- C19: `apply()` runs a pending command exactly once. With an empty slot it
returns the state it was called in. With a pending instruction it ends as the
call of that instruction (the very mutator with the queued arguments) ends in
the state of the call, and on return the slot is cleared: if the queued iterator
is a node of the buffer, or the instruction is `add_rule`, `apply()` returns the
state the mutator returns, with the slot empty, and a second `apply()` returns
that same state; if the queued iterator is not a node of the buffer, `apply()`
does not return. Whenever `apply()` returns, the slot is empty and a second
`apply()` changes nothing. -/
theorem apply_once (st : LSystemBuffer) :
    (st.instruction = none → ∀ n, apply n st = Outcome.done st) ∧
    (∀ i n, st.instruction = some i → apply n st = applied i (call i n st)) ∧
    (∀ (n cit : Nat) (p : predecessor) (s : successor),
      call Instruction.add_rule n st = Outcome.done (add_rule st) ∧
      call (Instruction.erase cit) n st = erase n st cit ∧
      call (Instruction.change_predecessor cit p) n st = change_predecessor n st cit p ∧
      call (Instruction.remove_predecessor cit) n st = remove_predecessor n st cit ∧
      call (Instruction.change_successor cit s) n st = change_successor n st cit s) ∧
    (∀ i, WF st → st.instruction = some i → live st i = true →
      ∃ n0, ∀ n, n0 ≤ n → ∃ st1, call i n st = Outcome.done st1 ∧
        apply n st = Outcome.done { st1 with instruction := none } ∧
        ∀ m, apply m { st1 with instruction := none } =
          Outcome.done { st1 with instruction := none }) ∧
    (∀ i, st.instruction = some i → live st i = false →
      ∀ n st1, apply n st ≠ Outcome.done st1) ∧
    (∀ n st1, apply n st = Outcome.done st1 →
      st1.instruction = none ∧ ∀ m, apply m st1 = Outcome.done st1) := by
  refine ⟨apply_empty st, fun i n hi => apply_pending hi n,
    fun n cit p s => ⟨rfl, rfl, rfl, rfl, rfl⟩, ?_, ?_, ?_⟩
  · intro i hw hi hl
    obtain ⟨n0, h⟩ := call_returns hw i hl
    refine ⟨n0, fun n hn => ?_⟩
    obtain ⟨st1, h1⟩ := h n hn
    refine ⟨st1, h1, ?_, fun m => apply_empty _ rfl m⟩
    rw [apply_pending hi n, h1]
    rfl
  · intro i hi hl n st1 h
    rw [apply_pending hi n] at h
    cases hc : call i n st with
    | done s => exact call_not_live st i hl n s hc
    | violation s => rw [hc] at h; exact Outcome.noConfusion h
    | dangling => rw [hc] at h; exact Outcome.noConfusion h
    | diverged => rw [hc] at h; exact Outcome.noConfusion h
  · intro n st1 h
    have hnone : st1.instruction = none := by
      cases hi : st.instruction with
      | none =>
        rw [apply_empty st hi n] at h
        rw [← Outcome.done.inj h]
        exact hi
      | some i =>
        rw [apply_pending hi n] at h
        cases hc : call i n st with
        | done s =>
          rw [hc] at h
          rw [← Outcome.done.inj h]
        | violation s => rw [hc] at h; exact Outcome.noConfusion h
        | dangling => rw [hc] at h; exact Outcome.noConfusion h
        | diverged => rw [hc] at h; exact Outcome.noConfusion h
    exact ⟨hnone, apply_empty st1 hnone⟩

/-! ### Latent entries and the entries that shadow them -/

theorem shadowed_of_not_promotable {st : LSystemBuffer}
    (h : ∀ t ∈ st.buffer, promotable st.buffer t = false) : Shadowed st := by
  intro t ht hv
  have := h t ht
  simpa [promotable, hv] using this

theorem sync_Shadowed {n : Nat} {st st1 : LSystemBuffer} (hw : WF st)
    (h : sync n st = Outcome.done st1) : Shadowed st1 := by
  rw [sync_det hw h]
  exact shadowed_of_not_promotable (promote_all_none _)

theorem sync_WF {n : Nat} {st st1 : LSystemBuffer} (hw : WF st)
    (h : sync n st = Outcome.done st1) : WF st1 := by
  rw [sync_det hw h]
  exact sync_result_WF hw

theorem erase_Shadowed {n cit : Nat} {st st1 : LSystemBuffer} {e : Entry} (hw : WF st)
    (hd : deref st cit = some e) (hv : e.valid = true) (hp : e.pred ≠ null)
    (h : erase n st cit = Outcome.done st1) : Shadowed st1 := by
  unfold erase at h
  have hq2 : (e.pred != null) = true := by simpa using hp
  simp only [hd, hv, hq2, Bool.and_self, if_true] at h
  exact sync_Shadowed (WF_lsys hw (remove_rule_keys hw.2.2 e.pred)) h

theorem remove_predecessor_Shadowed {n cit : Nat} {st st1 : LSystemBuffer} {e : Entry}
    (hw : WF st) (hd : deref st cit = some e) (hv : e.valid = true)
    (h : remove_predecessor n st cit = Outcome.done st1) : Shadowed st1 := by
  unfold remove_predecessor at h
  simp only [hd, hv, if_true] at h
  exact sync_Shadowed (WF_lsys (WF_assign hw cit true null e.succ)
    (remove_rule_keys hw.2.2 e.pred)) h

theorem change_successor_Shadowed {n cit : Nat} {s : successor} {st st1 : LSystemBuffer}
    {e : Entry} (hw : WF st) (hd : deref st cit = some e) (hv : e.valid = true)
    (h : change_successor n st cit s = Outcome.done st1) : Shadowed st1 := by
  unfold change_successor at h
  simp only [hd, hv, if_true] at h
  exact sync_Shadowed (WF_lsys (WF_assign hw cit true e.pred s)
    (add_rule_keys hw.2.2 e.pred s)) h

theorem change_predecessor_Shadowed {n cit : Nat} {p : predecessor} {st st1 : LSystemBuffer}
    {e : Entry} (hw : WF st) (hd : deref st cit = some e) (hp : p ≠ null)
    (hstore : (find_existing st p).isSome = false ∨
      (has_duplicate st cit = false ∧ e.pred ≠ null))
    (h : change_predecessor n st cit p = Outcome.done st1) : Shadowed st1 := by
  unfold change_predecessor at h
  have hp2 : ¬ (p == null) = true := by simpa using hp
  simp only [hd] at h
  rw [if_neg hp2] at h
  have hw1 := WF_assign hw cit (!(find_existing st p).isSome) p e.succ
  split at h
  · rename_i st2 h2
    by_cases hc : (!has_duplicate st cit && e.pred != null) = true
    · rw [if_pos hc] at h
      by_cases hdup : (!(find_existing st p).isSome) = true
      · rw [if_pos hdup] at h2
        have hw2 := sync_WF (WF_lsys hw1 (add_rule_keys hw1.2.2 p e.succ)) h2
        exact sync_Shadowed (WF_lsys hw2 (remove_rule_keys hw2.2.2 e.pred)) h
      · rw [if_neg hdup] at h2
        have := Outcome.done.inj h2
        subst this
        exact sync_Shadowed (WF_lsys hw1 (remove_rule_keys hw1.2.2 e.pred)) h
    · rw [if_neg hc] at h
      have := Outcome.done.inj h
      subst this
      rcases hstore with hs | ⟨hs1, hs2⟩
      · rw [hs] at h2
        simp only [Bool.not_false, if_true] at h2
        rw [hs] at hw1
        exact sync_Shadowed (WF_lsys hw1 (add_rule_keys hw1.2.2 p e.succ)) h2
      · exact absurd (by simp [hs1, hs2]) hc
  · rename_i hne
    exact (hne st1 h).elim

/-- The state `lone_latent_state` is reached by public mutators only: two scratch
entries are renamed to the symbol `F` of the store, the authority of `F` is
erased (the two latent entries block each other's promotion), and then one of the
two latent entries is erased. -/
theorem lone_latent_reachable : Reachable false lone_latent_state :=
  have h0 : Reachable false (add_rule (add_rule (construct [('F', "FF")]))) :=
    Reachable.add_rule (Reachable.add_rule (Reachable.construct _ (by decide)))
  have h1 : Reachable false ⟨[('F', "FF")],
      [⟨0, true, 'F', "FF"⟩, ⟨1, false, 'F', ""⟩, ⟨2, true, null, ""⟩], none, 3⟩ :=
    Reachable.change_predecessor 9 1 'F' h0 (by decide)
  have h2 : Reachable false ⟨[('F', "FF")],
      [⟨0, true, 'F', "FF"⟩, ⟨1, false, 'F', ""⟩, ⟨2, false, 'F', ""⟩], none, 3⟩ :=
    Reachable.change_predecessor 9 2 'F' h1 (by decide)
  have h3 : Reachable false ⟨[], [⟨1, false, 'F', ""⟩, ⟨2, false, 'F', ""⟩], none, 3⟩ :=
    Reachable.erase 9 0 h2 (by decide)
  Reachable.erase 9 1 h3 (by decide)

/-- C20 as stated fails: `lone_latent_state` is reachable by public mutators on
live entries, and its only entry is invalid and shares its predecessor with no
other entry. -/
theorem latent_shadowed_counterexample :
    ¬ ∀ st : LSystemBuffer, Reachable false st →
      ∀ t ∈ st.buffer, t.valid = false →
        ∃ u ∈ st.buffer, u.node ≠ t.node ∧ u.pred = t.pred := by
  intro h
  obtain ⟨u, hu, hn, _⟩ := h lone_latent_state lone_latent_reachable ⟨2, false, 'F', ""⟩
    (by decide) rfl
  simp only [lone_latent_state, List.mem_singleton] at hu
  subst hu
  exact hn rfl

/-- C20 (amended): latent entries are shadowed after every reconciliation. In
every state reachable from `construct(store)` by the public mutators on live
entries, `sync()` returns, and in the state it returns every invalid entry shares
its predecessor with another entry. So this holds right after every mutator call
that changes a rule of a non-null symbol in the store: `erase`,
`remove_predecessor` and `change_successor` of a valid entry with a non-null
predecessor, and `change_predecessor` to a non-null symbol that no entry carries
yet, or of a valid entry away from a non-null predecessor that no other entry
shares. -/
theorem latent_shadowed_after_sync (st : LSystemBuffer) (h : Reachable false st) :
    (∃ n st1, sync n st = Outcome.done st1) ∧
    (∀ n st1, sync n st = Outcome.done st1 →
      ∀ t ∈ st1.buffer, t.valid = false →
        ∃ u ∈ st1.buffer, u.node ≠ t.node ∧ u.pred = t.pred) ∧
    (∀ n cit e st1, deref st cit = some e → e.valid = true → e.pred ≠ null →
      erase n st cit = Outcome.done st1 ∨
        remove_predecessor n st cit = Outcome.done st1 ∨
        (∃ s, change_successor n st cit s = Outcome.done st1) →
      Shadowed st1) ∧
    (∀ n cit e p st1, deref st cit = some e → p ≠ null →
      (find_existing st p).isSome = false ∨
        (e.valid = true ∧ has_duplicate st cit = false ∧ e.pred ≠ null) →
      change_predecessor n st cit p = Outcome.done st1 → Shadowed st1) := by
  have hw := (reachable_inv h).1
  refine ⟨⟨sync_fuel st, sync_result st, sync_eq _ st hw (Nat.le_refl _)⟩, ?_, ?_, ?_⟩
  · intro n st1 h1 t ht hv
    exact (duplicate_of_iff _ _ _).1 (sync_Shadowed hw h1 t ht hv)
  · intro n cit e st1 hd hv hp hcall
    rcases hcall with h1 | h1 | ⟨s, h1⟩
    · exact erase_Shadowed hw hd hv hp h1
    · exact remove_predecessor_Shadowed hw hd hv h1
    · exact change_successor_Shadowed hw hd hv h1
  · intro n cit e p st1 hd hp hstore h1
    refine change_predecessor_Shadowed hw hd hp ?_ h1
    rcases hstore with h | ⟨_, h2, h3⟩
    · exact Or.inl h
    · exact Or.inr ⟨h2, h3⟩

theorem shadowed_reachable : Reachable false shadowed_state :=
  Reachable.change_predecessor 5 1 'F'
    (Reachable.add_rule (Reachable.construct [('F', "FF")] (by decide))) (by decide)

theorem latent_shadowed_after_sync_witness :
    Reachable false lone_latent_state ∧
    (∃ n st1, sync n lone_latent_state = Outcome.done st1) ∧
    (∀ n st1, sync n lone_latent_state = Outcome.done st1 →
      ∀ t ∈ st1.buffer, t.valid = false →
        ∃ u ∈ st1.buffer, u.node ≠ t.node ∧ u.pred = t.pred) ∧
    Reachable false shadowed_state ∧
    erase 5 shadowed_state 0 = Outcome.done promoted_state ∧
    Shadowed promoted_state ∧
    change_predecessor 9 shadowed_state 0 'G' = Outcome.done
      ⟨[('F', "FF"), ('G', "FF")],
        [⟨0, true, 'G', "FF"⟩, ⟨1, false, 'F', ""⟩, ⟨2, true, 'F', "FF"⟩], none, 3⟩ ∧
    Shadowed ⟨[('F', "FF"), ('G', "FF")],
        [⟨0, true, 'G', "FF"⟩, ⟨1, false, 'F', ""⟩, ⟨2, true, 'F', "FF"⟩], none, 3⟩ :=
  ⟨lone_latent_reachable,
    (latent_shadowed_after_sync lone_latent_state lone_latent_reachable).1,
    (latent_shadowed_after_sync lone_latent_state lone_latent_reachable).2.1,
    shadowed_reachable, by decide,
    (latent_shadowed_after_sync shadowed_state shadowed_reachable).2.2.1 5 0
      ⟨0, true, 'F', "FF"⟩ promoted_state (by decide) rfl (by decide) (Or.inl (by decide)),
    by decide,
    (latent_shadowed_after_sync shadowed_state shadowed_reachable).2.2.2 9 0
      ⟨0, true, 'F', "FF"⟩ 'G' _ (by decide) (by decide) (Or.inl (by decide)) (by decide)⟩

theorem apply_once_witness :
    apply 5 shadowed_state = Outcome.done shadowed_state ∧
    WF (delayed_erase shadowed_state 0) ∧
    live (delayed_erase shadowed_state 0) (Instruction.erase 0) = true ∧
    (∃ n0, ∀ n, n0 ≤ n → ∃ st1,
      call (Instruction.erase 0) n (delayed_erase shadowed_state 0) = Outcome.done st1 ∧
      apply n (delayed_erase shadowed_state 0) = Outcome.done { st1 with instruction := none } ∧
      ∀ m, apply m { st1 with instruction := none } =
        Outcome.done { st1 with instruction := none }) ∧
    apply 5 (delayed_erase shadowed_state 0) = Outcome.done promoted_state ∧
    (promoted_state.instruction = none ∧
      ∀ m, apply m promoted_state = Outcome.done promoted_state) ∧
    live (delayed_erase promoted_state 0) (Instruction.erase 0) = false ∧
    (∀ n st1, apply n (delayed_erase promoted_state 0) ≠ Outcome.done st1) :=
  ⟨(apply_once shadowed_state).1 rfl 5, by decide, by decide,
    (apply_once (delayed_erase shadowed_state 0)).2.2.2.1 (Instruction.erase 0) (by decide)
      rfl (by decide),
    by decide,
    (apply_once (delayed_erase shadowed_state 0)).2.2.2.2.2 5 promoted_state (by decide),
    by decide,
    (apply_once (delayed_erase promoted_state 0)).2.2.2.2.1 (Instruction.erase 0) rfl
      (by decide)⟩

/-! ### Two buffers on one store -/

theorem add_rule_split {l : production_rules} (hk : (l.map (fun r => r.1)).Nodup)
    {p : predecessor} {s0 : successor} (t : successor) (h : (p, s0) ∈ l) :
    ∃ l1 l2, l = l1 ++ (p, s0) :: l2 ∧ LSystem.add_rule l p t = l1 ++ (p, t) :: l2 ∧
      ∀ r ∈ l1 ++ l2, r.1 ≠ p := by
  obtain ⟨l1, l2, rfl⟩ := List.append_of_mem h
  have hne : ∀ r ∈ l1 ++ l2, r.1 ≠ p := by
    rw [List.map_append, List.map_cons] at hk
    have h1 := (List.nodup_append.1 hk).2.2
    have h2 := (List.nodup_cons.1 (List.nodup_append.1 hk).2.1).1
    intro r hr e
    rcases List.mem_append.1 hr with hr | hr
    · have hm := List.mem_map_of_mem (fun r => r.1) hr
      simp only [e] at hm
      exact h1 hm (List.mem_cons_self _ _)
    · exact h2 (by rw [← e]; exact List.mem_map_of_mem (fun r => r.1) hr)
  refine ⟨l1, l2, rfl, ?_, hne⟩
  rw [add_rule_present t (has_rule_of_mem h)]
  have e1 : l1.map (fun r => if r.1 = p then (p, t) else r) = l1 := by
    conv => rhs; rw [← List.map_id l1]
    apply List.map_congr_left
    intro r hr
    simp [hne r (List.mem_append_left _ hr)]
  have e2 : l2.map (fun r => if r.1 = p then (p, t) else r) = l2 := by
    conv => rhs; rw [← List.map_id l2]
    apply List.map_congr_left
    intro r hr
    simp [hne r (List.mem_append_right _ hr)]
  simp only [List.map_append, List.map_cons, e1, e2, if_true]

/-- The first loop of `sync` when exactly one rule of the store differs from
its valid entry: only the body for that rule has an effect. -/
theorem sync_pass1_one_changed {st : LSystemBuffer} (hw : WF st)
    {l1 l2 : production_rules} {q : predecessor} {s : successor}
    (hl : st.lsys = l1 ++ (q, s) :: l2)
    (hm : ∀ r ∈ l1 ++ l2, Mirrored st.buffer r)
    (hk : ∀ r ∈ l1 ++ l2, r.1 ≠ q) :
    sync_pass1 st = sync_rule st (q, s) := by
  unfold sync_pass1
  rw [hl, List.foldl_append, List.foldl_cons]
  rw [foldl_sync_rule_id l1 hw.1 (fun r hr => hm r (List.mem_append_left _ hr))]
  apply foldl_sync_rule_id l2 (sync_rule_nodes (q, s) ⟨hw.1, hw.2.1⟩).1
  intro r hr
  exact sync_rule_mirrored_other (q, s) r hw.1 (hk r (List.mem_append_right _ hr))
    (hm r (List.mem_append_right _ hr))

/-- The first two loops of `sync` in a buffer that was consistent with the store
before the store mapped `p` to `t`: the successor of the valid `p` entry
becomes `t`, nothing else changes. -/
theorem sync_pass12_rule_changed {st : LSystemBuffer} (hw : WF st) (hu : Uniq st)
    (hc : Consistent st) {p : predecessor} {s0 : successor} (t : successor)
    (hin : (p, s0) ∈ st.lsys) :
    sync_pass2 (sync_pass1 (LSystemBuffer.mk (LSystem.add_rule st.lsys p t) st.buffer
      st.instruction st.fresh)) =
    LSystemBuffer.mk (LSystem.add_rule st.lsys p t)
      (st.buffer.map (fun u => if u.valid && u.pred == p then { u with succ := t } else u))
      st.instruction st.fresh := by
  obtain ⟨l1, l2, hl, hadd, hne⟩ := add_rule_split hw.2.2 t hin
  obtain ⟨e0, he0, hv0, hn0, hp0, _⟩ := hc.2 (p, s0) hin
  have hpn : p ≠ null := by
    intro e
    apply hn0
    rw [hp0]
    exact e
  have hmir : ∀ r ∈ st.lsys, Mirrored st.buffer r := (stable_of_consistent hu hc).1
  have hw1 : WF (LSystemBuffer.mk (LSystem.add_rule st.lsys p t) st.buffer
      st.instruction st.fresh) := WF_lsys hw (add_rule_keys hw.2.2 p t)
  have hm : ∀ r ∈ l1 ++ l2, Mirrored st.buffer r := by
    intro r hr
    apply hmir
    rw [hl]
    rcases List.mem_append.1 hr with hr | hr
    · exact List.mem_append_left _ hr
    · exact List.mem_append_right _ (List.mem_cons_of_mem _ hr)
  have h1 := sync_pass1_one_changed hw1 hadd hm hne
  obtain ⟨u0, hf0, _⟩ := hmir (p, s0) hin
  have hu0 := List.mem_of_find?_eq_some hf0
  have hq0 := List.find?_some hf0
  simp only [Bool.and_eq_true, beq_iff_eq] at hq0
  have hmap : st.buffer.map (fun u => if u.node == u0.node then { u with succ := t } else u) =
      st.buffer.map (fun u => if u.valid && u.pred == p then { u with succ := t } else u) := by
    apply List.map_congr_left
    intro u hu1
    by_cases e : u.node = u0.node
    · have := node_inj hw.1 hu1 hu0 e
      subst this
      simp [hq0.1, hq0.2]
    · have hnot : ¬ (u.valid = true ∧ u.pred = p) := by
        rintro ⟨hv, hp⟩
        apply e
        have := hu u hu1 u0 hu0 hv hq0.2 (hp.trans hq0.1.symm) (by rw [hp]; exact hpn)
        rw [this]
      have : (u.valid && u.pred == p) = false := by
        rw [Bool.eq_false_iff]
        simpa using hnot
      simp [e, this]
  have h2 : sync_rule (LSystemBuffer.mk (LSystem.add_rule st.lsys p t) st.buffer
      st.instruction st.fresh) (p, t) =
      LSystemBuffer.mk (LSystem.add_rule st.lsys p t)
        (st.buffer.map (fun u => if u.valid && u.pred == p then { u with succ := t } else u))
        st.instruction st.fresh := by
    unfold sync_rule
    simp only [hf0]
    rw [hmap]
  rw [h1, h2]
  apply sync_pass2_of_not_stale
  intro x hx
  simp only [List.mem_map] at hx
  obtain ⟨u, hu1, rfl⟩ := hx
  have hvp : ∀ w : Entry, (if w.valid && w.pred == p then { w with succ := t } else w).valid = w.valid ∧
      (if w.valid && w.pred == p then { w with succ := t } else w).pred = w.pred := by
    intro w; split <;> exact ⟨rfl, rfl⟩
  unfold stale
  rw [(hvp u).1, (hvp u).2]
  by_cases hv : u.valid = true
  · by_cases hp : u.pred = null
    · simp [hp]
    · have hr := has_rule_of_mem (hc.1 u hu1 hv hp)
      have : LSystem.has_rule (LSystem.add_rule st.lsys p t) u.pred = true := by
        rw [hadd]
        rw [hl] at hr
        simp only [LSystem.has_rule, List.any_append, List.any_cons] at hr ⊢
        exact hr
      simp [this]
  · simp [hv]

/-- After `change_successor` on an authoritative entry and the store's
`add_rule`, the caller's buffer is consistent with the store again. -/
theorem Consistent_assign_succ {st : LSystemBuffer} (hw : WF st) (hu : Uniq st)
    (hc : Consistent st) {cit : Nat} {e : Entry} (hd : deref st cit = some e)
    (hv : e.valid = true) (hq : e.pred ≠ null) (t : successor) :
    Consistent (LSystemBuffer.mk (LSystem.add_rule st.lsys e.pred t)
      (assign st.buffer cit e.valid e.pred t) st.instruction st.fresh) := by
  obtain ⟨he, hen⟩ := deref_some hd
  have hin : (e.pred, e.succ) ∈ st.lsys := hc.1 e he hv hq
  have hmem : ∀ r, r ∈ LSystem.add_rule st.lsys e.pred t ↔
      r = (e.pred, t) ∨ (r ∈ st.lsys ∧ r.1 ≠ e.pred) := by
    intro r
    rw [add_rule_present t (has_rule_of_mem hin)]
    simp only [List.mem_map]
    constructor
    · rintro ⟨r0, hr0, rfl⟩
      by_cases hk : r0.1 = e.pred
      · left; simp [hk]
      · right; simp [hk, hr0]
    · rintro (rfl | ⟨hr, hk⟩)
      · exact ⟨(e.pred, e.succ), hin, by simp⟩
      · exact ⟨r, hr, by simp [hk]⟩
  constructor
  · intro u hu2 hvu hpu
    rw [hmem]
    rcases mem_assign hu2 with ⟨hu3, hn⟩ | rfl
    · right
      refine ⟨hc.1 u hu3 hvu hpu, ?_⟩
      intro hk
      have := hu u hu3 e he hvu hv hk hpu
      subst this
      exact hn hen
    · left; rfl
  · intro r hr
    rcases (hmem r).1 hr with rfl | ⟨hr1, hk⟩
    · exact ⟨⟨cit, e.valid, e.pred, t⟩, mem_assign_self hd _ _ _, hv, hq, rfl, rfl⟩
    · obtain ⟨u, hu2, hvu, hpu, hku, hsu⟩ := hc.2 r hr1
      refine ⟨u, mem_assign_of_ne _ _ _ hu2 ?_, hvu, hpu, hku, hsu⟩
      intro hcit
      have := node_eq_of_deref hw hd hu2 hcit
      subst this
      exact hk hku.symm

theorem Shared.view_update (who : Bool) (sh : Shared) (st : LSystemBuffer) :
    Shared.view who (Shared.update who sh st) = st := by
  cases who <;> rfl

theorem Shared.sync_pass3_quiet (who : Bool) (notify : Shared → SharedOutcome) :
    ∀ (suf pre : List Entry) (sh : Shared) (k : Nat),
      ((Shared.view who sh).buffer.map (fun t => t.node)).Nodup →
      (Shared.view who sh).buffer = pre ++ suf →
      (∀ u ∈ suf, promotable (Shared.view who sh).buffer u = false) → suf.length < k →
      Shared.sync_pass3 who notify k sh (begin_ suf) = SharedOutcome.done sh := by
  intro suf
  induction suf with
  | nil =>
    intro pre sh k _ _ _ hk
    obtain ⟨k, rfl⟩ : ∃ j, k = j + 1 := ⟨k - 1, by simp at hk; omega⟩
    simp [begin_, Shared.sync_pass3]
  | cons t suf ih =>
    intro pre sh k hn hsplit hnp hk
    obtain ⟨k, rfl⟩ : ∃ j, k = j + 1 := ⟨k - 1, by simp at hk; omega⟩
    have hd : deref (Shared.view who sh) t.node = some t := by
      unfold deref
      rw [hsplit]
      exact find_node_split pre suf t (hsplit ▸ hn)
    have hnx : next (Shared.view who sh).buffer t.node = begin_ suf := by
      rw [hsplit]
      exact next_split pre suf t (hsplit ▸ hn)
    have hp : (!t.valid && !duplicate_of (Shared.view who sh).buffer t.node t.pred) = false :=
      hnp t (List.mem_cons_self _ _)
    have hb : begin_ (t :: suf) = some t.node := rfl
    rw [hb, Shared.sync_pass3, hd]
    simp only [hp, Bool.false_eq_true, if_false, hnx]
    apply ih (pre ++ [t]) sh k hn (by simp [hsplit])
      (fun u hu => hnp u (List.mem_cons_of_mem _ hu))
    simp at hk
    omega

/-- A `sync` whose third loop finds nothing to promote calls the store not at
all: only the object's own buffer changes. -/
theorem Shared.sync_with_quiet (who : Bool) (notify : Shared → SharedOutcome) (sh : Shared)
    (k : Nat) (st1 : LSystemBuffer)
    (h1 : sync_pass2 (sync_pass1 (Shared.view who sh)) = st1)
    (hn : (st1.buffer.map (fun t => t.node)).Nodup)
    (hp : ∀ u ∈ st1.buffer, promotable st1.buffer u = false)
    (hk : st1.buffer.length < k) :
    Shared.sync_with who notify k sh = SharedOutcome.done (Shared.update who sh st1) := by
  subst h1
  unfold Shared.sync_with
  apply Shared.sync_pass3_quiet who notify _ [] _ k
  · rw [Shared.view_update]; exact hn
  · rw [Shared.view_update]; simp
  · rw [Shared.view_update]; exact hp
  · exact hk

/-- A notification in which neither buffer finds anything to promote: each
buffer runs the first two loops of its `sync` once, in the order of registration. -/
theorem Shared.notify_quiet (sh : Shared) (st1 st2 : LSystemBuffer) (n : Nat)
    (h1 : sync_pass2 (sync_pass1 (Shared.view false sh)) = st1)
    (hn1 : (st1.buffer.map (fun t => t.node)).Nodup)
    (hp1 : ∀ u ∈ st1.buffer, promotable st1.buffer u = false)
    (h2 : sync_pass2 (sync_pass1 (Shared.view true (Shared.update false sh st1))) = st2)
    (hn2 : (st2.buffer.map (fun t => t.node)).Nodup)
    (hp2 : ∀ u ∈ st2.buffer, promotable st2.buffer u = false)
    (hk1 : st1.buffer.length + 2 ≤ n) (hk2 : st2.buffer.length + 2 ≤ n) :
    Shared.notify n sh =
      SharedOutcome.done (Shared.update true (Shared.update false sh st1) st2) := by
  obtain ⟨m, rfl⟩ : ∃ j, n = j + 1 := ⟨n - 1, by omega⟩
  rw [Shared.notify, Shared.sync_with_quiet false _ sh m st1 h1 hn1 hp1 (by omega)]
  simp only []
  exact Shared.sync_with_quiet true _ _ m st2 h2 hn2 hp2 (by omega)

/-- The caller of `change_successor`: after the assignment and the store's
`add_rule`, its buffer is a fixed point of the first two loops of `sync` and
has nothing to promote. -/
theorem caller_quiet {st : LSystemBuffer} (hw : WF st) (hu : Uniq st) (hc : Consistent st)
    (hs : Shadowed st) {cit : Nat} {e : Entry} (hd : deref st cit = some e)
    (hv : e.valid = true) (hq : e.pred ≠ null) (t : successor) :
    sync_pass2 (sync_pass1 (LSystemBuffer.mk (LSystem.add_rule st.lsys e.pred t)
      (assign st.buffer cit e.valid e.pred t) st.instruction st.fresh)) =
      LSystemBuffer.mk (LSystem.add_rule st.lsys e.pred t)
        (assign st.buffer cit e.valid e.pred t) st.instruction st.fresh ∧
    ((assign st.buffer cit e.valid e.pred t).map (fun u => u.node)).Nodup ∧
    (∀ u ∈ assign st.buffer cit e.valid e.pred t,
      promotable (assign st.buffer cit e.valid e.pred t) u = false) ∧
    (assign st.buffer cit e.valid e.pred t).length = st.buffer.length := by
  have hw1 : WF (LSystemBuffer.mk (LSystem.add_rule st.lsys e.pred t)
      (assign st.buffer cit e.valid e.pred t) st.instruction st.fresh) :=
    WF_lsys (WF_assign hw cit e.valid e.pred t) (add_rule_keys hw.2.2 e.pred t)
  have hu1 : Uniq (LSystemBuffer.mk (LSystem.add_rule st.lsys e.pred t)
      (assign st.buffer cit e.valid e.pred t) st.instruction st.fresh) :=
    Uniq_assign_succ hu hd t
  have hs1 : Shadowed (LSystemBuffer.mk (LSystem.add_rule st.lsys e.pred t)
      (assign st.buffer cit e.valid e.pred t) st.instruction st.fresh) :=
    Shadowed_assign_same hw hs hd t _
  have hc1 := Consistent_assign_succ hw hu hc hd hv hq t
  exact ⟨sync_pass12_id hw1 (stable_of_consistent hu1 hc1), hw1.1,
    not_promotable_of_shadowed hs1, by simp [assign]⟩

/-- The other buffer on the store: the first two loops of its `sync` overwrite
the successor of its valid `p` entry, and it has nothing to promote. -/
theorem sibling_quiet {st : LSystemBuffer} (hw : WF st) (hu : Uniq st) (hc : Consistent st)
    (hs : Shadowed st) {p : predecessor} {s0 : successor} (t : successor)
    (hin : (p, s0) ∈ st.lsys) :
    sync_pass2 (sync_pass1 (LSystemBuffer.mk (LSystem.add_rule st.lsys p t) st.buffer
      st.instruction st.fresh)) =
      LSystemBuffer.mk (LSystem.add_rule st.lsys p t)
        (st.buffer.map (fun u => if u.valid && u.pred == p then { u with succ := t } else u))
        st.instruction st.fresh ∧
    ((st.buffer.map (fun u => if u.valid && u.pred == p then { u with succ := t } else u)).map
      (fun u => u.node)).Nodup ∧
    (∀ u ∈ st.buffer.map (fun u => if u.valid && u.pred == p then { u with succ := t } else u),
      promotable
        (st.buffer.map (fun u => if u.valid && u.pred == p then { u with succ := t } else u))
        u = false) := by
  have hf : ∀ w : Entry,
      (if w.valid && w.pred == p then { w with succ := t } else w).node = w.node ∧
      (if w.valid && w.pred == p then { w with succ := t } else w).pred = w.pred := by
    intro w; split <;> exact ⟨rfl, rfl⟩
  have hfv : ∀ w : Entry,
      (if w.valid && w.pred == p then { w with succ := t } else w).valid = w.valid := by
    intro w; split <;> rfl
  refine ⟨sync_pass12_rule_changed hw hu hc t hin, ?_, ?_⟩
  · rw [map_succ_nodes _ _ (fun w => (hf w).1)]
    exact hw.1
  · intro x hx
    simp only [List.mem_map] at hx
    obtain ⟨u, hu1, rfl⟩ := hx
    rw [promotable_map _ _ hf]
    have := not_promotable_of_shadowed hs u hu1
    unfold promotable at this ⊢
    rw [hfv u, (hf u).1, (hf u).2]
    exact this

/-- The run of `change_successor` on an authoritative entry of one of two
consistent buffers, in closed form: what each of the two objects sees on return. -/
theorem Shared.change_successor_eq (who : Bool) (sh : Shared) (cit : Nat) (e : Entry)
    (t : successor)
    (hw1 : WF (Shared.view who sh)) (hu1 : Uniq (Shared.view who sh))
    (hc1 : Consistent (Shared.view who sh)) (hs1 : Shadowed (Shared.view who sh))
    (hw2 : WF (Shared.view (!who) sh)) (hu2 : Uniq (Shared.view (!who) sh))
    (hc2 : Consistent (Shared.view (!who) sh)) (hs2 : Shadowed (Shared.view (!who) sh))
    (hd : deref (Shared.view who sh) cit = some e) (hv : e.valid = true) (hq : e.pred ≠ null)
    (n : Nat)
    (hn : (Shared.view who sh).buffer.length + (Shared.view (!who) sh).buffer.length + 2 ≤ n) :
    ∃ sh1, Shared.change_successor who n sh cit t = SharedOutcome.done sh1 ∧
      Shared.view who sh1 = LSystemBuffer.mk (LSystem.add_rule sh.lsys e.pred t)
        (assign (Shared.view who sh).buffer cit e.valid e.pred t)
        (Shared.view who sh).instruction (Shared.view who sh).fresh ∧
      Shared.view (!who) sh1 = LSystemBuffer.mk (LSystem.add_rule sh.lsys e.pred t)
        ((Shared.view (!who) sh).buffer.map
          (fun u => if u.valid && u.pred == e.pred then { u with succ := t } else u))
        (Shared.view (!who) sh).instruction (Shared.view (!who) sh).fresh := by
  have hin : (e.pred, e.succ) ∈ sh.lsys := by
    have := hc1.1 e (deref_some hd).1 hv hq
    cases who <;> exact this
  obtain ⟨l, ⟨b1, i1, f1⟩, ⟨b2, i2, f2⟩⟩ := sh
  cases who
  · have hA := caller_quiet (show WF (LSystemBuffer.mk l b1 i1 f1) from hw1) hu1 hc1 hs1 hd hv hq t
    rw [hv] at hA
    have hB := sibling_quiet (show WF (LSystemBuffer.mk l b2 i2 f2) from hw2) hu2 hc2 hs2 t hin
    have hl2 : (List.map (fun u => if u.valid && u.pred == e.pred then { u with succ := t } else u)
        b2).length = b2.length := by simp
    have hn2 : b1.length + b2.length + 2 ≤ n := hn
    unfold Shared.change_successor
    rw [hd]
    simp only [hv, if_true]
    refine ⟨_, Shared.notify_quiet _
      (LSystemBuffer.mk (LSystem.add_rule l e.pred t) (assign b1 cit true e.pred t) i1 f1)
      (LSystemBuffer.mk (LSystem.add_rule l e.pred t)
        (b2.map (fun u : Entry => if u.valid && u.pred == e.pred then { u with succ := t } else u))
        i2 f2) n hA.1 hA.2.1 hA.2.2.1 hB.1 hB.2.1 hB.2.2 ?_ ?_, ?_, ?_⟩
    · have := hA.2.2.2
      simp only at this ⊢
      omega
    · simp only at hl2 ⊢
      omega
    · rfl
    · rfl
  · have hA := caller_quiet (show WF (LSystemBuffer.mk l b2 i2 f2) from hw1) hu1 hc1 hs1 hd hv hq t
    rw [hv] at hA
    have hB := sibling_quiet (show WF (LSystemBuffer.mk l b1 i1 f1) from hw2) hu2 hc2 hs2 t hin
    have hl2 : (List.map (fun u => if u.valid && u.pred == e.pred then { u with succ := t } else u)
        b1).length = b1.length := by simp
    have hn2 : b2.length + b1.length + 2 ≤ n := hn
    unfold Shared.change_successor
    rw [hd]
    simp only [hv, if_true]
    refine ⟨_, Shared.notify_quiet _
      (LSystemBuffer.mk (LSystem.add_rule l e.pred t)
        (b1.map (fun u : Entry => if u.valid && u.pred == e.pred then { u with succ := t } else u))
        i1 f1)
      (LSystemBuffer.mk (LSystem.add_rule l e.pred t) (assign b2 cit true e.pred t) i2 f2)
      n hB.1 hB.2.1 hB.2.2 hA.1 hA.2.1 hA.2.2.1 ?_ ?_, ?_, ?_⟩
    · simp only at hl2 ⊢
      omega
    · have := hA.2.2.2
      simp only at this ⊢
      omega
    · rfl
    · rfl

/-- C13: sibling convergence (Scenario E). Two buffers observe one store, each
consistent with it (representation invariant, uniqueness, consistency, every
invalid entry shadowed). When one of them, first or second subscriber, calls
`change_successor(cit, t)` on its valid entry `e` with a non-null predecessor
`p`, the call returns, and on return the other buffer is its previous contents
with `t` as the successor of its one valid `p` entry: same length, same nodes in
the same order, same validity and predecessor of every entry, its pending
instruction untouched; the caller's entry is `(valid, p, t)` and the store is the
old store with `p` mapped to `t`. -/
theorem sibling_convergence (who : Bool) (sh : Shared) (cit : Nat) (e : Entry) (t : successor)
    (hw1 : WF (Shared.view who sh)) (hu1 : Uniq (Shared.view who sh))
    (hc1 : Consistent (Shared.view who sh)) (hs1 : Shadowed (Shared.view who sh))
    (hw2 : WF (Shared.view (!who) sh)) (hu2 : Uniq (Shared.view (!who) sh))
    (hc2 : Consistent (Shared.view (!who) sh)) (hs2 : Shadowed (Shared.view (!who) sh))
    (hd : deref (Shared.view who sh) cit = some e) (hv : e.valid = true) (hq : e.pred ≠ null) :
    ∃ n0, ∀ n, n0 ≤ n → ∃ sh1,
      Shared.change_successor who n sh cit t = SharedOutcome.done sh1 ∧
      (∃ u ∈ (Shared.view (!who) sh).buffer, u.valid = true ∧ u.pred = e.pred ∧
        (∀ w ∈ (Shared.view (!who) sh).buffer, w.valid = true → w.pred = e.pred → w = u) ∧
        (Shared.view (!who) sh1).buffer = (Shared.view (!who) sh).buffer.map
          (fun w => if w.node = u.node then { w with succ := t } else w)) ∧
      (Shared.view (!who) sh1).buffer = (Shared.view (!who) sh).buffer.map
        (fun w => if w.valid && w.pred == e.pred then { w with succ := t } else w) ∧
      (Shared.view (!who) sh1).buffer.length = (Shared.view (!who) sh).buffer.length ∧
      (Shared.view (!who) sh1).buffer.map (fun w => (w.node, w.valid, w.pred)) =
        (Shared.view (!who) sh).buffer.map (fun w => (w.node, w.valid, w.pred)) ∧
      (Shared.view (!who) sh1).instruction = (Shared.view (!who) sh).instruction ∧
      (Shared.view (!who) sh1).fresh = (Shared.view (!who) sh).fresh ∧
      (Shared.view who sh1).buffer = (Shared.view who sh).buffer.map
        (fun w => if w.node = cit then ⟨cit, true, e.pred, t⟩ else w) ∧
      sh1.lsys = sh.lsys.map (fun r => if r.1 = e.pred then (e.pred, t) else r) := by
  refine ⟨(Shared.view who sh).buffer.length + (Shared.view (!who) sh).buffer.length + 2, ?_⟩
  intro n hn
  obtain ⟨sh1, h1, h2, h3⟩ :=
    Shared.change_successor_eq who sh cit e t hw1 hu1 hc1 hs1 hw2 hu2 hc2 hs2 hd hv hq n hn
  have hl : ∀ x : Shared, (Shared.view who x).lsys = x.lsys := by
    intro x; cases who <;> rfl
  have hin : (e.pred, e.succ) ∈ sh.lsys := by
    rw [← hl sh]
    exact hc1.1 e (deref_some hd).1 hv hq
  have hin2 : (e.pred, e.succ) ∈ (Shared.view (!who) sh).lsys := by
    cases who <;> exact hin
  obtain ⟨u, hu, huv, _, hup0, _⟩ := hc2.2 (e.pred, e.succ) hin2
  have hup : u.pred = e.pred := hup0
  have hone : ∀ w ∈ (Shared.view (!who) sh).buffer, w.valid = true → w.pred = e.pred → w = u :=
    fun w hw hwv hwp => hu2 w hw u hu hwv huv (hwp.trans hup.symm) (by rw [hwp]; exact hq)
  have hf : ∀ w : Entry,
      (if w.valid && w.pred == e.pred then { w with succ := t } else w).node = w.node ∧
      (if w.valid && w.pred == e.pred then { w with succ := t } else w).valid = w.valid ∧
      (if w.valid && w.pred == e.pred then { w with succ := t } else w).pred = w.pred := by
    intro w; split <;> exact ⟨rfl, rfl, rfl⟩
  refine ⟨sh1, h1, ⟨u, hu, huv, hup, hone, ?_⟩, ?_, ?_, ?_, ?_, ?_, ?_, ?_⟩
  · rw [h3]
    apply List.map_congr_left
    intro w hw
    by_cases hc : w.valid = true ∧ w.pred = e.pred
    · have := hone w hw hc.1 hc.2
      subst this
      simp [hc.1, hc.2]
    · have hne : w.node ≠ u.node := by
        intro e1
        have := node_inj hw2.1 hw hu e1
        subst this
        exact hc ⟨huv, hup⟩
      have hb : (w.valid && w.pred == e.pred) = false := by
        rw [Bool.eq_false_iff]
        simpa using hc
      simp [hne, hb]
  · rw [h3]
  · rw [h3]; simp
  · rw [h3]
    simp only [List.map_map]
    apply List.map_congr_left
    intro w _
    simp only [Function.comp, (hf w).1, (hf w).2.1, (hf w).2.2]
  · rw [h3]
  · rw [h3]
  · rw [h2, assign_eq_map, hv]
  · rw [← hl sh1, h2]
    exact add_rule_present t (has_rule_of_mem hin)

theorem sibling_convergence_witness :
    WF (Shared.view false siblings_state) ∧ Uniq (Shared.view false siblings_state) ∧
    Consistent (Shared.view false siblings_state) ∧
    Shadowed (Shared.view false siblings_state) ∧
    WF (Shared.view true siblings_state) ∧ Uniq (Shared.view true siblings_state) ∧
    Consistent (Shared.view true siblings_state) ∧
    Shadowed (Shared.view true siblings_state) ∧
    deref (Shared.view false siblings_state) 0 = some ⟨0, true, 'F', "FF"⟩ ∧
    Shared.change_successor false 6 siblings_state 0 "F-F" = SharedOutcome.done
      ⟨[('F', "F-F"), ('G', "GG")],
        ⟨[⟨0, true, 'F', "F-F"⟩, ⟨1, true, 'G', "GG"⟩], none, 2⟩,
        ⟨[⟨0, true, 'G', "GG"⟩, ⟨1, true, 'F', "F-F"⟩, ⟨2, false, 'F', "F+F"⟩,
          ⟨3, true, null, ""⟩], none, 4⟩⟩ ∧
    ∃ n0, ∀ n, n0 ≤ n → ∃ sh1,
      Shared.change_successor false n siblings_state 0 "F-F" = SharedOutcome.done sh1 ∧
      (∃ u ∈ (Shared.view true siblings_state).buffer, u.valid = true ∧ u.pred = 'F' ∧
        (∀ w ∈ (Shared.view true siblings_state).buffer,
          w.valid = true → w.pred = 'F' → w = u) ∧
        (Shared.view true sh1).buffer = (Shared.view true siblings_state).buffer.map
          (fun w => if w.node = u.node then { w with succ := "F-F" } else w)) ∧
      (Shared.view true sh1).buffer = (Shared.view true siblings_state).buffer.map
        (fun w => if w.valid && w.pred == 'F' then { w with succ := "F-F" } else w) ∧
      (Shared.view true sh1).buffer.length = (Shared.view true siblings_state).buffer.length ∧
      (Shared.view true sh1).buffer.map (fun w => (w.node, w.valid, w.pred)) =
        (Shared.view true siblings_state).buffer.map (fun w => (w.node, w.valid, w.pred)) ∧
      (Shared.view true sh1).instruction = (Shared.view true siblings_state).instruction ∧
      (Shared.view true sh1).fresh = (Shared.view true siblings_state).fresh ∧
      (Shared.view false sh1).buffer = (Shared.view false siblings_state).buffer.map
        (fun w => if w.node = 0 then ⟨0, true, 'F', "F-F"⟩ else w) ∧
      sh1.lsys = siblings_state.lsys.map (fun r => if r.1 = 'F' then ('F', "F-F") else r) :=
  ⟨by decide, by decide, by decide, by decide, by decide, by decide, by decide, by decide,
    by decide, by decide,
    sibling_convergence false siblings_state 0 ⟨0, true, 'F', "FF"⟩ "F-F" (by decide)
      (by decide) (by decide) (by decide) (by decide) (by decide) (by decide) (by decide)
      (by decide) rfl (by decide)⟩

/-! ### Editing a latent entry -/

theorem assign_split {pre suf : List Entry} {e : Entry}
    (h : ((pre ++ e :: suf).map (fun t => t.node)).Nodup) (v : Bool) (p : predecessor)
    (s : successor) :
    assign (pre ++ e :: suf) e.node v p s = pre ++ ⟨e.node, v, p, s⟩ :: suf := by
  have hne := node_ne_of_split h
  have h1 : assign pre e.node v p s = pre := by
    unfold assign
    conv => rhs; rw [← List.map_id pre]
    apply List.map_congr_left
    intro a ha
    simp [hne.1 a ha]
  have h2 : assign suf e.node v p s = suf := by
    unfold assign
    conv => rhs; rw [← List.map_id suf]
    apply List.map_congr_left
    intro a ha
    simp [hne.2 a ha]
  unfold assign at h1 h2 ⊢
  simp only [List.map_append, List.map_cons, h1, h2, beq_self_eq_true, if_true]

/-- C21: editing a latent entry never reaches the store. For every state, every
live invalid entry `e` at `cit` and every expansion `t`, `change_successor(cit, t)`
returns at once, whatever the fuel: `e` is `(invalid, same predecessor, t)` at
its node, every other entry is untouched (the entries before and after it, in
their order), and the store, with the rule of the shadowing valid entry, the
pending instruction and the node counter are unchanged. -/
theorem change_successor_latent (n : Nat) (st : LSystemBuffer) (cit : Nat) (e : Entry)
    (t : successor) (hd : deref st cit = some e) (hv : e.valid = false) :
    change_successor n st cit t = Outcome.done (LSystemBuffer.mk st.lsys
      (st.buffer.map (fun u => if u.node = cit then ⟨cit, false, e.pred, t⟩ else u))
      st.instruction st.fresh) ∧
    (∀ pre suf, st.buffer = pre ++ e :: suf → (st.buffer.map (fun u => u.node)).Nodup →
      st.buffer.map (fun u => if u.node = cit then ⟨cit, false, e.pred, t⟩ else u) =
        pre ++ ⟨cit, false, e.pred, t⟩ :: suf) ∧
    ((st.buffer.map (fun u => u.node)).Nodup → ∀ u ∈ st.buffer, u ≠ e →
      u ∈ st.buffer.map (fun u => if u.node = cit then ⟨cit, false, e.pred, t⟩ else u)) := by
  obtain ⟨he, hen⟩ := deref_some hd
  refine ⟨?_, ?_, ?_⟩
  · unfold change_successor
    simp only [hd, hv, Bool.false_eq_true, if_false]
    rw [assign_eq_map]
  · intro pre suf hsplit hn
    rw [← assign_eq_map]
    rw [hsplit] at hn ⊢
    rw [← hen]
    exact assign_split hn false e.pred t
  · intro hn u hu hue
    rw [← assign_eq_map]
    apply mem_assign_of_ne _ _ _ hu
    intro hc
    exact hue (node_inj hn hu he (hc.trans hen.symm))

theorem change_successor_latent_witness :
    deref latent_first_state 0 = some ⟨0, false, 'G', "x"⟩ ∧
    change_successor 0 latent_first_state 0 "GFG" = Outcome.done
      ⟨[('F', "FF"), ('G', "GG")],
        [⟨0, false, 'G', "GFG"⟩, ⟨1, true, 'G', "GG"⟩, ⟨2, true, 'F', "FF"⟩,
          ⟨3, true, null, ""⟩], none, 4⟩ :=
  ⟨by decide,
    (change_successor_latent 0 latent_first_state 0 ⟨0, false, 'G', "x"⟩ "GFG" (by decide)
      rfl).1⟩

/-! ### Renaming away from a shadowed predecessor -/

/-- The `sync` run by `add_rule(p, s)` when a valid entry is renamed, whether
other entries share its old predecessor `q` or not: the rule `q` has lost its
valid entry, so it is mirrored by a new entry at the end, which shadows the
latent `q` entries. -/
theorem rename_shadowed_sync {st : LSystemBuffer} (hw : WF st) (hu : Uniq st)
    (hc : Consistent st) (hs : Shadowed st) {cit : Nat} {e : Entry}
    (hd : deref st cit = some e) (hv : e.valid = true) (hq : e.pred ≠ null)
    {p : predecessor} (hp : p ≠ null) (hf : ∀ u ∈ st.buffer, u.pred ≠ p) :
    sync_result (LSystemBuffer.mk (st.lsys ++ [(p, e.succ)])
        (assign st.buffer cit true p e.succ) st.instruction st.fresh) =
      LSystemBuffer.mk (st.lsys ++ [(p, e.succ)])
        (assign st.buffer cit true p e.succ ++ [⟨st.fresh, true, e.pred, e.succ⟩])
        st.instruction (st.fresh + 1) := by
  obtain ⟨he, hen⟩ := deref_some hd
  have hpq : p ≠ e.pred := fun h => hf e he h.symm
  have hno := no_rule_of_fresh hc hf
  have hw1 : WF (LSystemBuffer.mk (st.lsys ++ [(p, e.succ)])
      (assign st.buffer cit true p e.succ) st.instruction st.fresh) := by
    have := WF_lsys (WF_assign hw cit true p e.succ) (add_rule_keys hw.2.2 p e.succ)
    rw [add_rule_fresh e.succ hno] at this
    exact this
  have hqs : (e.pred, e.succ) ∈ st.lsys := hc.1 e he hv hq
  obtain ⟨l1, l2, hl⟩ := List.append_of_mem hqs
  have hmir := mirrored_after_rename hw hu hc hd hp hf e.succ
  have hkey : ∀ r ∈ l1 ++ l2, r.1 ≠ e.pred := by
    intro r hr hk
    have hr2 : r ∈ st.lsys := by
      rw [hl]
      rcases List.mem_append.1 hr with h | h
      · exact List.mem_append_left _ h
      · exact List.mem_append_right _ (List.mem_cons_of_mem _ h)
    have := rule_eq_of_key hw.2.2 hr2 hqs hk
    subst this
    have hnd := hw.2.2
    rw [hl] at hnd
    simp only [List.map_append, List.map_cons] at hnd
    rw [List.nodup_append] at hnd
    obtain ⟨_, h2, h3⟩ := hnd
    rw [List.nodup_cons] at h2
    rcases List.mem_append.1 hr with h | h
    · exact h3 (List.mem_map_of_mem _ h) (List.mem_cons_self _ _)
    · exact h2.1 (List.mem_map_of_mem _ h)
  have hpass1 : sync_pass1 (LSystemBuffer.mk (st.lsys ++ [(p, e.succ)])
      (assign st.buffer cit true p e.succ) st.instruction st.fresh) =
      LSystemBuffer.mk (st.lsys ++ [(p, e.succ)])
        (assign st.buffer cit true p e.succ ++ [⟨st.fresh, true, e.pred, e.succ⟩])
        st.instruction (st.fresh + 1) := by
    have hl1 : (LSystemBuffer.mk (st.lsys ++ [(p, e.succ)])
        (assign st.buffer cit true p e.succ) st.instruction st.fresh).lsys =
        l1 ++ (e.pred, e.succ) :: (l2 ++ [(p, e.succ)]) := by
      simp [hl]
    rw [sync_pass1_one_missing hw1 hl1]
    · rfl
    · intro r hr
      rw [← List.append_assoc] at hr
      rcases List.mem_append.1 hr with h | h
      · apply hmir.1 r _ (hkey r h)
        rw [hl]
        rcases List.mem_append.1 h with h | h
        · exact List.mem_append_left _ h
        · exact List.mem_append_right _ (List.mem_cons_of_mem _ h)
      · simp only [List.mem_singleton] at h
        subst h
        exact hmir.2
    · intro u hu2 hc2
      rcases mem_assign hu2 with ⟨hu3, hun⟩ | rfl
      · have hue := hu u hu3 e he hc2.2 hv hc2.1 (by rw [hc2.1]; exact hq)
        exact hun (by rw [hue]; exact hen)
      · exact hpq hc2.1
  have hstale : ∀ t ∈ assign st.buffer cit true p e.succ ++ [⟨st.fresh, true, e.pred, e.succ⟩],
      stale (st.lsys ++ [(p, e.succ)]) t = false := by
    intro t ht
    by_cases hvt : t.valid = true
    · by_cases hnt : t.pred = null
      · simp [stale, hnt]
      · have : LSystem.has_rule (st.lsys ++ [(p, e.succ)]) t.pred = true := by
          rw [has_rule_append]
          rcases List.mem_append.1 ht with h | h
          · rcases mem_assign h with ⟨h2, _⟩ | rfl
            · have := has_rule_of_mem (hc.1 t h2 hvt hnt)
              simp only at this
              simp [this]
            · simp [LSystem.has_rule]
          · simp only [List.mem_singleton] at h
            subst h
            have := has_rule_of_mem hqs
            simp only at this
            simp [this]
        simp [stale, this]
    · simp [stale, hvt]
  have hsh : Shadowed (LSystemBuffer.mk (st.lsys ++ [(p, e.succ)])
      (assign st.buffer cit true p e.succ ++ [⟨st.fresh, true, e.pred, e.succ⟩])
      st.instruction (st.fresh + 1)) := by
    intro t ht hvt
    rw [duplicate_of_iff]
    simp only [List.mem_append, List.mem_singleton] at ht
    rcases ht with ht | rfl
    · rcases mem_assign ht with ⟨ht2, _⟩ | rfl
      · obtain ⟨u, hu2, hun, hup⟩ := (duplicate_of_iff _ _ _).1 (hs t ht2 hvt)
        by_cases hcu : u.node = cit
        · have hue := node_eq_of_deref hw hd hu2 hcu
          refine ⟨⟨st.fresh, true, e.pred, e.succ⟩, by simp, ?_, by rw [← hue]; exact hup⟩
          have := hw.2.1 t ht2
          simp only [ne_eq]
          omega
        · exact ⟨u, List.mem_append_left _ (mem_assign_of_ne _ _ _ hu2 hcu), hun, hup⟩
      · simp at hvt
    · simp at hvt
  unfold sync_result
  rw [hpass1, sync_pass2_of_not_stale hstale]
  exact promote_all_eq_self (not_promotable_of_shadowed hsh)


/-- C25: renaming away from a shadowed predecessor keeps the old rule and grows
the buffer. In every consistent state, for every valid entry `e` at `cit` with a
non-null predecessor `q` and successor `s` that is shadowed by an invalid `q`
entry, and every non-null `p` that no entry has, `change_predecessor(cit, p)`
returns with `e` equal to `(valid, p, s)` at its place, every other old entry
unchanged (the invalid `q` entries are still invalid), exactly one new entry
`(valid, q, s)` appended at the end, and the store equal to the old store, which
maps `q` to `s`, plus the rule `p -> s`. -/
theorem change_predecessor_shadowed (st : LSystemBuffer) (cit : Nat) (e : Entry)
    (p : predecessor) (hw : WF st) (hu : Uniq st) (hc : Consistent st) (hs : Shadowed st)
    (hd : deref st cit = some e) (hv : e.valid = true) (hq : e.pred ≠ null)
    (hsh : ∃ u ∈ st.buffer, u.valid = false ∧ u.pred = e.pred)
    (hp : p ≠ null) (hf : ∀ u ∈ st.buffer, u.pred ≠ p) :
    ∃ n0, ∀ n, n0 ≤ n → ∃ st1, change_predecessor n st cit p = Outcome.done st1 ∧
      st1 = LSystemBuffer.mk (st.lsys ++ [(p, e.succ)])
        (st.buffer.map (fun t => if t.node = cit then ⟨cit, true, p, e.succ⟩ else t) ++
          [⟨st.fresh, true, e.pred, e.succ⟩]) st.instruction (st.fresh + 1) ∧
      st1.buffer.length = st.buffer.length + 1 ∧
      LSystem.get_rule st.lsys e.pred = some e.succ ∧
      LSystem.get_rule st1.lsys e.pred = some e.succ ∧
      LSystem.get_rule st1.lsys p = some e.succ ∧
      (∀ r, r ∈ st1.lsys ↔ r ∈ st.lsys ∨ r = (p, e.succ)) ∧
      (∀ u ∈ st.buffer, u.valid = false → u ∈ st1.buffer) ∧
      (∀ u ∈ st1.buffer, u.valid = false → u ∈ st.buffer) := by
  obtain ⟨he, hen⟩ := deref_some hd
  have hno := no_rule_of_fresh hc hf
  have hw1 : WF (LSystemBuffer.mk (st.lsys ++ [(p, e.succ)])
      (assign st.buffer cit true p e.succ) st.instruction st.fresh) := by
    have := WF_lsys (WF_assign hw cit true p e.succ) (add_rule_keys hw.2.2 p e.succ)
    rw [add_rule_fresh e.succ hno] at this
    exact this
  have hdup : has_duplicate st cit = true := by
    obtain ⟨u, hu2, huv, hup⟩ := hsh
    unfold has_duplicate
    rw [hd]
    simp only [List.any_eq_true, Bool.and_eq_true, bne_iff_ne, beq_iff_eq]
    refine ⟨u, hu2, ?_, hup⟩
    intro hcu
    have hue := node_eq_of_deref hw hd hu2 hcu
    rw [hue, hv] at huv
    exact Bool.noConfusion huv
  have hp2 : ¬ (p == null) = true := by simpa using hp
  have hqs : (e.pred, e.succ) ∈ st.lsys := hc.1 e he hv hq
  have hpq : p ≠ e.pred := fun h => hf e he h.symm
  refine ⟨sync_fuel (LSystemBuffer.mk (st.lsys ++ [(p, e.succ)])
      (assign st.buffer cit true p e.succ) st.instruction st.fresh), ?_⟩
  intro n hn
  have h1 := sync_eq n _ hw1 hn
  rw [rename_shadowed_sync hw hu hc hs hd hv hq hp hf] at h1
  have hw2 := WF_push_back hw1 true e.pred e.succ
  refine ⟨LSystemBuffer.mk (st.lsys ++ [(p, e.succ)])
        (assign st.buffer cit true p e.succ ++ [⟨st.fresh, true, e.pred, e.succ⟩])
        st.instruction (st.fresh + 1), ?_, ?_, ?_, ?_, ?_, ?_, ?_, ?_, ?_⟩
  · unfold change_predecessor
    simp only [hd]
    rw [if_neg hp2]
    simp only [find_existing_fresh hf, Bool.not_false, if_true, target_add_rule,
      add_rule_fresh e.succ hno, h1, hdup]
    simp
  · rw [assign_eq_map]
  · simp [assign]
  · exact (get_rule_eq_some_iff hw.2.2).2 hqs
  · exact (get_rule_eq_some_iff hw2.2.2).2 (List.mem_append_left _ hqs)
  · exact (get_rule_eq_some_iff hw2.2.2).2 (List.mem_append_right _ (List.mem_singleton_self _))
  · intro r
    simp only [List.mem_append, List.mem_singleton]
  · intro u hu2 huv
    apply List.mem_append_left
    apply mem_assign_of_ne _ _ _ hu2
    intro hcu
    have hue := node_eq_of_deref hw hd hu2 hcu
    rw [hue, hv] at huv
    exact Bool.noConfusion huv
  · intro u hu2 huv
    simp only [List.mem_append, List.mem_singleton] at hu2
    rcases hu2 with hu2 | rfl
    · rcases mem_assign hu2 with ⟨hu3, _⟩ | rfl
      · exact hu3
      · simp at huv
    · simp at huv

theorem change_predecessor_shadowed_witness :
    deref shadowed_state 0 = some ⟨0, true, 'F', "FF"⟩ ∧
    ∃ n0, ∀ n, n0 ≤ n → ∃ st1, change_predecessor n shadowed_state 0 'G' = Outcome.done st1 ∧
      st1 = LSystemBuffer.mk ([('F', "FF")] ++ [('G', "FF")])
        (shadowed_state.buffer.map
            (fun t => if t.node = 0 then ⟨0, true, 'G', "FF"⟩ else t) ++
          [⟨2, true, 'F', "FF"⟩]) none 3 ∧
      st1.buffer.length = shadowed_state.buffer.length + 1 ∧
      LSystem.get_rule shadowed_state.lsys 'F' = some "FF" ∧
      LSystem.get_rule st1.lsys 'F' = some "FF" ∧
      LSystem.get_rule st1.lsys 'G' = some "FF" ∧
      (∀ r, r ∈ st1.lsys ↔ r ∈ shadowed_state.lsys ∨ r = ('G', "FF")) ∧
      (∀ u ∈ shadowed_state.buffer, u.valid = false → u ∈ st1.buffer) ∧
      (∀ u ∈ st1.buffer, u.valid = false → u ∈ shadowed_state.buffer) :=
  ⟨by decide,
    change_predecessor_shadowed shadowed_state 0 ⟨0, true, 'F', "FF"⟩ 'G' (by decide)
      (by decide) (by decide) (by decide) (by decide) rfl (by decide)
      ⟨⟨1, false, 'F', ""⟩, by decide, rfl, rfl⟩ (by decide) (by decide)⟩

/-! ### Erasing an authority with several shadows -/

theorem LatentReal_sync_result {st : LSystemBuffer} (h : LatentReal st) :
    LatentReal (sync_result st) := by
  intro t ht hv
  simp only [sync_result, promote_all, List.mem_map] at ht
  obtain ⟨u, hu, rfl⟩ := ht
  have hu1 : u ∈ (sync_pass1 st).buffer := List.mem_of_mem_filter hu
  split at hv
  · simp at hv
  · rename_i hnp
    rw [if_neg hnp]
    exact sync_pass1_invalid h u hu1 hv

theorem LatentReal_sync {n : Nat} {st st2 : LSystemBuffer} (hw : WF st) (h : LatentReal st)
    (hs : sync n st = Outcome.done st2) : LatentReal st2 := by
  rw [sync_det hw hs]
  exact LatentReal_sync_result h

theorem LatentReal_assign {st : LSystemBuffer} (h : LatentReal st) (cit : Nat) (v : Bool)
    (p : predecessor) (s : successor) (hvp : v = false → p ≠ null) :
    LatentReal { st with buffer := assign st.buffer cit v p s } := by
  intro t ht hv
  rcases mem_assign ht with ⟨ht2, _⟩ | rfl
  · exact h t ht2 hv
  · exact hvp hv

theorem LatentReal_remove_predecessor {n cit : Nat} {st st2 : LSystemBuffer} (hw : WF st)
    (h : LatentReal st) (hr : remove_predecessor n st cit = Outcome.done st2) :
    LatentReal st2 := by
  unfold remove_predecessor at hr
  cases hd : deref st cit with
  | none => simp [hd] at hr
  | some t =>
    simp only [hd] at hr
    have h1 := LatentReal_assign h cit true null t.succ (fun e => Bool.noConfusion e)
    split at hr
    · exact LatentReal_sync
        (WF_lsys (WF_assign hw cit true null t.succ) (remove_rule_keys hw.2.2 t.pred)) h1 hr
    · have := Outcome.done.inj hr
      subst this
      exact h1

theorem LatentReal_erase {n cit : Nat} {st st2 : LSystemBuffer} (hw : WF st)
    (h : LatentReal st) (hr : erase n st cit = Outcome.done st2) : LatentReal st2 := by
  unfold erase at hr
  cases hd : deref st cit with
  | none => simp [hd] at hr
  | some t =>
    simp only [hd] at hr
    split at hr
    · exact LatentReal_sync (WF_lsys hw (remove_rule_keys hw.2.2 t.pred)) h hr
    · have := Outcome.done.inj hr
      subst this
      intro u hu hv
      exact h u (List.mem_of_mem_filter hu) hv

theorem LatentReal_change_successor {n cit : Nat} {s : successor} {st st2 : LSystemBuffer}
    (hw : WF st) (h : LatentReal st) (hr : change_successor n st cit s = Outcome.done st2) :
    LatentReal st2 := by
  unfold change_successor at hr
  cases hd : deref st cit with
  | none => simp [hd] at hr
  | some t =>
    simp only [hd] at hr
    have h1 := LatentReal_assign h cit t.valid t.pred s (h t (deref_some hd).1)
    split at hr
    · exact LatentReal_sync
        (WF_lsys (WF_assign hw cit t.valid t.pred s) (add_rule_keys hw.2.2 t.pred s)) h1 hr
    · have := Outcome.done.inj hr
      subst this
      exact h1

theorem LatentReal_change_predecessor {n cit : Nat} {p : predecessor}
    {st st2 : LSystemBuffer} (hw : WF st) (hu : Uniq st) (h : LatentReal st)
    (hr : change_predecessor n st cit p = Outcome.done st2) : LatentReal st2 := by
  unfold change_predecessor at hr
  cases hd : deref st cit with
  | none => simp [hd] at hr
  | some t =>
    simp only [hd] at hr
    split at hr
    · exact LatentReal_remove_predecessor hw h hr
    · rename_i hp
      have hp2 : p ≠ null := by simpa using hp
      have hw1 := WF_assign hw cit (!(find_existing st p).isSome) p t.succ
      have hu1 := Uniq_assign_new hu cit p t.succ
      have h1 := LatentReal_assign h cit (!(find_existing st p).isSome) p t.succ
        (fun _ => hp2)
      have mid : ∀ st3, (if (!(find_existing st p).isSome) = true then
            target_add_rule (sync n)
              { st with buffer := assign st.buffer cit (!(find_existing st p).isSome) p t.succ }
              p t.succ
          else Outcome.done
              { st with buffer := assign st.buffer cit (!(find_existing st p).isSome) p t.succ })
          = Outcome.done st3 → WF st3 ∧ LatentReal st3 := by
        intro st3 h3
        split at h3
        · exact ⟨(target_add_rule_inv hw1 hu1 h3).1,
            LatentReal_sync (WF_lsys hw1 (add_rule_keys hw.2.2 p t.succ)) h1 h3⟩
        · have := Outcome.done.inj h3
          subst this
          exact ⟨hw1, h1⟩
      split at hr
      · rename_i st3 h3
        have := mid st3 h3
        split at hr
        · exact LatentReal_sync (WF_lsys this.1 (remove_rule_keys this.1.2.2 t.pred)) this.2 hr
        · have e := Outcome.done.inj hr
          subst e
          exact this.2
      · rename_i hne
        exact (hne st2 hr).elim

theorem LatentReal_construct (rules : production_rules) : LatentReal (construct rules) := by
  intro t ht hv
  have h1 := (construct_fold rules
    { lsys := rules, buffer := [], instruction := none, fresh := 0 }).1
  have h2 : (t.valid, t.pred, t.succ) ∈ (construct rules).buffer.map
      (fun t => (t.valid, t.pred, t.succ)) := List.mem_map_of_mem _ ht
  unfold construct at h2
  rw [h1] at h2
  simp only [List.map_nil, List.nil_append, List.mem_map, Prod.mk.injEq] at h2
  obtain ⟨r, _, hr, _⟩ := h2
  rw [hv] at hr
  exact Bool.noConfusion hr

theorem reachable_LatentReal {oob : Bool} {st : LSystemBuffer} (h : Reachable oob st) :
    LatentReal st := by
  induction h with
  | construct rules _ => exact LatentReal_construct rules
  | add_rule _ ih =>
    intro t ht hv
    simp only [add_rule, push_back, List.mem_append, List.mem_singleton] at ht
    rcases ht with ht | rfl
    · exact ih t ht hv
    · simp at hv
  | erase _ _ hr h ih => exact LatentReal_erase (reachable_inv hr).1 ih h
  | change_predecessor _ _ _ hr h ih =>
    exact LatentReal_change_predecessor (reachable_inv hr).1 (reachable_inv hr).2 ih h
  | remove_predecessor _ _ hr h ih => exact LatentReal_remove_predecessor (reachable_inv hr).1 ih h
  | change_successor _ _ _ hr h ih => exact LatentReal_change_successor (reachable_inv hr).1 ih h
  | store_add_rule _ _ _ _ hr h ih =>
    exact LatentReal_sync (WF_lsys (reachable_inv hr).1
      (add_rule_keys (reachable_inv hr).1.2.2 _ _)) ih h
  | store_remove_rule _ _ _ hr h ih =>
    exact LatentReal_sync (WF_lsys (reachable_inv hr).1
      (remove_rule_keys (reachable_inv hr).1.2.2 _)) ih h
  | sync _ _ hr h ih => exact LatentReal_sync (reachable_inv hr).1 ih h

/-- C24: invalid entries always carry a real symbol. In every state reachable
from `construct(store)` by the public mutators, by out-of-band `add_rule` and
`remove_rule` calls on the store with their notification, and by `sync()`, every
invalid entry has a non-null predecessor. So the entries the third loop of a
`sync()` finds to promote have a non-null predecessor, and the rules a returning
`sync()` adds to the store all have a non-null key. -/
theorem latent_entries_real (st : LSystemBuffer) (h : Reachable true st) :
    (∀ t ∈ st.buffer, t.valid = false → t.pred ≠ null) ∧
    (∀ t ∈ (sync_pass2 (sync_pass1 st)).buffer, t.valid = false → t.pred ≠ null) ∧
    (∃ n st1, sync n st = Outcome.done st1) ∧
    (∀ n st1, sync n st = Outcome.done st1 →
      (∀ t ∈ st1.buffer, t.valid = false → t.pred ≠ null) ∧
      ∃ added, st1.lsys = st.lsys ++ added ∧ ∀ r ∈ added, r.1 ≠ null) := by
  have hl := reachable_LatentReal h
  have hw := (reachable_inv h).1
  have h12 : ∀ t ∈ (sync_pass2 (sync_pass1 st)).buffer, t.valid = false → t.pred ≠ null :=
    fun t ht hv => sync_pass1_invalid hl t (List.mem_of_mem_filter ht) hv
  refine ⟨hl, h12, ⟨sync_fuel st, sync_result st, sync_eq _ st hw (Nat.le_refl _)⟩, ?_⟩
  intro n st1 hs
  refine ⟨LatentReal_sync hw hl hs, ?_⟩
  rw [sync_det hw hs]
  refine ⟨((sync_pass2 (sync_pass1 st)).buffer.filter
    (promotable (sync_pass2 (sync_pass1 st)).buffer)).map (fun t => (t.pred, t.succ)), ?_, ?_⟩
  · have : (sync_pass2 (sync_pass1 st)).lsys = st.lsys := (sync_pass1_lsys st).1
    simp only [sync_result, promote_all, this]
  · intro r hr
    simp only [List.mem_map, List.mem_filter] at hr
    obtain ⟨t, ⟨ht, hp⟩, rfl⟩ := hr
    exact h12 t ht ((promotable_iff _ _).1 hp).1

theorem latent_entries_real_witness :
    Reachable true shadowed_state ∧
    ((∀ t ∈ shadowed_state.buffer, t.valid = false → t.pred ≠ null) ∧
    (∀ t ∈ (sync_pass2 (sync_pass1 shadowed_state)).buffer, t.valid = false → t.pred ≠ null) ∧
    (∃ n st1, sync n shadowed_state = Outcome.done st1) ∧
    (∀ n st1, sync n shadowed_state = Outcome.done st1 →
      (∀ t ∈ st1.buffer, t.valid = false → t.pred ≠ null) ∧
      ∃ added, st1.lsys = shadowed_state.lsys ++ added ∧ ∀ r ∈ added, r.1 ≠ null)) :=
  ⟨Reachable.change_predecessor 5 1 'F'
      (Reachable.add_rule (Reachable.construct [('F', "FF")] (by decide))) (by decide),
    latent_entries_real shadowed_state
      (Reachable.change_predecessor 5 1 'F'
        (Reachable.add_rule (Reachable.construct [('F', "FF")] (by decide))) (by decide))⟩

/-! ### What `sync` keeps of the display order -/

theorem sync_rule_fresh_le (st : LSystemBuffer) (r : predecessor × successor) :
    st.fresh ≤ (sync_rule st r).fresh := by
  unfold sync_rule
  split
  · exact Nat.le_refl _
  · simp [push_back]

/-- The shape of the buffer after the first loop of `sync` over the rules
`rules`: the old entries in their order, changed at most in the successor of a
valid entry whose rule is among `rules`, followed by one new valid entry for
every rule without a valid entry, in the order of the rules. -/
theorem foldl_sync_rule_shape : ∀ (rules : production_rules) (st : LSystemBuffer),
    (rules.map (fun r => r.1)).Nodup →
    ((st.buffer.map (fun t => t.node)).Nodup ∧ ∀ t ∈ st.buffer, t.node < st.fresh) →
    ∃ (g : Entry → Entry) (created : List Entry),
      (rules.foldl sync_rule st).buffer = st.buffer.map g ++ created ∧
      (∀ t ∈ st.buffer, (g t).node = t.node ∧ (g t).valid = t.valid ∧ (g t).pred = t.pred ∧
        ((g t).succ = t.succ ∨ (t.valid = true ∧ (t.pred, (g t).succ) ∈ rules))) ∧
      created.map (fun t => (t.valid, t.pred, t.succ)) =
        (rules.filter (fun r => !st.buffer.any (fun t => t.pred == r.1 && t.valid))).map
          (fun r => (true, r.1, r.2)) ∧
      (∀ t ∈ created, st.fresh ≤ t.node) := by
  intro rules
  induction rules with
  | nil =>
    intro st _ _
    exact ⟨id, [], by simp, fun t _ => ⟨rfl, rfl, rfl, Or.inl rfl⟩, by simp, by simp⟩
  | cons r rules ih =>
    intro st hk hn
    rw [List.map_cons, List.nodup_cons] at hk
    rw [List.foldl_cons]
    obtain ⟨g, created, hb, hg, hc, hf⟩ := ih (sync_rule st r) hk.2 (sync_rule_nodes r hn)
    cases hfind : st.buffer.find? (fun t => t.pred == r.1 && t.valid) with
    | some t0 =>
      have ht0 := List.mem_of_find?_eq_some hfind
      have hq0 := List.find?_some hfind
      simp only [Bool.and_eq_true, beq_iff_eq] at hq0
      have hsr : sync_rule st r = LSystemBuffer.mk st.lsys
          (st.buffer.map (fun u => if u.node == t0.node then { u with succ := r.2 } else u))
          st.instruction st.fresh := by
        unfold sync_rule
        rw [hfind]
      have hh : ∀ u : Entry,
          (if u.node == t0.node then { u with succ := r.2 } else u).node = u.node ∧
          (if u.node == t0.node then { u with succ := r.2 } else u).valid = u.valid ∧
          (if u.node == t0.node then { u with succ := r.2 } else u).pred = u.pred := by
        intro u; split <;> exact ⟨rfl, rfl, rfl⟩
      rw [hsr] at hb hg hc hf ⊢
      simp only [List.map_map] at hb
      refine ⟨g ∘ (fun u => if u.node == t0.node then { u with succ := r.2 } else u),
        created, hb, ?_, ?_, hf⟩
      · intro t ht
        have h1 := hg _ (List.mem_map_of_mem _ ht)
        simp only [Function.comp]
        rw [(hh t).1, (hh t).2.1, (hh t).2.2] at h1
        refine ⟨h1.1, h1.2.1, h1.2.2.1, ?_⟩
        rcases h1.2.2.2 with h2 | ⟨hv, hm⟩
        · by_cases e : t.node = t0.node
          · have hte := node_inj hn.1 ht ht0 e
            right
            refine ⟨by rw [hte]; exact hq0.2, ?_⟩
            rw [h2]
            simp only [e, beq_self_eq_true, if_true]
            rw [hte, hq0.1]
            exact List.mem_cons_self _ _
          · left
            rw [h2]
            simp [e]
        · exact Or.inr ⟨hv, List.mem_cons_of_mem _ hm⟩
      · rw [hc]
        have hany : ∀ k : predecessor,
            (st.buffer.map (fun u => if u.node == t0.node then { u with succ := r.2 }
              else u)).any (fun t => t.pred == k && t.valid) =
            st.buffer.any (fun t => t.pred == k && t.valid) := by
          intro k
          rw [List.any_map]
          congr 1
          funext u
          simp only [Function.comp, (hh u).2.1, (hh u).2.2]
        have hr : (!st.buffer.any (fun t => t.pred == r.1 && t.valid)) = false := by
          simp only [Bool.not_eq_false', List.any_eq_true]
          exact ⟨t0, ht0, by simp [hq0.1, hq0.2]⟩
        rw [List.filter_cons, hr]
        simp only [Bool.false_eq_true, if_false]
        congr 1
        apply List.filter_congr
        intro r2 _
        simp only [hany]
    | none =>
      have hsr : sync_rule st r = push_back st true r.1 r.2 := by
        unfold sync_rule
        rw [hfind]
      rw [hsr] at hb hg hc hf ⊢
      simp only [push_back, List.map_append, List.map_cons, List.map_nil,
        List.append_assoc, List.singleton_append] at hb
      have hx := hg ⟨st.fresh, true, r.1, r.2⟩ (by simp [push_back])
      simp only at hx
      have hxs : (g ⟨st.fresh, true, r.1, r.2⟩).succ = r.2 := by
        rcases hx.2.2.2 with h | ⟨_, hm⟩
        · exact h
        · exact absurd (List.mem_map_of_mem (fun r => r.1) hm) hk.1
      refine ⟨g, g ⟨st.fresh, true, r.1, r.2⟩ :: created, hb, ?_, ?_, ?_⟩
      · intro t ht
        have h1 := hg t (by simp [push_back, ht])
        refine ⟨h1.1, h1.2.1, h1.2.2.1, ?_⟩
        rcases h1.2.2.2 with h2 | ⟨hv, hm⟩
        · exact Or.inl h2
        · exact Or.inr ⟨hv, List.mem_cons_of_mem _ hm⟩
      · have hr : (!st.buffer.any (fun t => t.pred == r.1 && t.valid)) = true := by
          simp only [Bool.not_eq_true', List.any_eq_false]
          intro u hu
          have := List.find?_eq_none.1 hfind u hu
          simpa using this
        rw [List.filter_cons, hr]
        simp only [if_true, List.map_cons, hx.2.1, hx.2.2.1, hxs, hc]
        congr 1
        congr 1
        apply List.filter_congr
        intro r2 hr2
        have hne : ¬ r.1 = r2.1 := by
          intro e
          exact hk.1 (by rw [e]; exact List.mem_map_of_mem (fun r => r.1) hr2)
        simp [push_back, List.any_append, hne]
      · intro t ht
        rcases List.mem_cons.1 ht with rfl | ht
        · rw [hx.1]
        · have := hf t ht
          simp only [push_back] at this
          omega

/-- C22: `sync()` preserves the display order and the non-authoritative rows.
For every buffer and every store without a null key, `sync()` returns and the
new buffer is the old one without its stale entries (valid, non-null
predecessor unknown to the store), each survivor at its node and in the old
relative order, followed by the entries `sync` creates: one valid entry per rule
of the store that had no valid entry, in the iteration order of the store, on
new nodes. No invalid entry and no scratch entry is deleted, no predecessor
changes, a scratch entry keeps all its fields, a valid entry stays valid, and a
successor changes only to the store's expansion of a valid entry's symbol. -/
theorem sync_preserves_order (st : LSystemBuffer) (hw : WF st)
    (hk : ∀ r ∈ st.lsys, r.1 ≠ null) :
    ∃ n0, ∀ n, n0 ≤ n → ∃ (st1 : LSystemBuffer) (g : Entry → Entry) (created : List Entry),
      sync n st = Outcome.done st1 ∧
      st1.buffer = (st.buffer.filter (fun t => !stale st.lsys t)).map g ++ created ∧
      (∀ t ∈ st.buffer, t.valid = false ∨ t.pred = null →
        t ∈ st.buffer.filter (fun t => !stale st.lsys t)) ∧
      (∀ t ∈ st.buffer, (g t).node = t.node ∧ (g t).pred = t.pred ∧
        (t.valid = true → (g t).valid = true) ∧
        (t.valid = true → t.pred = null → g t = t) ∧
        ((g t).succ = t.succ ∨ (t.valid = true ∧ (t.pred, (g t).succ) ∈ st.lsys))) ∧
      created.map (fun t => (t.valid, t.pred, t.succ)) =
        (st.lsys.filter (fun r => !st.buffer.any (fun t => t.pred == r.1 && t.valid))).map
          (fun r => (true, r.1, r.2)) ∧
      (∀ t ∈ created, st.fresh ≤ t.node) ∧
      (∀ t ∈ st.buffer, t.node < st.fresh) := by
  obtain ⟨g, created, hb0, hg, hc, hf⟩ :=
    foldl_sync_rule_shape st.lsys st hw.2.2 ⟨hw.1, hw.2.1⟩
  have hb : (sync_pass1 st).buffer = st.buffer.map g ++ created := hb0
  have hl : (sync_pass1 st).lsys = st.lsys := (sync_pass1_lsys st).1
  have hcr : ∀ c ∈ created, c.valid = true ∧ ∃ r ∈ st.lsys, c.pred = r.1 := by
    intro c hcm
    have h1 : (c.valid, c.pred, c.succ) ∈ created.map (fun t => (t.valid, t.pred, t.succ)) :=
      List.mem_map_of_mem _ hcm
    rw [hc] at h1
    simp only [List.mem_map, List.mem_filter, Prod.mk.injEq] at h1
    obtain ⟨r, ⟨hr, _⟩, hv, hp, _⟩ := h1
    exact ⟨hv.symm, r, hr, hp.symm⟩
  have hstale : ∀ t ∈ st.buffer, stale st.lsys (g t) = stale st.lsys t := by
    intro t ht
    unfold stale
    rw [(hg t ht).2.1, (hg t ht).2.2.1]
  have h2 : (sync_pass2 (sync_pass1 st)).buffer =
      (st.buffer.filter (fun t => !stale st.lsys t)).map g ++ created := by
    simp only [sync_pass2, hb, hl, List.filter_append, List.filter_map]
    congr 1
    · congr 1
      apply List.filter_congr
      intro t ht
      simp only [Function.comp, hstale t ht]
    · rw [List.filter_eq_self]
      intro c hcm
      obtain ⟨hv, r, hr, hp⟩ := hcr c hcm
      have := has_rule_of_mem hr
      rw [← hp] at this
      simp [stale, this]
  have hmemf : ∀ t, t ∈ st.buffer.filter (fun t => !stale st.lsys t) → t ∈ st.buffer :=
    fun t ht => List.mem_of_mem_filter ht
  have h3 : (sync_result st).buffer =
      (st.buffer.filter (fun t => !stale st.lsys t)).map
        ((fun t => if promotable (sync_pass2 (sync_pass1 st)).buffer t
          then { t with valid := true } else t) ∘ g) ++ created := by
    simp only [sync_result, promote_all]
    rw [h2, List.map_append, List.map_map]
    congr 1
    conv => rhs; rw [← List.map_id created]
    apply List.map_congr_left
    intro c hcm
    simp [promotable, (hcr c hcm).1]
  refine ⟨sync_fuel st, ?_⟩
  intro n hn
  refine ⟨sync_result st, _, created, sync_eq n st hw hn, h3, ?_, ?_, hc, hf, hw.2.1⟩
  · intro t ht hna
    rw [List.mem_filter]
    refine ⟨ht, ?_⟩
    rcases hna with h | h
    · simp [stale, h]
    · simp [stale, h]
  · intro t ht
    obtain ⟨h1, h2v, h3p, h4⟩ := hg t ht
    have hpr : ∀ u : Entry,
        (if promotable (sync_pass2 (sync_pass1 st)).buffer u
          then { u with valid := true } else u).node = u.node ∧
        (if promotable (sync_pass2 (sync_pass1 st)).buffer u
          then { u with valid := true } else u).pred = u.pred ∧
        (if promotable (sync_pass2 (sync_pass1 st)).buffer u
          then { u with valid := true } else u).succ = u.succ ∧
        (u.valid = true → (if promotable (sync_pass2 (sync_pass1 st)).buffer u
          then { u with valid := true } else u) = u) := by
      intro u
      split
      · rename_i hp
        refine ⟨rfl, rfl, rfl, ?_⟩
        intro hv
        simp [promotable, hv] at hp
      · exact ⟨rfl, rfl, rfl, fun _ => rfl⟩
    simp only [Function.comp]
    refine ⟨(hpr (g t)).1.trans h1, (hpr (g t)).2.1.trans h3p, ?_, ?_, ?_⟩
    · intro hv
      rw [(hpr (g t)).2.2.2 (h2v.trans hv)]
      exact h2v.trans hv
    · intro hv hp
      rw [(hpr (g t)).2.2.2 (h2v.trans hv)]
      have hs : (g t).succ = t.succ := by
        rcases h4 with h | ⟨_, hm⟩
        · exact h
        · exact absurd hp (by
            have := hk _ hm
            simpa using this)
      cases hgt : g t with
      | mk a b c d =>
        rw [hgt] at h1 h2v h3p hs
        simp only at h1 h2v h3p hs
        cases t with
        | mk a2 b2 c2 d2 =>
          simp only at h1 h2v h3p hs
          rw [h1, h2v, h3p, hs]
    · rw [(hpr (g t)).2.2.1]
      exact h4

theorem sync_preserves_order_witness :
    WF unsynced_state ∧ (∀ r ∈ unsynced_state.lsys, r.1 ≠ null) ∧
    sync 9 unsynced_state = Outcome.done
      ⟨[('F', "FF"), ('G', "GG"), ('H', "HH")],
        [⟨0, true, 'G', "GG"⟩, ⟨1, true, 'H', "HH"⟩, ⟨3, true, null, "s"⟩,
          ⟨4, true, 'F', "FF"⟩], none, 5⟩ ∧
    ∃ n0, ∀ n, n0 ≤ n → ∃ (st1 : LSystemBuffer) (g : Entry → Entry) (created : List Entry),
      sync n unsynced_state = Outcome.done st1 ∧
      st1.buffer = (unsynced_state.buffer.filter
        (fun t => !stale unsynced_state.lsys t)).map g ++ created ∧
      (∀ t ∈ unsynced_state.buffer, t.valid = false ∨ t.pred = null →
        t ∈ unsynced_state.buffer.filter (fun t => !stale unsynced_state.lsys t)) ∧
      (∀ t ∈ unsynced_state.buffer, (g t).node = t.node ∧ (g t).pred = t.pred ∧
        (t.valid = true → (g t).valid = true) ∧
        (t.valid = true → t.pred = null → g t = t) ∧
        ((g t).succ = t.succ ∨
          (t.valid = true ∧ (t.pred, (g t).succ) ∈ unsynced_state.lsys))) ∧
      created.map (fun t => (t.valid, t.pred, t.succ)) =
        (unsynced_state.lsys.filter
          (fun r => !unsynced_state.buffer.any (fun t => t.pred == r.1 && t.valid))).map
          (fun r => (true, r.1, r.2)) ∧
      (∀ t ∈ created, unsynced_state.fresh ≤ t.node) ∧
      (∀ t ∈ unsynced_state.buffer, t.node < unsynced_state.fresh) :=
  ⟨by decide, by decide, by decide,
    sync_preserves_order unsynced_state (by decide) (by decide)⟩

/-! ### Termination of the re-entrant `sync` -/

theorem invalid_count_sync_rule (st : LSystemBuffer) (r : predecessor × successor) :
    invalid_count (sync_rule st r).buffer = invalid_count st.buffer := by
  unfold sync_rule invalid_count
  split
  · rename_i t _
    simp only [List.filter_map, List.length_map]
    congr 1
    apply List.filter_congr
    intro u _
    simp only [Function.comp]
    split <;> rfl
  · simp [push_back, List.filter_append]

theorem invalid_count_sync_pass1 (st : LSystemBuffer) :
    invalid_count (sync_pass1 st).buffer = invalid_count st.buffer := by
  unfold sync_pass1
  generalize st.lsys = rules
  induction rules generalizing st with
  | nil => rfl
  | cons r rules ih =>
    rw [List.foldl_cons, ih, invalid_count_sync_rule]

theorem invalid_count_sync_pass2 (st : LSystemBuffer) :
    invalid_count (sync_pass2 st).buffer = invalid_count st.buffer := by
  unfold sync_pass2 invalid_count
  simp only [List.filter_filter]
  congr 1
  apply List.filter_congr
  intro u _
  cases hv : u.valid <;> simp [stale, hv]

theorem invalid_count_set_valid {st : LSystemBuffer}
    (hn : (st.buffer.map (fun t => t.node)).Nodup) {it : Nat} {t : Entry}
    (hd : deref st it = some t) (hv : t.valid = false) :
    invalid_count (set_valid st.buffer it) + 1 = invalid_count st.buffer := by
  obtain ⟨ht, hti⟩ := deref_some hd
  obtain ⟨pre, suf, hsplit⟩ := List.append_of_mem ht
  rw [hsplit] at hn ⊢
  rw [← hti, set_valid_split hn]
  simp [invalid_count, List.filter_append, List.filter_cons, hv]
  omega

theorem invalid_count_promote_all (st : LSystemBuffer) :
    invalid_count (promote_all st).buffer ≤ invalid_count st.buffer := by
  unfold promote_all invalid_count
  simp only [List.filter_map, List.length_map]
  apply List.Sublist.length_le
  apply List.monotone_filter_right
  intro u hu
  simp only [Function.comp] at hu
  split at hu
  · simp at hu
  · exact hu

theorem has_rule_add_rule_self (l : production_rules) (p : predecessor) (s : successor) :
    LSystem.has_rule (LSystem.add_rule l p s) p = true := by
  unfold LSystem.add_rule
  split
  · rename_i h
    simp only [LSystem.has_rule, List.any_eq_true, beq_iff_eq] at h ⊢
    obtain ⟨r, hr, hk⟩ := h
    exact ⟨_, List.mem_map_of_mem _ hr, by simp [hk]⟩
  · simp [LSystem.has_rule]

/-- An entry that is not stale survives `sync` at its node. -/
theorem sync_result_keeps {st : LSystemBuffer} (hw : WF st) {u : Entry} (hu : u ∈ st.buffer)
    (hs : stale st.lsys u = false) : ∃ v ∈ (sync_result st).buffer, v.node = u.node := by
  obtain ⟨g, created, hb0, hg, _, _⟩ :=
    foldl_sync_rule_shape st.lsys st hw.2.2 ⟨hw.1, hw.2.1⟩
  have hb : (sync_pass1 st).buffer = st.buffer.map g ++ created := hb0
  have hl : (sync_pass1 st).lsys = st.lsys := (sync_pass1_lsys st).1
  have h1 : g u ∈ (sync_pass2 (sync_pass1 st)).buffer := by
    simp only [sync_pass2, List.mem_filter, hb, hl]
    refine ⟨List.mem_append_left _ (List.mem_map_of_mem _ hu), ?_⟩
    have : stale st.lsys (g u) = stale st.lsys u := by
      unfold stale
      rw [(hg u hu).2.1, (hg u hu).2.2.1]
    simp [this, hs]
  refine ⟨if promotable (sync_pass2 (sync_pass1 st)).buffer (g u)
      then { g u with valid := true } else g u, ?_, ?_⟩
  · simp only [sync_result, promote_all]
    exact List.mem_map_of_mem
      (fun t => if promotable (sync_pass2 (sync_pass1 st)).buffer t
        then { t with valid := true } else t) h1
  · have : (if promotable (sync_pass2 (sync_pass1 st)).buffer (g u)
        then { g u with valid := true } else g u).node = (g u).node := by
      split <;> rfl
    rw [this]
    exact (hg u hu).1

/-- The nested `sync` that a promotion of the third loop runs keeps the entry
the loop is positioned on. -/
theorem nested_sync_keeps {st : LSystemBuffer} (hw : WF st) {it : Nat} {t : Entry}
    (hd : deref st it = some t) {n : Nat} {st1 : LSystemBuffer}
    (hs : sync n (LSystemBuffer.mk (LSystem.add_rule st.lsys t.pred t.succ)
      (set_valid st.buffer it) st.instruction st.fresh) = Outcome.done st1) :
    (deref st1 it).isSome = true := by
  obtain ⟨ht, hti⟩ := deref_some hd
  have hw1 : WF (LSystemBuffer.mk (LSystem.add_rule st.lsys t.pred t.succ)
      (set_valid st.buffer it) st.instruction st.fresh) := by
    refine ⟨?_, ?_, add_rule_keys hw.2.2 _ _⟩
    · simp only [set_valid_nodes]
      exact hw.1
    · intro u hu
      simp only [set_valid, List.mem_map] at hu
      obtain ⟨w, hwm, rfl⟩ := hu
      have := hw.2.1 w hwm
      split <;> simpa using this
  have hmem : ({ t with valid := true } : Entry) ∈ set_valid st.buffer it := by
    simp only [set_valid, List.mem_map]
    exact ⟨t, ht, by simp [hti]⟩
  have hns : stale (LSystem.add_rule st.lsys t.pred t.succ) { t with valid := true } = false := by
    simp [stale, has_rule_add_rule_self]
  obtain ⟨v, hv, hvn⟩ := sync_result_keeps hw1 hmem hns
  rw [sync_det hw1 hs]
  unfold deref
  rw [List.find?_isSome]
  exact ⟨v, hv, by simp [hvn, hti]⟩

/-- C23: `sync()` terminates on every state although it re-enters itself. With
fuel `length + number of invalid entries + 2` (both taken after the first two
loops) `sync` returns, and every run that returns gives the same state. The
first two loops leave the number of invalid entries as it is, the state a
promotion hands to the store (and so to the nested `sync`) has one invalid entry
less, and `sync` as a whole never has more invalid entries on return: the
third loop only needs the nested `sync` on states with strictly fewer invalid
entries. The nested `sync` never deletes the entry the third loop is positioned
on. -/
theorem sync_terminates (st : LSystemBuffer) (hw : WF st) :
    (∀ n, sync_fuel st ≤ n → sync n st = Outcome.done (sync_result st)) ∧
    sync_fuel st = (sync_pass2 (sync_pass1 st)).buffer.length +
      invalid_count (sync_pass2 (sync_pass1 st)).buffer + 2 ∧
    (∀ n st1, sync n st = Outcome.done st1 → st1 = sync_result st) ∧
    invalid_count (sync_pass2 (sync_pass1 st)).buffer = invalid_count st.buffer ∧
    (∀ it t, deref st it = some t → t.valid = false →
      invalid_count (set_valid st.buffer it) + 1 = invalid_count st.buffer) ∧
    invalid_count (sync_result st).buffer ≤ invalid_count st.buffer ∧
    (∀ (notify : LSystemBuffer → Outcome) (k : Nat),
      (∀ st2, WF st2 → Stable st2 →
        st2.buffer.length = (sync_pass2 (sync_pass1 st)).buffer.length →
        invalid_count st2.buffer < invalid_count (sync_pass2 (sync_pass1 st)).buffer →
        notify st2 = Outcome.done (promote_all st2)) →
      (sync_pass2 (sync_pass1 st)).buffer.length < k →
      sync_pass3 notify k (sync_pass2 (sync_pass1 st))
        (begin_ (sync_pass2 (sync_pass1 st)).buffer) = Outcome.done (sync_result st)) ∧
    (∀ it t n st1, deref st it = some t →
      sync n (LSystemBuffer.mk (LSystem.add_rule st.lsys t.pred t.succ)
        (set_valid st.buffer it) st.instruction st.fresh) = Outcome.done st1 →
      (deref st1 it).isSome = true) := by
  refine ⟨fun n hn => sync_eq n st hw hn, rfl, fun n st1 h => sync_det hw h, ?_, ?_, ?_, ?_, ?_⟩
  · rw [invalid_count_sync_pass2, invalid_count_sync_pass1]
  · intro it t hd hv
    exact invalid_count_set_valid hw.1 hd hv
  · unfold sync_result
    exact le_trans (invalid_count_promote_all _)
      (by rw [invalid_count_sync_pass2, invalid_count_sync_pass1])
  · intro notify k hnotify hk
    exact sync_pass3_run notify _ (sync_pass12_WF hw) (sync_pass12_stable hw) hnotify _ [] k
      (by simp) (by simp) hk
  · intro it t n st1 hd hs
    exact nested_sync_keeps hw hd hs

theorem sync_terminates_witness :
    WF unsynced_state ∧
    sync_fuel unsynced_state = 7 ∧
    invalid_count unsynced_state.buffer = 1 ∧
    (∀ n, 7 ≤ n → sync n unsynced_state = Outcome.done (sync_result unsynced_state)) ∧
    sync_result unsynced_state = ⟨[('F', "FF"), ('G', "GG"), ('H', "HH")],
        [⟨0, true, 'G', "GG"⟩, ⟨1, true, 'H', "HH"⟩, ⟨3, true, null, "s"⟩,
          ⟨4, true, 'F', "FF"⟩], none, 5⟩ ∧
    invalid_count (set_valid unsynced_state.buffer 1) + 1 =
      invalid_count unsynced_state.buffer ∧
    invalid_count (sync_result unsynced_state).buffer ≤ invalid_count unsynced_state.buffer ∧
    (∀ n st1, sync n (LSystemBuffer.mk (LSystem.add_rule unsynced_state.lsys 'H' "HH")
        (set_valid unsynced_state.buffer 1) none 4) = Outcome.done st1 →
      (deref st1 1).isSome = true) :=
  ⟨by decide, by decide, by decide,
    (sync_terminates unsynced_state (by decide)).1,
    by decide,
    (sync_terminates unsynced_state (by decide)).2.2.2.2.1 1 ⟨1, false, 'H', "HH"⟩
      (by decide) rfl,
    (sync_terminates unsynced_state (by decide)).2.2.2.2.2.1,
    fun n st1 h => (sync_terminates unsynced_state (by decide)).2.2.2.2.2.2.2 1
      ⟨1, false, 'H', "HH"⟩ n st1 (by decide) h⟩

/-! ### An iterator to an erased node -/

/-- C6 as stated fails: in the reachable state `lone_latent_state` the node `0`
has been erased, so an iterator to it is not a live member of the buffer, but it
is not `end()` either: the `Expects` of `erase` passes and the call does not stop
with a precondition violation. -/
theorem precondition_violation_atomic_counterexample :
    ¬ ∀ (st : LSystemBuffer) (cit : Nat), Reachable false st → deref st cit = none →
      ∀ (n : Nat) (p : predecessor) (s : successor),
        erase n st cit = Outcome.violation st ∧
        change_predecessor n st cit p = Outcome.violation st ∧
        remove_predecessor n st cit = Outcome.violation st ∧
        change_successor n st cit s = Outcome.violation st := by
  intro h
  have h1 := (h lone_latent_state 0 lone_latent_reachable (by decide) 0 'G' "").1
  exact absurd h1 (by decide)

/-! ### Promoting a scratch entry in a reachable state -/

theorem latent_null_unreachable (oob : Bool) : ¬ Reachable oob latent_null_state := by
  intro h
  exact reachable_LatentReal h ⟨1, false, null, "t"⟩ (by decide) rfl rfl

/-- C8: promoting a scratch entry (scenario A). In every consistent state the
program can reach (by the public mutators, by out-of-band changes of the store
with their notification, and by `sync`), for every scratch entry `e` at `cit`
and every non-null `p` that is the predecessor of no entry,
`change_predecessor(cit, p)` returns with `e` equal to `(valid, p, successor
unchanged)`, every other entry unchanged and the store equal to the old store
plus the rule `p -> successor`; from the empty store the store becomes exactly
that one rule. -/
theorem change_predecessor_scratch (oob : Bool) (st : LSystemBuffer) (cit : Nat) (e : Entry)
    (p : predecessor) (hr : Reachable oob st) (hc : Consistent st) (hs : Shadowed st)
    (hd : deref st cit = some e) (hv : e.valid = true) (hn : e.pred = null)
    (hp : p ≠ null) (hf : ∀ u ∈ st.buffer, u.pred ≠ p) :
    (∃ n0, ∀ n, n0 ≤ n → change_predecessor n st cit p =
      Outcome.done { st with
        buffer := st.buffer.map (fun t => if t.node = cit then ⟨cit, true, p, e.succ⟩ else t),
        lsys := st.lsys ++ [(p, e.succ)] }) ∧
    (st.lsys = [] → ∃ n0, ∀ n, n0 ≤ n → ∃ st1,
      change_predecessor n st cit p = Outcome.done st1 ∧ st1.lsys = [(p, e.succ)]) :=
  change_predecessor_scratch_real st cit e p (reachable_inv hr).1 (reachable_inv hr).2 hc hs
    (reachable_LatentReal hr) hd hv hn hp hf

theorem scratch_reachable (oob : Bool) : Reachable oob scratch_state :=
  Reachable.remove_predecessor 5 0 (Reachable.construct [('F', "FF")] (by decide)) (by decide)

theorem change_predecessor_scratch_witness :
    Reachable true scratch_state ∧ Consistent scratch_state ∧ Shadowed scratch_state ∧
    deref scratch_state 0 = some ⟨0, true, null, "FF"⟩ ∧
      ((∃ n0, ∀ n, n0 ≤ n → change_predecessor n scratch_state 0 'F' =
        Outcome.done { lsys := [('F', "FF")], buffer := [⟨0, true, 'F', "FF"⟩],
                       instruction := none, fresh := 1 }) ∧
      (scratch_state.lsys = [] → ∃ n0, ∀ n, n0 ≤ n → ∃ st1,
        change_predecessor n scratch_state 0 'F' = Outcome.done st1 ∧
          st1.lsys = [('F', "FF")])) :=
  ⟨scratch_reachable true, by decide, by decide, by decide,
    change_predecessor_scratch true scratch_state 0 ⟨0, true, null, "FF"⟩ 'F'
      (scratch_reachable true) (by decide) (by decide) (by decide) rfl rfl (by decide)
      (by decide)⟩

end LSystemBuffer

end procgui
